import Mathlib

/-!
ILI9xxx display driver: dirty rectangle, frame buffer and flush engine

Shallow embedding of `esphome/components/ili9xxx/ili9xxx_display.cpp`.

Conventions of the embedding
* every machine integer is a `Nat` or an `Int`; a store into a 16-bit field goes
  through `u16`, `size_t` arithmetic goes through `sz` (32-bit targets);
* the frame buffer is a list of bytes, `buffer_ = none` is the null pointer;
* every call into the bus transport, the data/command pin, the watchdog and the
  delay routine is recorded, in order, as a `BusOp`.
-/

namespace ILI9XXX

/-! Data model -/

/-- Colour value handed over by the graphics framework (`Color`): four channels. -/
structure Color where
  r : Nat
  g : Nat
  b : Nat
  w : Nat
deriving DecidableEq, Repr

/-- The colour utility collaborator `display::ColorUtil`. Its functions live outside
this file, so the driver is parameterised by them. `color_to_565` is the RGB-order
conversion (the order argument the driver passes, and the default of that argument).
The embedding takes each result at the width of the C++ return type: `uint16_t` for
`color_to_565`, `uint8_t` for `color_to_332` and `color_to_index8_palette888`. -/
structure ColorUtil where
  color_to_565 : Color → Nat
  color_to_332 : Color → Nat
  color_to_index8_palette888 : Color → List Nat → Nat
  rgb332_to_color : Nat → Color
  index8_to_color_palette888 : Nat → List Nat → Color

/-- Enumeration `ILI9XXXColorMode` of the buffer layouts. -/
inductive ILI9XXXColorMode where
  | BITS_8
  | BITS_8_INDEXED
  | BITS_16
deriving DecidableEq, Repr

/-- One call into a collaborator, as seen from outside the driver. -/
inductive BusOp where
  | enable
  | disable
  | dc (level : Bool)
  | write_byte (b : Nat)
  | write_array (bytes : List Nat)
  | feed_wdt
  | delay (ms : Nat)
deriving DecidableEq, Repr

/-- The fields of `ILI9XXXDisplay` the operations below read or write. The class
declaration is not part of the sources; the embedding follows the way the `.cpp` uses
the fields: `width_`, `height_` and the offsets are signed 16-bit, the four watermarks
unsigned 16-bit, `data_rate_` unsigned 32-bit, the buffer an array of bytes. Range
assumptions appear as hypotheses of the theorems. -/
structure State where
  width_ : Nat
  height_ : Nat
  offset_x_ : Int
  offset_y_ : Int
  x_low_ : Nat
  y_low_ : Nat
  x_high_ : Nat
  y_high_ : Nat
  buffer_ : Option (List Nat)
  palette_ : List Nat
  buffer_color_mode_ : ILI9XXXColorMode
  is_18bitdisplay_ : Bool
  data_rate_ : Nat
  prossing_update_ : Bool
  need_update_ : Bool
deriving DecidableEq, Repr

/-- Truncation to `uint8_t`. -/
def u8 (n : Nat) : Nat := n % 256

/-- Truncation to `uint16_t`. -/
def u16 (n : Nat) : Nat := n % 65536

/-- Truncation to `size_t` (32 bits on the supported microcontrollers). -/
def sz (n : Nat) : Nat := n % 4294967296

/-- Conversion of a signed value to `uint16_t`. -/
def u16i (n : Int) : Nat := (n % 65536).toNat

def SPI_SETUP_US : Nat := 100

def SPI_MAX_BLOCK_SIZE : Nat := 4092

def State.get_width_internal (s : State) : Int := (s.width_ : Int)

def State.get_height_internal (s : State) : Int := (s.height_ : Int)

/-- Number of pixels, `get_buffer_length_` (it does not count bytes). -/
def State.get_buffer_length_ (s : State) : Nat := s.width_ * s.height_

/-- Bytes per stored pixel of a buffer layout. -/
def bytes_per_pixel : ILI9XXXColorMode → Nat
  | .BITS_16 => 2
  | _ => 1

/-- Modelled from the spec: `allocate_buffer_` is defined outside the source file.
"idempotent; allocates width×height×bpp bytes on first call, no-op thereafter". The
spec does not say what a fresh buffer holds; it is zero-filled here. -/
def allocate_buffer_ (s : State) : State :=
  match s.buffer_ with
  | some _ => s
  | none =>
    let len := s.get_buffer_length_ * bytes_per_pixel s.buffer_color_mode_
    { s with buffer_ := some (List.replicate len 0) }

/-- The four assignments that end `setup` and `display_`: the watermarks are put
into the state that stands for "nothing to draw". -/
def invalidate_watermarks (s : State) : State :=
  { s with x_low_ := u16 s.width_, y_low_ := u16 s.height_, x_high_ := 0, y_high_ := 0 }

/-- Read of `buffer_[pos]`. -/
def peek (buf : List Nat) (pos : Nat) : Nat := buf.getD pos 0

/-- Body of `if (updated) {...}`: low and high watermark. Each of the four `if`s
reads and writes one field only. -/
def mark_updated (s : State) (x y : Int) : State :=
  { s with
    x_low_ := if x < (s.x_low_ : Int) then u16i x else s.x_low_
    y_low_ := if y < (s.y_low_ : Int) then u16i y else s.y_low_
    x_high_ := if x > (s.x_high_ : Int) then u16i x else s.x_high_
    y_high_ := if y > (s.y_high_ : Int) then u16i y else s.y_high_ }

/-- The statement `if (buffer_[pos] != v) { buffer_[pos] = v; updated = true; }`:
the buffer and the `updated` flag after it. -/
def compare_store (buf : List Nat) (pos v : Nat) (updated : Bool) : List Nat × Bool :=
  if peek buf pos ≠ v then (buf.set pos (u8 v), true) else (buf, updated)

/-- The `switch` of `draw_absolute_pixel_internal` followed by the final
compare-and-store, which every branch falls into: the 8-bit modes store one byte at
`pos`; the 16-bit mode stores the high byte at `pos * 2`, then the low byte
(`new_color & 0xFF`) at `pos * 2 + 1`. `updated` starts `false`. -/
def store_pixel (cu : ColorUtil) (s : State) (buf : List Nat) (pos : Nat) (color : Color) :
    List Nat × Bool :=
  match s.buffer_color_mode_ with
  | .BITS_8_INDEXED =>
    compare_store buf pos (u8 (cu.color_to_index8_palette888 color s.palette_)) false
  | .BITS_16 =>
    let new_color := u16 (cu.color_to_565 color)
    let r := compare_store buf (pos * 2) (u8 (new_color >>> 8)) false
    compare_store r.1 (pos * 2 + 1) (new_color &&& 0xFF) r.2
  | .BITS_8 => compare_store buf pos (u8 (cu.color_to_332 color)) false

/-- Embedding of `ILI9XXXDisplay::draw_absolute_pixel_internal`. `pos` cannot overflow
32 bits for 16-bit panel dimensions. -/
def draw_absolute_pixel_internal (cu : ColorUtil) (s : State) (x y : Int) (color : Color) :
    State :=
  if x ≥ s.get_width_internal ∨ x < 0 ∨ y ≥ s.get_height_internal ∨ y < 0 then s
  else
    let s0 := allocate_buffer_ s
    match s0.buffer_ with
    | none => s0
    | some buf =>
      let pos : Nat := (y * (s0.width_ : Int) + x).toNat
      let r := store_pixel cu s0 buf pos color
      let s1 := { s0 with buffer_ := some r.1 }
      if r.2 then mark_updated s1 x y else s1

/-- Library `memset`: the first `n` bytes take the value `v`. -/
def memset (buf : List Nat) (v n : Nat) : List Nat :=
  (List.range n).foldl (fun b i => b.set i v) buf

/-- The loop `for (i = 0; i < len; i = i + 2)` of `fill`, storing the high byte at
`i` and the low byte at `i + 1`. -/
def fill_loop (hi lo len : Nat) (i : Nat) (buf : List Nat) : List Nat :=
  if i < len then fill_loop hi lo len (i + 2) ((buf.set i hi).set (i + 1) lo) else buf
termination_by len - i

/-- Embedding of `ILI9XXXDisplay::fill`. -/
def fill (cu : ColorUtil) (s : State) (color : Color) : State :=
  let s0 := allocate_buffer_ s
  let s1 := { s0 with
    x_low_ := 0
    y_low_ := 0
    x_high_ := u16i (s0.get_width_internal - 1)
    y_high_ := u16i (s0.get_height_internal - 1) }
  match s1.buffer_ with
  | none => s1
  | some buf =>
    match s1.buffer_color_mode_ with
    | .BITS_8_INDEXED =>
      let new_color := u8 (cu.color_to_index8_palette888 color s1.palette_)
      { s1 with buffer_ := some (memset buf (u8 new_color) s1.get_buffer_length_) }
    | .BITS_16 =>
      let new_color := u16 (cu.color_to_565 color)
      let buffer_length_16_bits := s1.get_buffer_length_ * 2
      if u8 (new_color >>> 8) = u8 new_color then
        { s1 with buffer_ := some (memset buf (u8 new_color) buffer_length_16_bits) }
      else
        let filled := fill_loop (u8 (new_color >>> 8)) (u8 new_color) buffer_length_16_bits 0 buf
        { s1 with buffer_ := some filled }
    | .BITS_8 =>
      let new_color := u8 (cu.color_to_332 color)
      { s1 with buffer_ := some (memset buf (u8 new_color) s1.get_buffer_length_) }

/-- Store a 16 bit value in a buffer, big endian: `put16_be(buf + off, value)`. -/
def put16_be (buf : List Nat) (off : Nat) (value : Nat) : List Nat :=
  (buf.set off (u8 (value >>> 8))).set (off + 1) (u8 value)

/-- Controller command "column address set" (`ILI9XXX_CASET` of the defines header). -/
def ILI9XXX_CASET : Nat := 0x2A

/-- Controller command "page address set" (`ILI9XXX_PASET` of the defines header). -/
def ILI9XXX_PASET : Nat := 0x2B

/-- Controller command "memory write" (`ILI9XXX_RAMWR` of the defines header). -/
def ILI9XXX_RAMWR : Nat := 0x2C

/-- Embedding of `ILI9XXXDisplay::set_addr_window_`; the arguments are `uint16_t`, the
sums with the offsets are converted back to `uint16_t` by `put16_be`. -/
def set_addr_window_ (s : State) (x1 y1 x2 y2 : Nat) : List BusOp :=
  let buf0 : List Nat := [0, 0, 0, 0]
  let buf1 := put16_be buf0 0 (u16i ((x1 : Int) + s.offset_x_))
  let buf2 := put16_be buf1 2 (u16i ((x2 : Int) + s.offset_x_))
  let buf3 := put16_be buf2 0 (u16i ((y1 : Int) + s.offset_y_))
  let buf4 := put16_be buf3 2 (u16i ((y2 : Int) + s.offset_y_))
  [ .dc false, .write_byte ILI9XXX_CASET,
    .dc true, .write_array (buf2.take 4),
    .dc false, .write_byte ILI9XXX_PASET,
    .dc true, .write_array (buf4.take 4),
    .dc false, .write_byte ILI9XXX_RAMWR,
    .dc true ]

/-- Local variables of the "multiple write" loop of `display_`, with the bus
operations issued so far. -/
structure Flush where
  transfer_buffer : List Nat
  idx : Nat
  pixel : Nat
  pos : Nat
  out : List BusOp
deriving DecidableEq, Repr

/-- The `switch` of the loop: the 565 value of the buffer pixel number `pos`. -/
def color_val_at (cu : ColorUtil) (s : State) (buf : List Nat) (pos : Nat) : Nat :=
  match s.buffer_color_mode_ with
  | .BITS_8 => u16 (cu.color_to_565 (cu.rgb332_to_color (peek buf pos)))
  | .BITS_8_INDEXED =>
    u16 (cu.color_to_565 (cu.index8_to_color_palette888 (peek buf pos) s.palette_))
  | .BITS_16 => u16 ((peek buf (pos * 2) <<< 8) + peek buf (pos * 2 + 1))

/-- The bytes one pixel puts on the wire, as `stage_pixel` below stores them: three in
18-bit mode, else the two of `put16_be`. -/
def wire_bytes (s : State) (color_val : Nat) : List Nat :=
  if s.is_18bitdisplay_ then
    [u8 ((color_val &&& 0xF800) >>> 8), u8 ((color_val &&& 0x7E0) >>> 3), u8 (color_val <<< 3)]
  else
    [u8 (color_val >>> 8), u8 color_val]

/-- Number of bytes one pixel puts on the wire. -/
def wire_size (s : State) : Nat := if s.is_18bitdisplay_ then 3 else 2

/-- The statement `if (is_18bitdisplay_) {...} else {...}` of the loop: the pixel is
appended to the staging buffer at `idx`; yields the buffer and the new `idx`. -/
def stage_pixel (s : State) (transfer_buffer : List Nat) (idx : Nat) (color_val : Nat) :
    List Nat × Nat :=
  if s.is_18bitdisplay_ then
    let t0 := transfer_buffer.set idx (u8 ((color_val &&& 0xF800) >>> 8))
    let t1 := t0.set (idx + 1) (u8 ((color_val &&& 0x7E0) >>> 3))
    let t2 := t1.set (idx + 2) (u8 (color_val <<< 3))
    (t2, idx + 3)
  else (put16_be transfer_buffer idx color_val, idx + 2)

/-- One pass through the body of `while (rem-- != 0)`. `tbs` is
`ILI9XXX_TRANSFER_BUFFER_SIZE`, `w` the width of the dirty rectangle. For a rectangle
inside the panel `w ≤ width_` and `pos` stays far below `2^32`. -/
def flush_step (cu : ColorUtil) (tbs : Nat) (s : State) (buf : List Nat) (w : Nat)
    (l : Flush) : Flush :=
  let color_val := color_val_at cu s buf l.pos
  let st := stage_pixel s l.transfer_buffer l.idx color_val
  { transfer_buffer := st.1
    idx := if st.2 = tbs then 0 else st.2
    out := if st.2 = tbs then l.out ++ [.write_array (st.1.take st.2), .feed_wdt] else l.out
    pixel := if l.pixel + 1 = w then 0 else l.pixel + 1
    pos := if l.pixel + 1 = w then l.pos + 1 + (s.width_ - w) else l.pos + 1 }

/-- The loop `while (rem-- != 0)`, by recursion on `rem`. -/
def flush_loop (cu : ColorUtil) (tbs : Nat) (s : State) (buf : List Nat) (w : Nat) :
    Nat → Flush → Flush
  | 0, l => l
  | rem + 1, l => flush_loop cu tbs s buf w rem (flush_step cu tbs s buf w l)

/-- The `else` branch of `display_` ("Doing multiple write"). -/
def multiple_write (cu : ColorUtil) (tbs : Nat) (s : State) (buf : List Nat) (w h : Nat) :
    List BusOp :=
  let rem := sz (h * w)
  let l0 : Flush :=
    { transfer_buffer := List.replicate tbs 0, idx := 0, pixel := 0,
      pos := s.y_low_ * s.width_ + s.x_low_,
      out := set_addr_window_ s s.x_low_ s.y_low_ s.x_high_ s.y_high_ }
  let l := flush_loop cu tbs s buf w rem l0
  if l.idx ≠ 0 then l.out ++ [.write_array (l.transfer_buffer.take l.idx)] else l.out

/-- The `if` branch of `display_` ("Doing single write"). The byte offset
`y_low_ * width_ * 2` is computed in `int` and cannot overflow for 16-bit operands. -/
def single_write (s : State) (buf : List Nat) (h : Nat) : List BusOp :=
  set_addr_window_ s 0 s.y_low_ (u16i (s.get_width_internal - 1)) s.y_high_ ++
    [.write_array ((buf.drop (s.y_low_ * s.width_ * 2)).take (sz (sz (h * s.width_) * 2)))]

/-- Estimated time for a single write, `sw_time`. -/
def sw_time (s : State) (h mhz : Nat) : Nat :=
  sz (sz (sz (s.width_ * h) * 16) / mhz +
    sz (sz (sz (sz (s.width_ * h) * 2) / SPI_MAX_BLOCK_SIZE * SPI_SETUP_US) * 2))

/-- Estimated time for multiple writes, `mw_time`. -/
def mw_time (tbs w h mhz : Nat) : Nat :=
  sz (sz (sz (w * h) * 16) / mhz + sz (sz (sz (w * h) * 2) / tbs * SPI_SETUP_US))

/-- The condition of `display_` that selects the single write. -/
def use_single_write (tbs : Nat) (s : State) (w h mhz : Nat) : Bool :=
  decide (s.buffer_color_mode_ = .BITS_16) && !s.is_18bitdisplay_ &&
    decide (sw_time s h mhz < mw_time tbs w h mhz)

/-- The local `w` of `display_`: width of the dirty rectangle. -/
def State.w (s : State) : Nat := sz (s.x_high_ - s.x_low_ + 1)

/-- The local `h` of `display_`: height of the dirty rectangle. -/
def State.h (s : State) : Nat := sz (s.y_high_ - s.y_low_ + 1)

/-- The local `mhz` of `display_`. -/
def State.mhz (s : State) : Nat := sz (s.data_rate_ / 1000000)

/-- Embedding of `ILI9XXXDisplay::display_`: the new state and the bus operations, or
`none` where the C++ divides by zero (`mhz = 0`, or a transfer buffer of size zero). -/
def display_ (cu : ColorUtil) (tbs : Nat) (s : State) : Option (State × List BusOp) :=
  match s.buffer_ with
  | none => some (s, [])
  | some buf =>
    if s.x_high_ < s.x_low_ ∨ s.y_high_ < s.y_low_ then some (s, [])
    else if s.mhz = 0 ∨ tbs = 0 then none
    else
      let ops :=
        if use_single_write tbs s s.w s.h s.mhz then single_write s buf s.h
        else multiple_write cu tbs s buf s.w s.h
      some (invalidate_watermarks s, [BusOp.enable] ++ ops ++ [BusOp.disable])

/-- Ghost record of what one `update()` call did, in order. -/
inductive Call where
  | repaint
  | coalesced
  | display_
deriving DecidableEq, Repr

/-- Driver state together with everything sent to the bus and the ghost call record. -/
structure Sys where
  st : State
  bus : List BusOp
  calls : List Call
deriving DecidableEq, Repr

/-- The call `this->display_()` at the end of `update`. -/
def display_sys (cu : ColorUtil) (tbs : Nat) (y : Sys) : Option Sys :=
  match display_ cu tbs y.st with
  | none => none
  | some r => some { st := r.1, bus := y.bus ++ r.2, calls := y.calls ++ [Call.display_] }

/-- The loop `do { need_update_ = false; do_update_(); } while (need_update_)`.
`do_update_` is the repaint routine of the display framework, a parameter here: it is
told the number of the pass and is handed `reenter`, the driver's own `update()`, which
it may call. The loop ends when the routine leaves `need_update_` unset; `fuel` bounds
the number of passes. -/
def update_loop (do_update_ : Nat → (Sys → Option Sys) → Sys → Option Sys)
    (reenter : Sys → Option Sys) : Nat → Nat → Sys → Option Sys
  | 0, _, _ => none
  | fuel + 1, pass, y =>
    let y1 := { y with st := { y.st with need_update_ := false } }
    match do_update_ pass reenter y1 with
    | none => none
    | some y2 =>
      if y2.st.need_update_ then update_loop do_update_ reenter fuel (pass + 1) y2
      else some y2

/-- Embedding of `ILI9XXXDisplay::update`. -/
def update (cu : ColorUtil) (tbs : Nat)
    (do_update_ : Nat → (Sys → Option Sys) → Sys → Option Sys) : Nat → Sys → Option Sys
  | 0, _ => none
  | fuel + 1, y =>
    if y.st.prossing_update_ then
      some { y with st := { y.st with need_update_ := true },
                    calls := y.calls ++ [Call.coalesced] }
    else
      let y1 := { y with st := { y.st with prossing_update_ := true } }
      match update_loop do_update_ (fun t => update cu tbs do_update_ fuel t) fuel 0 y1 with
      | none => none
      | some y2 =>
        display_sys cu tbs { y2 with st := { y2.st with prossing_update_ := false } }

/-- A repaint routine that paints nothing itself and calls `update()` during exactly
the passes `k` with `calls_update k = true`. -/
def scripted_repaint (calls_update : Nat → Bool) :
    Nat → (Sys → Option Sys) → Sys → Option Sys :=
  fun pass reenter y =>
    let y1 := { y with calls := y.calls ++ [Call.repaint] }
    if calls_update pass then reenter y1 else some y1

/-- Sample colour utility for evaluating the definitions: plain bit packing. -/
def sampleUtil : ColorUtil where
  color_to_565 := fun c => (c.r / 8) * 2048 + (c.g / 4) * 32 + c.b / 8
  color_to_332 := fun c => (c.r / 32) * 32 + (c.g / 32) * 4 + c.b / 64
  color_to_index8_palette888 := fun c _ => c.w
  rgb332_to_color := fun v => { r := v / 32 * 32, g := v / 4 % 8 * 32, b := v % 4 * 64, w := 0 }
  index8_to_color_palette888 := fun i p => { r := p.getD (3 * i) 0, g := p.getD (3 * i + 1) 0,
                                             b := p.getD (3 * i + 2) 0, w := 0 }

/-- Sample state: a 4×3 panel in 16-bit mode with an allocated, zeroed buffer and an
empty dirty rectangle. -/
def sampleState : State where
  width_ := 4
  height_ := 3
  offset_x_ := 2
  offset_y_ := 3
  x_low_ := 4
  y_low_ := 3
  x_high_ := 0
  y_high_ := 0
  buffer_ := some (List.replicate 24 0)
  palette_ := []
  buffer_color_mode_ := .BITS_16
  is_18bitdisplay_ := false
  data_rate_ := 40000000
  prossing_update_ := false
  need_update_ := false

/-! Block writes and the initialisation table -/

/-- Enumeration `display::ColorOrder` of the display framework (declared outside the
sources). -/
inductive ColorOrder where
  | COLOR_ORDER_RGB
  | COLOR_ORDER_BGR
  | COLOR_ORDER_GRB
deriving DecidableEq, Repr

/-- Enumeration `display::ColorBitness` of the display framework (declared outside the
sources). -/
inductive ColorBitness where
  | COLOR_BITNESS_888
  | COLOR_BITNESS_565
  | COLOR_BITNESS_332
deriving DecidableEq, Repr

/-- The way `draw_pixels_at` leaves through its two guards. -/
inductive Route where
  | returned
  | handed_off
  | direct
deriving DecidableEq, Repr

/-- The two guards at the head of `ILI9XXXDisplay::draw_pixels_at`: `w <= 0 || h <= 0`
returns at once; a buffer mode other than 16 bit, a bitness other than 565, an order other
than RGB or little-endian data is handed to `DisplayBuffer::draw_pixels_at`; what is left
is drawn directly to the display. -/
def draw_pixels_at_route (s : State) (w h : Int) (order : ColorOrder) (bitness : ColorBitness)
    (big_endian : Bool) : Route :=
  if w ≤ 0 ∨ h ≤ 0 then .returned
  else if s.buffer_color_mode_ ≠ .BITS_16 ∨ bitness ≠ .COLOR_BITNESS_565 ∨
      order ≠ .COLOR_ORDER_RGB ∨ big_endian = false then .handed_off
  else .direct

/-- The loop `for (int y = 0; y != h; y++)` of `draw_pixels_at`: `rows` transfers of
`len` bytes, the first from 16-bit source element `src`, each next one `line_stride`
elements further on. -/
def direct_rows (ptr : List Nat) (len line_stride : Nat) : Nat → Nat → List BusOp
  | 0, _ => []
  | rows + 1, src =>
    BusOp.write_array ((ptr.drop (src * 2)).take len) ::
      direct_rows ptr len line_stride rows (src + line_stride)

/-- The direct branch of `draw_pixels_at`, lines `size_t line_stride = w + x_pad` to
`this->disable()`. `ptr` is the source as bytes; `src_ptr` counts 16-bit elements. The
stride and the element offset are formed from non-negative operands in every call the
theorems speak about; the coordinates are converted to the `uint16_t` parameters of
`set_addr_window_`. -/
def draw_pixels_direct (s : State) (x_start y_start w h : Int) (ptr : List Nat)
    (x_offset y_offset x_pad : Int) : List BusOp :=
  let line_stride : Nat := (w + x_pad).toNat
  let src : Nat := (y_offset * (line_stride : Int) + x_offset).toNat
  [BusOp.enable] ++
    set_addr_window_ s (u16i x_start) (u16i y_start) (u16i (x_start + w - 1))
      (u16i (y_start + h - 1)) ++
    direct_rows ptr (w * 2).toNat line_stride h.toNat src ++ [BusOp.disable]

/-- Embedding of `ILI9XXXDisplay::draw_pixels_at`. `parent` is
`DisplayBuffer::draw_pixels_at` of the display framework, a parameter. -/
def draw_pixels_at (parent : State → State × List BusOp) (s : State)
    (x_start y_start w h : Int) (ptr : List Nat) (order : ColorOrder) (bitness : ColorBitness)
    (big_endian : Bool) (x_offset y_offset x_pad : Int) : State × List BusOp :=
  match draw_pixels_at_route s w h order bitness big_endian with
  | .returned => (s, [])
  | .handed_off => parent s
  | .direct => (s, draw_pixels_direct s x_start y_start w h ptr x_offset y_offset x_pad)

/-- Embedding of `ILI9XXXDisplay::command`: `start_command_`, `write_byte`,
`end_command_`. -/
def command (value : Nat) : List BusOp :=
  [.dc false, .enable, .write_byte value, .disable]

/-- Embedding of `ILI9XXXDisplay::send_command`: the command byte, then the data bytes
between `start_data_` and `end_data_`. -/
def send_command (command_byte : Nat) (data_bytes : List Nat) : List BusOp :=
  command command_byte ++ [.dc true, .enable, .write_array data_bytes, .disable]

/-- The loop of `init_lcd_` over the table `init_cmd`, from byte `addr` on: the bus
operations and the value of `addr` when the loop ends, or `none` when a read leaves the
table. Every pass moves `addr` on by at least two, `fuel` counts the passes. -/
def init_loop (init_cmd : List Nat) : Nat → Nat → Option (List BusOp × Nat)
  | 0, _ => none
  | fuel + 1, addr =>
    match init_cmd[addr]? with
    | none => none
    | some cmd =>
      if cmd > 0 then
        match init_cmd[addr + 1]? with
        | none => none
        | some x =>
          let num_args := x &&& 0x7F
          if addr + 2 + num_args ≤ init_cmd.length then
            let ops := send_command cmd ((init_cmd.drop (addr + 2)).take num_args) ++
              (if x &&& 0x80 ≠ 0 then [BusOp.delay 150] else [])
            match init_loop init_cmd fuel (addr + 2 + num_args) with
            | none => none
            | some r => some (ops ++ r.1, r.2)
          else none
      else some ([], addr + 1)

/-- Embedding of `ILI9XXXDisplay::init_lcd_`. The table length bounds the number of
passes, so the function is total. -/
def init_lcd_ (init_cmd : List Nat) : Option (List BusOp × Nat) :=
  init_loop init_cmd init_cmd.length 0
/-! Definitions used to state the properties -/

/-- The dirty rectangle `(x_low_, y_low_, x_high_, y_high_)`. -/
def State.rect (s : State) : Nat × Nat × Nat × Nat := (s.x_low_, s.y_low_, s.x_high_, s.y_high_)

/-- The frame buffer as the next pixel write finds it (after `allocate_buffer_`). -/
def State.frame (s : State) : List Nat := ((allocate_buffer_ s).buffer_).getD []

/-- The bytes that hold pixel number `pos`: two in 16-bit mode, else one. -/
def stored_bytes (s : State) (buf : List Nat) (pos : Nat) : List Nat :=
  match s.buffer_color_mode_ with
  | .BITS_16 => [peek buf (pos * 2), peek buf (pos * 2 + 1)]
  | _ => [peek buf pos]

/-- The converted value of a colour, as the bytes to be stored: the 565 value high byte
first in 16-bit mode, else the 8-bit value. -/
def converted_bytes (cu : ColorUtil) (s : State) (color : Color) : List Nat :=
  match s.buffer_color_mode_ with
  | .BITS_16 => [u16 (cu.color_to_565 color) / 256, u16 (cu.color_to_565 color) % 256]
  | .BITS_8 => [u8 (cu.color_to_332 color)]
  | .BITS_8_INDEXED => [u8 (cu.color_to_index8_palette888 color s.palette_)]

/-- A pixel write changes the buffer: it is inside the panel and its converted value
differs from the value stored at that pixel. -/
def changes (cu : ColorUtil) (s : State) (x y : Int) (color : Color) : Bool :=
  decide (0 ≤ x ∧ x < s.width_ ∧ 0 ≤ y ∧ y < s.height_) &&
    decide (converted_bytes cu s color ≠ stored_bytes s s.frame (y * s.width_ + x).toNat)

/-- A sequence of `draw_absolute_pixel_internal` calls. -/
def draw_all (cu : ColorUtil) (s : State) : List (Int × Int × Color) → State
  | [] => s
  | p :: ps => draw_all cu (draw_absolute_pixel_internal cu s p.1 p.2.1 p.2.2) ps

/-- The coordinates of those writes of a sequence that changed the buffer, each judged
against the buffer as it was at the time of the write. -/
def changed_writes (cu : ColorUtil) (s : State) : List (Int × Int × Color) → List (Int × Int)
  | [] => []
  | p :: ps =>
    (if changes cu s p.1 p.2.1 p.2.2 then [(p.1, p.2.1)] else []) ++
      changed_writes cu (draw_absolute_pixel_internal cu s p.1 p.2.1 p.2.2) ps

/-- The bytes handed to `write_array` by a sequence of bus operations, concatenated. -/
def payload : List BusOp → List Nat
  | [] => []
  | .write_array b :: ops => b ++ payload ops
  | _ :: ops => payload ops

/-- The wire encoding of the first `n` pixels of row `q` of the dirty rectangle: the
buffer pixels number `(y_low_ + q) * width_ + (x_low_ + c)` for `c = 0 .. n-1`. -/
def row_bytes (cu : ColorUtil) (s : State) (buf : List Nat) (q n : Nat) : List Nat :=
  (List.range n).flatMap fun c =>
    wire_bytes s (color_val_at cu s buf ((s.y_low_ + q) * s.width_ + (s.x_low_ + c)))

/-- The wire encoding of the dirty rectangle, row-major: rows `y_low_ .. y_high_`, in
each row the pixels `x_low_ .. x_high_`. -/
def window_pixels (cu : ColorUtil) (s : State) (buf : List Nat) : List Nat :=
  (List.range (s.y_high_ - s.y_low_ + 1)).flatMap fun q =>
    row_bytes cu s buf q (s.x_high_ - s.x_low_ + 1)

/-- Invariant of the "multiple write" loop when it stands at pixel `r` of row `q` of the
dirty rectangle: `pixel` and `pos` point there, the staging index is a whole number of
pixels below the capacity, and the bytes handed to the bus so far (`data`, after the
window commands `pre`) followed by the staged bytes are the wire encoding of the rows
before `q` and of the first `r` pixels of row `q`. -/
def FlushInv (cu : ColorUtil) (tbs : Nat) (s : State) (buf : List Nat) (pre : List BusOp)
    (l : Flush) (q r : Nat) : Prop :=
  l.pixel = r ∧ l.pos = (s.y_low_ + q) * s.width_ + (s.x_low_ + r) ∧
  l.transfer_buffer.length = tbs ∧ l.idx < tbs ∧ wire_size s ∣ l.idx ∧
  ∃ data, l.out = pre ++ data ∧
    payload data ++ l.transfer_buffer.take l.idx =
      ((List.range q).flatMap fun q' => row_bytes cu s buf q' (s.x_high_ - s.x_low_ + 1)) ++
        row_bytes cu s buf q r ∧
    ∀ op ∈ data, (∃ b, op = BusOp.write_array b) ∨ op = BusOp.feed_wdt

/-- Sample state with a dirty rectangle: columns 1..3, rows 1..2 of `sampleState`. -/
def sampleDirty : State :=
  { sampleState with x_low_ := 1, y_low_ := 1, x_high_ := 3, y_high_ := 2 }

/-- Sample state: 320×240 panel, 16-bit mode, 40 MHz, the whole panel dirty. -/
def samplePanel : State :=
  { sampleState with
    width_ := 320, height_ := 240, x_low_ := 0, y_low_ := 0, x_high_ := 319, y_high_ := 239,
    buffer_ := some (List.replicate 153600 0) }

/-- Sample state with a one-pixel dirty rectangle at (1,1). -/
def samplePixel : State :=
  { sampleState with x_low_ := 1, y_low_ := 1, x_high_ := 1, y_high_ := 1 }

/-- Sample state of an 18-bit panel with a 16-bit frame buffer. -/
def sample18 : State :=
  { sampleState with is_18bitdisplay_ := true }

/-- Sample state with a bus rate of 200 kHz and a dirty rectangle. -/
def sampleSlow : State :=
  { sampleDirty with data_rate_ := 200000 }

/-- One entry of an init table: command byte, the byte `x` (argument count in the low
seven bits, delay flag in bit 7) and the arguments. -/
structure InitEntry where
  cmd : Nat
  x : Nat
  args : List Nat
deriving DecidableEq, Repr

/-- The bytes of an entry in the table. -/
def InitEntry.encode (e : InitEntry) : List Nat := e.cmd :: e.x :: e.args

/-- An entry is well formed: non-zero command byte, and `x & 0x7F` arguments. -/
def InitEntry.wf (e : InitEntry) : Prop :=
  0 < e.cmd ∧ e.args.length = e.x &&& 0x7F

/-- What one entry makes the driver do: one `send_command`, then a 150 ms delay when bit
7 of `x` is set. -/
def InitEntry.ops (e : InitEntry) : List BusOp :=
  send_command e.cmd e.args ++ (if e.x &&& 0x80 ≠ 0 then [BusOp.delay 150] else [])

/-- States reachable from `setup` by pixel writes, fills, direct block writes and
flushes. `setup` ends by invalidating the watermarks; a flush counts when `display_`
returns. -/
inductive Reachable (cu : ColorUtil) (tbs : Nat) : State → Prop where
  | setup (s : State) : Reachable cu tbs (invalidate_watermarks s)
  | draw (s : State) (x y : Int) (color : Color) :
      Reachable cu tbs s → Reachable cu tbs (draw_absolute_pixel_internal cu s x y color)
  | fill (s : State) (color : Color) : Reachable cu tbs s → Reachable cu tbs (fill cu s color)
  | draw_pixels (s : State) (parent : State → State × List BusOp) (x_start y_start w h : Int)
      (ptr : List Nat) (order : ColorOrder) (bitness : ColorBitness) (big_endian : Bool)
      (x_offset y_offset x_pad : Int) :
      Reachable cu tbs s →
      draw_pixels_at_route s w h order bitness big_endian = .direct →
      Reachable cu tbs
        (draw_pixels_at parent s x_start y_start w h ptr order bitness big_endian
          x_offset y_offset x_pad).1
  | display (s t : State) (ops : List BusOp) :
      Reachable cu tbs s → display_ cu tbs s = some (t, ops) → Reachable cu tbs t

/-- The variables of the "multiple write" loop before its first pass, as `multiple_write`
sets them up. -/
def flush_start (tbs : Nat) (s : State) : Flush :=
  { transfer_buffer := List.replicate tbs 0, idx := 0, pixel := 0,
    pos := s.y_low_ * s.width_ + s.x_low_,
    out := set_addr_window_ s s.x_low_ s.y_low_ s.x_high_ s.y_high_ }

/-- Invariant of the "multiple write" loop after `k` pixels, as far as the staging buffer
goes: the index is a whole number of pixels below the capacity, and what went to the bus
after the window commands `pre` is a sequence of full blocks, each followed by one
watchdog feed; blocks and staged bytes together are the bytes of `k` pixels. -/
def StageInv (tbs : Nat) (s : State) (pre : List BusOp) (l : Flush) (k : Nat) : Prop :=
  l.transfer_buffer.length = tbs ∧ l.idx < tbs ∧ wire_size s ∣ l.idx ∧
  ∃ blocks : List (List Nat),
    l.out = pre ++ blocks.flatMap (fun b => [BusOp.write_array b, BusOp.feed_wdt]) ∧
    (∀ b ∈ blocks, b.length = tbs) ∧
    tbs * blocks.length + l.idx = wire_size s * k

/-- Specification side: the 565 value a stored pixel stands for. In the 16-bit layout it
is the two stored bytes read high byte first; in the RGB332 layout the 565 conversion of
the colour the packed byte denotes; in the palette layout the 565 conversion of the
palette colour of the stored index. Written without reference to the flush loop. -/
def spec_color565 (cu : ColorUtil) (s : State) (buf : List Nat) (p : Nat) : Nat :=
  match s.buffer_color_mode_ with
  | .BITS_16 => (256 * peek buf (2 * p) + peek buf (2 * p + 1)) % 65536
  | .BITS_8 => cu.color_to_565 (cu.rgb332_to_color (peek buf p)) % 65536
  | .BITS_8_INDEXED =>
    cu.color_to_565 (cu.index8_to_color_palette888 (peek buf p) s.palette_) % 65536

/-- Specification side: the wire encoding of a 565 value. Two bytes, high byte first; in
18-bit mode three bytes: the top five bits, the middle six bits and the low five bits,
each moved to the top of its byte. -/
def spec_wire_encoding (eighteen_bit : Bool) (v : Nat) : List Nat :=
  if eighteen_bit then [v / 2048 * 8, v / 32 % 64 * 4, v % 32 * 8]
  else [v / 256, v % 256]

/-- Specification side: the pixel data of the dirty rectangle, row-major: for
`y = y_low_ .. y_high_` and, within each row, `x = x_low_ .. x_high_`, the wire encoding
of the buffer pixel number `y * width_ + x`. -/
def spec_window_payload (cu : ColorUtil) (s : State) (buf : List Nat) : List Nat :=
  (List.range (s.y_high_ + 1 - s.y_low_)).flatMap fun r =>
    (List.range (s.x_high_ + 1 - s.x_low_)).flatMap fun c =>
      spec_wire_encoding s.is_18bitdisplay_
        (spec_color565 cu s buf ((s.y_low_ + r) * s.width_ + (s.x_low_ + c)))

/-- Sample state in the RGB332 layout: pixel (1,1) holds `0xE0`, pixel (2,1) holds
`0x1F`; the dirty rectangle is these two pixels. -/
def sample332 : State :=
  { sampleState with
    buffer_color_mode_ := .BITS_8, buffer_ := some [0, 0, 0, 0, 0, 0xE0, 0x1F, 0, 0, 0, 0, 0],
    x_low_ := 1, y_low_ := 1, x_high_ := 2, y_high_ := 1 }

/-- Sample state with a bus rate of 75 kHz and a one-pixel dirty rectangle. -/
def sample75k : State :=
  { samplePixel with data_rate_ := 75000 }

/-! Auxiliary lemmas -/

theorem peek_set_eq (buf : List Nat) (i v : Nat) (h : i < buf.length) :
    peek (buf.set i v) i = v := by
  simp [peek, List.getD_eq_getElem?_getD, List.getElem?_set, h]

theorem peek_set_ne (buf : List Nat) (i j v : Nat) (h : i ≠ j) :
    peek (buf.set i v) j = peek buf j := by
  simp [peek, List.getD_eq_getElem?_getD, List.getElem?_set, h]

theorem shr8 (n : Nat) : n >>> 8 = n / 256 := by
  simp [Nat.shiftRight_eq_div_pow]

theorem and255 (n : Nat) : n &&& 0xFF = n % 256 := by
  have := Nat.and_pow_two_sub_one_eq_mod n 8
  simpa using this

theorem shl8 (n : Nat) : n <<< 8 = n * 256 := by
  simp [Nat.shiftLeft_eq]

theorem pixel_index_lt {w h x y : Nat} (hx : x < w) (hy : y < h) : y * w + x < w * h := by
  have h1 : (y + 1) * w ≤ h * w := Nat.mul_le_mul_right w hy
  have h2 : (y + 1) * w = y * w + w := by ring
  have h3 : h * w = w * h := Nat.mul_comm h w
  omega

theorem mark_updated_fields (s : State) (x y : Int) :
    (mark_updated s x y).buffer_ = s.buffer_ ∧ (mark_updated s x y).width_ = s.width_ ∧
    (mark_updated s x y).height_ = s.height_ ∧
    (mark_updated s x y).buffer_color_mode_ = s.buffer_color_mode_ ∧
    (mark_updated s x y).palette_ = s.palette_ := by
  unfold mark_updated
  simp

theorem allocate_some (s : State) (buf : List Nat) (hb : s.buffer_ = some buf) :
    allocate_buffer_ s = s := by
  unfold allocate_buffer_
  rw [hb]

theorem compare_store_length (buf : List Nat) (i v : Nat) (u : Bool) :
    (compare_store buf i v u).1.length = buf.length := by
  unfold compare_store
  split_ifs <;> simp

theorem compare_store_peek (buf : List Nat) (i v : Nat) (u : Bool) (hv : v < 256)
    (hi : i < buf.length) (j : Nat) :
    peek (compare_store buf i v u).1 j = if j = i then v else peek buf j := by
  unfold compare_store
  by_cases hji : j = i
  · subst hji
    rw [if_pos rfl]
    by_cases h : peek buf j = v
    · rw [if_neg (by simpa using h)]
      exact h
    · rw [if_pos h]
      simp only [u8, Nat.mod_eq_of_lt hv]
      exact peek_set_eq buf j v hi
  · rw [if_neg hji]
    by_cases h : peek buf i = v
    · rw [if_neg (by simpa using h)]
    · rw [if_pos h]
      exact peek_set_ne buf i j _ (fun e => hji e.symm)

theorem compare_store_flag (buf : List Nat) (i v : Nat) (u : Bool) :
    (compare_store buf i v u).2 = (u || decide (peek buf i ≠ v)) := by
  unfold compare_store
  split_ifs with h <;> simp [h]

theorem toNat_pos (x y w : Nat) : ((y : Int) * (w : Int) + (x : Int)).toNat = y * w + x := by
  have : ((y : Int) * (w : Int) + (x : Int)) = ((y * w + x : Nat) : Int) := by
    push_cast; ring
  rw [this, Int.toNat_natCast]

theorem draw_in_bounds_eq (cu : ColorUtil) (s : State) (x y : Nat) (color : Color)
    (buf : List Nat) (hx : x < s.width_) (hy : y < s.height_) (hb : s.buffer_ = some buf) :
    draw_absolute_pixel_internal cu s x y color =
      if (store_pixel cu s buf (y * s.width_ + x) color).2 then
        mark_updated { s with buffer_ := some (store_pixel cu s buf (y * s.width_ + x) color).1 } x y
      else { s with buffer_ := some (store_pixel cu s buf (y * s.width_ + x) color).1 } := by
  unfold draw_absolute_pixel_internal State.get_width_internal State.get_height_internal
  rw [if_neg (by omega), allocate_some s buf hb]
  simp only [hb, toNat_pos]

theorem store_pixel_length (cu : ColorUtil) (s : State) (buf : List Nat) (pos : Nat)
    (color : Color) : (store_pixel cu s buf pos color).1.length = buf.length := by
  unfold store_pixel
  cases s.buffer_color_mode_ <;> simp [compare_store_length]

theorem draw_buffer (cu : ColorUtil) (s : State) (x y : Nat) (color : Color)
    (buf : List Nat) (hx : x < s.width_) (hy : y < s.height_) (hb : s.buffer_ = some buf) :
    (draw_absolute_pixel_internal cu s x y color).buffer_ =
      some (store_pixel cu s buf (y * s.width_ + x) color).1 := by
  rw [draw_in_bounds_eq cu s x y color buf hx hy hb]
  split_ifs
  · rw [(mark_updated_fields _ x y).1]
  · rfl

theorem draw_oob_eq (cu : ColorUtil) (s : State) (x y : Int) (color : Color)
    (h : x < 0 ∨ x ≥ (s.width_ : Int) ∨ y < 0 ∨ y ≥ (s.height_ : Int)) :
    draw_absolute_pixel_internal cu s x y color = s := by
  unfold draw_absolute_pixel_internal State.get_width_internal State.get_height_internal
  rw [if_pos]
  omega

theorem foldl_min_le (l : List Nat) (a : Nat) : l.foldl min a ≤ a := by
  induction l generalizing a with
  | nil => exact Nat.le_refl a
  | cons v l ih => exact Nat.le_trans (ih (min a v)) (Nat.min_le_left a v)

theorem foldl_min_le_mem (l : List Nat) (a : Nat) : ∀ v ∈ l, l.foldl min a ≤ v := by
  induction l generalizing a with
  | nil => intro v hv; cases hv
  | cons u l ih =>
    intro v hv
    rcases List.mem_cons.mp hv with h | h
    · subst h
      exact Nat.le_trans (foldl_min_le l (min a v)) (Nat.min_le_right a v)
    · exact ih (min a u) v h

theorem foldl_min_attained (l : List Nat) (a : Nat) : l.foldl min a = a ∨ l.foldl min a ∈ l := by
  induction l generalizing a with
  | nil => exact Or.inl rfl
  | cons u l ih =>
    rcases ih (min a u) with h | h
    · rcases Nat.le_total a u with hau | hau
      · left; simp only [List.foldl_cons]; rw [h]; exact Nat.min_eq_left hau
      · right; simp only [List.foldl_cons]; rw [h, Nat.min_eq_right hau]
        exact List.mem_cons_self u l
    · right; exact List.mem_cons_of_mem u h

theorem le_foldl_max (l : List Nat) (a : Nat) : a ≤ l.foldl max a := by
  induction l generalizing a with
  | nil => exact Nat.le_refl a
  | cons v l ih => exact Nat.le_trans (Nat.le_max_left a v) (ih (max a v))

theorem mem_le_foldl_max (l : List Nat) (a : Nat) : ∀ v ∈ l, v ≤ l.foldl max a := by
  induction l generalizing a with
  | nil => intro v hv; cases hv
  | cons u l ih =>
    intro v hv
    rcases List.mem_cons.mp hv with h | h
    · subst h
      exact Nat.le_trans (Nat.le_max_right a v) (le_foldl_max l (max a v))
    · exact ih (max a u) v h

theorem foldl_max_attained (l : List Nat) (a : Nat) : l.foldl max a = a ∨ l.foldl max a ∈ l := by
  induction l generalizing a with
  | nil => exact Or.inl rfl
  | cons u l ih =>
    rcases ih (max a u) with h | h
    · rcases Nat.le_total a u with hau | hau
      · right; simp only [List.foldl_cons]; rw [h, Nat.max_eq_right hau]
        exact List.mem_cons_self u l
      · left; simp only [List.foldl_cons]; rw [h]; exact Nat.max_eq_left hau
    · right; exact List.mem_cons_of_mem u h

theorem u16i_natCast (x : Nat) (h : x < 65536) : u16i (x : Int) = x := by
  unfold u16i
  omega

theorem mark_updated_rect (s : State) (x y : Nat) (hx : x < 65536) (hy : y < 65536) :
    (mark_updated s x y).x_low_ = min s.x_low_ x ∧ (mark_updated s x y).y_low_ = min s.y_low_ y ∧
    (mark_updated s x y).x_high_ = max s.x_high_ x ∧
    (mark_updated s x y).y_high_ = max s.y_high_ y := by
  unfold mark_updated
  simp only [u16i_natCast x hx, u16i_natCast y hy]
  refine ⟨?_, ?_, ?_, ?_⟩ <;> split_ifs <;> omega

theorem allocate_fields (s : State) :
    (allocate_buffer_ s).width_ = s.width_ ∧ (allocate_buffer_ s).height_ = s.height_ ∧
    (allocate_buffer_ s).buffer_color_mode_ = s.buffer_color_mode_ ∧
    (allocate_buffer_ s).palette_ = s.palette_ ∧
    (allocate_buffer_ s).x_low_ = s.x_low_ ∧ (allocate_buffer_ s).y_low_ = s.y_low_ ∧
    (allocate_buffer_ s).x_high_ = s.x_high_ ∧ (allocate_buffer_ s).y_high_ = s.y_high_ ∧
    (allocate_buffer_ s).buffer_ = some s.frame := by
  unfold State.frame allocate_buffer_
  cases h : s.buffer_ <;> simp [h]

theorem compare_store_peek_ne (buf : List Nat) (i v : Nat) (u : Bool) (j : Nat) (h : i ≠ j) :
    peek (compare_store buf i v u).1 j = peek buf j := by
  unfold compare_store
  split_ifs
  · exact peek_set_ne buf i j _ h
  · rfl

theorem store_pixel_flag (cu : ColorUtil) (s : State) (buf : List Nat) (pos : Nat)
    (color : Color) :
    (store_pixel cu s buf pos color).2 =
      decide (converted_bytes cu s color ≠ stored_bytes s buf pos) := by
  unfold store_pixel converted_bytes stored_bytes
  cases hm : s.buffer_color_mode_
  · simp only [compare_store_flag, Bool.false_or, ne_eq, List.cons.injEq, and_true]
    exact decide_eq_decide.mpr ⟨fun h e => h e.symm, fun h e => h e.symm⟩
  · simp only [compare_store_flag, Bool.false_or, ne_eq, List.cons.injEq, and_true]
    exact decide_eq_decide.mpr ⟨fun h e => h e.symm, fun h e => h e.symm⟩
  · have h256 : u16 (cu.color_to_565 color) / 256 < 256 := by
      unfold u16; omega
    simp only [compare_store_flag, Bool.false_or, ne_eq, List.cons.injEq, and_true, shr8,
      and255, u8, Nat.mod_eq_of_lt h256]
    rw [compare_store_peek_ne _ _ _ _ _ (by omega)]
    rw [← Bool.decide_or]
    exact decide_eq_decide.mpr ⟨fun h e => by rcases h with h | h
                                              · exact h e.1.symm
                                              · exact h e.2.symm,
      fun h => by
        by_cases h1 : peek buf (pos * 2) = u16 (cu.color_to_565 color) / 256
        · right
          intro h2
          exact h ⟨h1.symm, h2.symm⟩
        · left; exact h1⟩

theorem store_pixel_congr (cu : ColorUtil) (s t : State) (buf : List Nat) (pos : Nat)
    (color : Color) (hm : t.buffer_color_mode_ = s.buffer_color_mode_)
    (hp : t.palette_ = s.palette_) :
    store_pixel cu t buf pos color = store_pixel cu s buf pos color := by
  unfold store_pixel
  rw [hm, hp]

theorem draw_in_bounds_frame (cu : ColorUtil) (s : State) (x y : Nat) (color : Color)
    (hx : x < s.width_) (hy : y < s.height_) :
    draw_absolute_pixel_internal cu s x y color =
      if (store_pixel cu s s.frame (y * s.width_ + x) color).2 then
        mark_updated { allocate_buffer_ s with
          buffer_ := some (store_pixel cu s s.frame (y * s.width_ + x) color).1 } x y
      else { allocate_buffer_ s with
          buffer_ := some (store_pixel cu s s.frame (y * s.width_ + x) color).1 } := by
  obtain ⟨hw, hh, hm, hp, -, -, -, -, hb⟩ := allocate_fields s
  unfold draw_absolute_pixel_internal State.get_width_internal State.get_height_internal
  rw [if_neg (by omega)]
  simp only [hb, hw, toNat_pos, store_pixel_congr cu s (allocate_buffer_ s) _ _ _ hm hp]

theorem changes_in_bounds (cu : ColorUtil) (s : State) (x y : Nat) (color : Color)
    (hx : x < s.width_) (hy : y < s.height_) :
    changes cu s x y color = (store_pixel cu s s.frame (y * s.width_ + x) color).2 := by
  unfold changes
  rw [store_pixel_flag, toNat_pos]
  have : (0 ≤ (x : Int) ∧ (x : Int) < s.width_ ∧ 0 ≤ (y : Int) ∧ (y : Int) < s.height_) := by
    omega
  simp [this]

theorem changes_out_of_bounds (cu : ColorUtil) (s : State) (x y : Int) (color : Color)
    (h : x < 0 ∨ x ≥ (s.width_ : Int) ∨ y < 0 ∨ y ≥ (s.height_ : Int)) :
    changes cu s x y color = false := by
  unfold changes
  have : ¬ (0 ≤ x ∧ x < s.width_ ∧ 0 ≤ y ∧ y < s.height_) := by omega
  simp [this]

theorem changes_bounds (cu : ColorUtil) (s : State) (x y : Int) (color : Color)
    (h : changes cu s x y color = true) :
    0 ≤ x ∧ x < s.width_ ∧ 0 ≤ y ∧ y < s.height_ := by
  by_contra hn
  rw [changes_out_of_bounds cu s x y color (by omega)] at h
  cases h

theorem draw_dims (cu : ColorUtil) (s : State) (x y : Int) (color : Color) :
    (draw_absolute_pixel_internal cu s x y color).width_ = s.width_ ∧
    (draw_absolute_pixel_internal cu s x y color).height_ = s.height_ := by
  by_cases hb : x < 0 ∨ x ≥ (s.width_ : Int) ∨ y < 0 ∨ y ≥ (s.height_ : Int)
  · rw [draw_oob_eq cu s x y color hb]
    exact ⟨rfl, rfl⟩
  · obtain ⟨x', rfl⟩ := Int.eq_ofNat_of_zero_le (show 0 ≤ x by omega)
    obtain ⟨y', rfl⟩ := Int.eq_ofNat_of_zero_le (show 0 ≤ y by omega)
    obtain ⟨hw, hh, -⟩ := allocate_fields s
    rw [draw_in_bounds_frame cu s x' y' color (by omega) (by omega)]
    split_ifs
    · obtain ⟨-, h1, h2, -⟩ := mark_updated_fields
        { allocate_buffer_ s with
          buffer_ := some (store_pixel cu s s.frame (y' * s.width_ + x') color).1 } x' y'
      rw [h1, h2]
      exact ⟨hw, hh⟩
    · exact ⟨hw, hh⟩

theorem draw_unchanged_rect (cu : ColorUtil) (s : State) (x y : Int) (color : Color)
    (h : changes cu s x y color = false) :
    (draw_absolute_pixel_internal cu s x y color).rect = s.rect := by
  by_cases hb : x < 0 ∨ x ≥ (s.width_ : Int) ∨ y < 0 ∨ y ≥ (s.height_ : Int)
  · rw [draw_oob_eq cu s x y color hb]
  · obtain ⟨x', rfl⟩ := Int.eq_ofNat_of_zero_le (show 0 ≤ x by omega)
    obtain ⟨y', rfl⟩ := Int.eq_ofNat_of_zero_le (show 0 ≤ y by omega)
    obtain ⟨-, -, -, -, h1, h2, h3, h4, -⟩ := allocate_fields s
    rw [changes_in_bounds cu s x' y' color (by omega) (by omega)] at h
    rw [draw_in_bounds_frame cu s x' y' color (by omega) (by omega), h]
    simp [State.rect, h1, h2, h3, h4]

theorem draw_changed_rect (cu : ColorUtil) (s : State) (x y : Int) (color : Color)
    (hw : s.width_ < 65536) (hh : s.height_ < 65536)
    (h : changes cu s x y color = true) :
    (draw_absolute_pixel_internal cu s x y color).rect =
      (min s.x_low_ x.toNat, min s.y_low_ y.toNat, max s.x_high_ x.toNat,
        max s.y_high_ y.toNat) := by
  have hb := changes_bounds cu s x y color h
  obtain ⟨x', rfl⟩ := Int.eq_ofNat_of_zero_le hb.1
  obtain ⟨y', rfl⟩ := Int.eq_ofNat_of_zero_le hb.2.2.1
  obtain ⟨-, -, -, -, h1, h2, h3, h4, -⟩ := allocate_fields s
  rw [changes_in_bounds cu s x' y' color (by omega) (by omega)] at h
  rw [draw_in_bounds_frame cu s x' y' color (by omega) (by omega), h, if_pos rfl]
  have key : ∀ t : State, t.x_low_ = s.x_low_ → t.y_low_ = s.y_low_ → t.x_high_ = s.x_high_ →
      t.y_high_ = s.y_high_ → (mark_updated t x' y').rect =
        (min s.x_low_ x', min s.y_low_ y', max s.x_high_ x', max s.y_high_ y') := by
    intro t e1 e2 e3 e4
    obtain ⟨m1, m2, m3, m4⟩ := mark_updated_rect t x' y' (by omega) (by omega)
    simp only [State.rect, m1, m2, m3, m4, e1, e2, e3, e4]
  simp only [Int.toNat_natCast]
  exact key _ h1 h2 h3 h4

theorem memset_length (buf : List Nat) (v n : Nat) : (memset buf v n).length = buf.length := by
  unfold memset
  induction n with
  | zero => simp
  | succ n ih => simp [List.range_succ, List.foldl_append, ih]

theorem memset_peek (buf : List Nat) (v n : Nat) (j : Nat) :
    peek (memset buf v n) j = if j < n ∧ j < buf.length then v else peek buf j := by
  induction n with
  | zero => simp [memset]
  | succ n ih =>
    have hl := memset_length buf v n
    unfold memset at ih hl ⊢
    simp only [List.range_succ, List.foldl_append, List.foldl_cons, List.foldl_nil]
    by_cases hjn : j = n
    · subst hjn
      by_cases hjl : j < buf.length
      · rw [peek_set_eq _ _ _ (by omega), if_pos ⟨by omega, hjl⟩]
      · rw [if_neg (by omega)]
        simp only [peek, List.getD_eq_getElem?_getD]
        rw [List.getElem?_eq_none (by simp; omega), List.getElem?_eq_none (by omega)]
    · rw [peek_set_ne _ _ _ _ (fun e => hjn e.symm), ih]
      by_cases h1 : j < n ∧ j < buf.length
      · rw [if_pos h1, if_pos ⟨by omega, h1.2⟩]
      · rw [if_neg h1, if_neg (by omega)]

theorem fill_loop_length (hi lo : Nat) : ∀ (k i : Nat) (buf : List Nat),
    (fill_loop hi lo (i + 2 * k) i buf).length = buf.length := by
  intro k
  induction k with
  | zero =>
    intro i buf
    rw [fill_loop, if_neg (by omega)]
  | succ k ih =>
    intro i buf
    rw [fill_loop, if_pos (by omega)]
    have e : i + 2 * (k + 1) = (i + 2) + 2 * k := by omega
    rw [e, ih]
    simp

theorem fill_loop_peek (hi lo : Nat) : ∀ (k i : Nat) (buf : List Nat),
    i + 2 * k ≤ buf.length → ∀ j,
    peek (fill_loop hi lo (i + 2 * k) i buf) j =
      if i ≤ j ∧ j < i + 2 * k then (if (j - i) % 2 = 0 then hi else lo) else peek buf j := by
  intro k
  induction k with
  | zero =>
    intro i buf _ j
    rw [fill_loop, if_neg (by omega), if_neg (by omega)]
  | succ k ih =>
    intro i buf hl j
    rw [fill_loop, if_pos (by omega)]
    have e : i + 2 * (k + 1) = (i + 2) + 2 * k := by omega
    rw [e, ih (i + 2) _ (by simp; omega) j]
    by_cases h1 : i + 2 ≤ j ∧ j < i + 2 + 2 * k
    · have hp : (j - (i + 2)) % 2 = (j - i) % 2 := by omega
      have h2 : i ≤ j ∧ j < i + 2 + 2 * k := by omega
      rw [if_pos h1, if_pos h2, hp]
    · rw [if_neg h1]
      by_cases h2 : j = i
      · subst h2
        rw [peek_set_ne _ _ _ _ (by omega), peek_set_eq _ _ _ (by omega), if_pos (by omega),
          if_pos (by omega)]
      · by_cases h3 : j = i + 1
        · subst h3
          rw [peek_set_eq _ _ _ (by simp; omega), if_pos (by omega), if_neg (by omega)]
        · rw [peek_set_ne _ _ _ _ (by omega), peek_set_ne _ _ _ _ (by omega), if_neg (by omega)]

theorem put16_be_window (a b : Nat) (ha : a < 65536) (hb : b < 65536) :
    (put16_be (put16_be [0, 0, 0, 0] 0 a) 2 b).take 4 = [a / 256, a % 256, b / 256, b % 256] := by
  have h1 : a / 256 < 256 := by omega
  have h2 : b / 256 < 256 := by omega
  simp [put16_be, shr8, u8, Nat.mod_eq_of_lt h1, Nat.mod_eq_of_lt h2]

theorem put16_be_window_again (c d a b : Nat) (ha : a < 65536) (hb : b < 65536) :
    (put16_be (put16_be (put16_be (put16_be [0, 0, 0, 0] 0 c) 2 d) 0 a) 2 b).take 4 =
      [a / 256, a % 256, b / 256, b % 256] := by
  have h1 : a / 256 < 256 := by omega
  have h2 : b / 256 < 256 := by omega
  simp [put16_be, shr8, u8, Nat.mod_eq_of_lt h1, Nat.mod_eq_of_lt h2]

theorem u16i_lt (n : Int) : u16i n < 65536 := by
  unfold u16i
  omega

theorem set_addr_window_eq (s : State) (x1 y1 x2 y2 : Nat) :
    set_addr_window_ s x1 y1 x2 y2 =
      [ .dc false, .write_byte ILI9XXX_CASET,
        .dc true, .write_array [u16i (x1 + s.offset_x_) / 256, u16i (x1 + s.offset_x_) % 256,
                                u16i (x2 + s.offset_x_) / 256, u16i (x2 + s.offset_x_) % 256],
        .dc false, .write_byte ILI9XXX_PASET,
        .dc true, .write_array [u16i (y1 + s.offset_y_) / 256, u16i (y1 + s.offset_y_) % 256,
                                u16i (y2 + s.offset_y_) / 256, u16i (y2 + s.offset_y_) % 256],
        .dc false, .write_byte ILI9XXX_RAMWR,
        .dc true ] := by
  unfold set_addr_window_
  simp only [put16_be_window _ _ (u16i_lt _) (u16i_lt _),
    put16_be_window_again _ _ _ _ (u16i_lt _) (u16i_lt _)]

theorem display_eq (cu : ColorUtil) (tbs : Nat) (s : State) (buf : List Nat)
    (hb : s.buffer_ = some buf) (hx : s.x_low_ ≤ s.x_high_) (hy : s.y_low_ ≤ s.y_high_)
    (hm : s.mhz ≠ 0) (ht : tbs ≠ 0) :
    display_ cu tbs s =
      some (invalidate_watermarks s,
        [BusOp.enable] ++
          (if use_single_write tbs s s.w s.h s.mhz then single_write s buf s.h
          else multiple_write cu tbs s buf s.w s.h) ++ [BusOp.disable]) := by
  unfold display_
  simp only [hb]
  rw [if_neg (by omega), if_neg (by omega)]

theorem mhz_ne_zero (s : State) (h1 : 1000000 ≤ s.data_rate_) (h2 : s.data_rate_ < 4294967296) :
    s.mhz ≠ 0 := by
  unfold State.mhz sz
  omega

theorem display_empty (cu : ColorUtil) (tbs : Nat) (s : State)
    (h : s.x_high_ < s.x_low_ ∨ s.y_high_ < s.y_low_) : display_ cu tbs s = some (s, []) := by
  unfold display_
  cases hb : s.buffer_ with
  | none => rfl
  | some buf => simp only [if_pos h]

theorem stage_pixel_idx (s : State) (tb : List Nat) (idx v : Nat) :
    (stage_pixel s tb idx v).2 = idx + wire_size s := by
  unfold stage_pixel wire_size
  split_ifs <;> rfl

theorem flush_step_out (cu : ColorUtil) (tbs : Nat) (s : State) (buf : List Nat) (w : Nat)
    (l : Flush) :
    ∃ extra, (flush_step cu tbs s buf w l).out = l.out ++ extra ∧
      ((flush_step cu tbs s buf w l).idx ≠ 0 ∨ ∃ b, BusOp.write_array b ∈ extra) := by
  unfold flush_step
  simp only
  split_ifs with he
  · exact ⟨_, rfl, Or.inr ⟨_, List.mem_cons_self _ _⟩⟩
  · refine ⟨[], by simp, Or.inl ?_⟩
    rw [stage_pixel_idx]
    unfold wire_size
    split_ifs <;> omega

theorem flush_loop_out (cu : ColorUtil) (tbs : Nat) (s : State) (buf : List Nat) (w : Nat) :
    ∀ (rem : Nat) (l : Flush),
    ∃ extra, (flush_loop cu tbs s buf w rem l).out = l.out ++ extra ∧
      (0 < rem → (flush_loop cu tbs s buf w rem l).idx ≠ 0 ∨ ∃ b, BusOp.write_array b ∈ extra) := by
  intro rem
  induction rem with
  | zero => intro l; exact ⟨[], by simp [flush_loop], fun h => absurd h (by omega)⟩
  | succ n ih =>
    intro l
    obtain ⟨e1, h1, h1'⟩ := flush_step_out cu tbs s buf w l
    obtain ⟨e2, h2, h2'⟩ := ih (flush_step cu tbs s buf w l)
    refine ⟨e1 ++ e2, ?_, ?_⟩
    · simp only [flush_loop]
      rw [h2, h1, List.append_assoc]
    · intro _
      simp only [flush_loop]
      rcases Nat.eq_zero_or_pos n with hn | hn
      · subst hn
        simp only [flush_loop]
        rcases h1' with h | ⟨b, hb⟩
        · exact Or.inl h
        · exact Or.inr ⟨b, List.mem_append_left _ hb⟩
      · rcases h2' hn with h | ⟨b, hb⟩
        · exact Or.inl h
        · exact Or.inr ⟨b, List.mem_append_right _ hb⟩

theorem multiple_write_shape (cu : ColorUtil) (tbs : Nat) (s : State) (buf : List Nat)
    (w h : Nat) :
    ∃ data, multiple_write cu tbs s buf w h =
        set_addr_window_ s s.x_low_ s.y_low_ s.x_high_ s.y_high_ ++ data ∧
      (0 < sz (h * w) → ∃ b, BusOp.write_array b ∈ data) := by
  unfold multiple_write
  simp only
  obtain ⟨e, he, he'⟩ := flush_loop_out cu tbs s buf w (sz (h * w))
    { transfer_buffer := List.replicate tbs 0, idx := 0, pixel := 0,
      pos := s.y_low_ * s.width_ + s.x_low_,
      out := set_addr_window_ s s.x_low_ s.y_low_ s.x_high_ s.y_high_ }
  rw [he]
  split_ifs with hi
  · refine ⟨e ++ [BusOp.write_array ((flush_loop cu tbs s buf w (sz (h * w))
        { transfer_buffer := List.replicate tbs 0, idx := 0, pixel := 0,
          pos := s.y_low_ * s.width_ + s.x_low_,
          out := set_addr_window_ s s.x_low_ s.y_low_ s.x_high_ s.y_high_ }).transfer_buffer.take
        (flush_loop cu tbs s buf w (sz (h * w))
        { transfer_buffer := List.replicate tbs 0, idx := 0, pixel := 0,
          pos := s.y_low_ * s.width_ + s.x_low_,
          out := set_addr_window_ s s.x_low_ s.y_low_ s.x_high_ s.y_high_ }).idx)],
      by rw [List.append_assoc],
      fun _ => ⟨_, List.mem_append_right _ (List.mem_singleton_self _)⟩⟩
  · refine ⟨e, rfl, fun hp => ?_⟩
    rcases he' hp with h' | h'
    · exact absurd h' (by simpa using hi)
    · exact h'

theorem rect_w_eq (s : State) (hx : s.x_low_ ≤ s.x_high_) (hw : s.x_high_ < 65536) :
    s.w = s.x_high_ - s.x_low_ + 1 := by
  unfold State.w sz
  omega

theorem rect_h_eq (s : State) (hy : s.y_low_ ≤ s.y_high_) (hh : s.y_high_ < 65536) :
    s.h = s.y_high_ - s.y_low_ + 1 := by
  unfold State.h sz
  omega

theorem mul_lt_of_lt_65536 {a b : Nat} (ha : a < 65536) (hb : b < 65536) :
    a * b < 4294967296 := by
  have h1 : a * b ≤ 65535 * 65535 := Nat.mul_le_mul (by omega) (by omega)
  omega

theorem mul_lt_of_lt_32768 {a b : Nat} (ha : a < 32768) (hb : b < 32768) :
    a * b * 2 < 4294967296 := by
  have h1 : a * b ≤ 32767 * 32767 := Nat.mul_le_mul (by omega) (by omega)
  omega

theorem invalidate_display (cu : ColorUtil) (tbs : Nat) (s : State) (hw0 : 0 < s.width_)
    (hw : s.width_ < 65536) :
    display_ cu tbs (invalidate_watermarks s) = some (invalidate_watermarks s, []) := by
  apply display_empty
  left
  simp only [invalidate_watermarks, u16]
  omega

theorem use_single_write_mode (tbs : Nat) (s : State) (w h mhz : Nat)
    (hs : use_single_write tbs s w h mhz = true) :
    s.buffer_color_mode_ = .BITS_16 ∧ s.is_18bitdisplay_ = false := by
  unfold use_single_write at hs
  simp only [Bool.and_eq_true, decide_eq_true_eq, Bool.not_eq_true'] at hs
  exact ⟨hs.1.1, hs.1.2⟩

theorem payload_append (a b : List BusOp) : payload (a ++ b) = payload a ++ payload b := by
  induction a with
  | nil => rfl
  | cons op ops ih =>
    cases op <;> simp [payload, ih]

theorem take_set_of_le (tb : List Nat) (i j a : Nat) (h : j ≤ i) :
    (tb.set i a).take j = tb.take j := by
  apply List.ext_getElem?
  intro n
  simp only [List.getElem?_take, List.getElem?_set]
  split_ifs <;> first | rfl | omega

theorem take_set_succ (tb : List Nat) (i a : Nat) (h : i < tb.length) :
    (tb.set i a).take (i + 1) = tb.take i ++ [a] := by
  rw [List.take_succ, take_set_of_le tb i i a (Nat.le_refl i)]
  simp [List.getElem?_set, h]

theorem wire_bytes_length (s : State) (v : Nat) : (wire_bytes s v).length = wire_size s := by
  unfold wire_bytes wire_size
  split_ifs <;> rfl

theorem stage_pixel_length (s : State) (tb : List Nat) (idx v : Nat) :
    (stage_pixel s tb idx v).1.length = tb.length := by
  unfold stage_pixel put16_be
  split_ifs <;> simp

theorem stage_pixel_take (s : State) (tb : List Nat) (idx v : Nat)
    (h : idx + wire_size s ≤ tb.length) :
    (stage_pixel s tb idx v).1.take (idx + wire_size s) = tb.take idx ++ wire_bytes s v := by
  unfold stage_pixel wire_bytes put16_be
  unfold wire_size at h ⊢
  cases h18 : s.is_18bitdisplay_
  · rw [h18] at h
    simp only [Bool.false_eq_true, if_false] at h ⊢
    rw [show idx + 2 = (idx + 1) + 1 by omega, take_set_succ _ _ _ (by simp; omega),
      take_set_succ _ _ _ (by omega)]
    simp
  · rw [h18] at h
    simp only [if_true] at h ⊢
    rw [show idx + 3 = (idx + 2) + 1 by omega, take_set_succ _ _ _ (by simp; omega),
      show idx + 2 = (idx + 1) + 1 by omega, take_set_succ _ _ _ (by simp; omega),
      take_set_succ _ _ _ (by omega)]
    simp

theorem row_bytes_succ (cu : ColorUtil) (s : State) (buf : List Nat) (q n : Nat) :
    row_bytes cu s buf q (n + 1) = row_bytes cu s buf q n ++
      wire_bytes s (color_val_at cu s buf ((s.y_low_ + q) * s.width_ + (s.x_low_ + n))) := by
  unfold row_bytes
  rw [List.range_succ, List.flatMap_append]
  simp

theorem staging_room (ws idx tbs : Nat) (h1 : idx < tbs) (h2 : ws ∣ idx) (h3 : ws ∣ tbs) :
    idx + ws ≤ tbs := by
  obtain ⟨a, rfl⟩ := h2
  obtain ⟨b, rfl⟩ := h3
  have hab : a < b := Nat.lt_of_mul_lt_mul_left h1
  have : ws * (a + 1) ≤ ws * b := Nat.mul_le_mul_left ws hab
  rw [Nat.mul_add, Nat.mul_one] at this
  exact this

theorem wire_size_pos (s : State) : 0 < wire_size s := by
  unfold wire_size
  split_ifs <;> omega

theorem flush_step_inv (cu : ColorUtil) (tbs : Nat) (s : State) (buf : List Nat)
    (pre : List BusOp) (l : Flush) (q r : Nat) (hdiv : wire_size s ∣ tbs)
    (hxl : s.x_low_ ≤ s.x_high_) (hxh : s.x_high_ < s.width_)
    (hinv : FlushInv cu tbs s buf pre l q r) :
    (r + 1 < s.x_high_ - s.x_low_ + 1 →
      FlushInv cu tbs s buf pre (flush_step cu tbs s buf (s.x_high_ - s.x_low_ + 1) l) q (r + 1)) ∧
    (r + 1 = s.x_high_ - s.x_low_ + 1 →
      FlushInv cu tbs s buf pre (flush_step cu tbs s buf (s.x_high_ - s.x_low_ + 1) l) (q + 1) 0) := by
  obtain ⟨hpix, hpos, hlen, hidx, hd, data, hout, hpay, hops⟩ := hinv
  have hroom := staging_room _ _ _ hidx hd hdiv
  have hst2 := stage_pixel_idx s l.transfer_buffer l.idx (color_val_at cu s buf l.pos)
  have hstl := stage_pixel_length s l.transfer_buffer l.idx (color_val_at cu s buf l.pos)
  have hstt := stage_pixel_take s l.transfer_buffer l.idx (color_val_at cu s buf l.pos)
    (by omega)
  have hwp := wire_size_pos s
  -- the staged bytes and the bus data after this pass
  have hdata : ∃ data', (flush_step cu tbs s buf (s.x_high_ - s.x_low_ + 1) l).out = pre ++ data' ∧
      payload data' ++ (flush_step cu tbs s buf (s.x_high_ - s.x_low_ + 1) l).transfer_buffer.take
          (flush_step cu tbs s buf (s.x_high_ - s.x_low_ + 1) l).idx =
        ((List.range q).flatMap fun q' => row_bytes cu s buf q' (s.x_high_ - s.x_low_ + 1)) ++
          row_bytes cu s buf q (r + 1) ∧
      (∀ op ∈ data', (∃ b, op = BusOp.write_array b) ∨ op = BusOp.feed_wdt) ∧
      (flush_step cu tbs s buf (s.x_high_ - s.x_low_ + 1) l).idx < tbs ∧
      wire_size s ∣ (flush_step cu tbs s buf (s.x_high_ - s.x_low_ + 1) l).idx := by
    rw [row_bytes_succ, ← hpos, ← List.append_assoc, ← hpay, List.append_assoc, ← hstt]
    unfold flush_step
    simp only [hst2]
    by_cases hfull : l.idx + wire_size s = tbs
    · simp only [hfull, if_true]
      refine ⟨data ++ [BusOp.write_array ((stage_pixel s l.transfer_buffer l.idx
        (color_val_at cu s buf l.pos)).1.take tbs), BusOp.feed_wdt], ?_, ?_, ?_, by omega,
        Nat.dvd_zero _⟩
      · rw [hout, List.append_assoc]
      · rw [payload_append]
        simp [payload]
      · intro op hop
        rcases List.mem_append.mp hop with h | h
        · exact hops op h
        · simp only [List.mem_cons, List.mem_singleton, List.not_mem_nil, or_false] at h
          rcases h with h | h
          · exact Or.inl ⟨_, h⟩
          · exact Or.inr h
    · simp only [hfull, if_false]
      exact ⟨data, hout, rfl, hops, by omega, Nat.dvd_add hd (Nat.dvd_refl _)⟩
  obtain ⟨data', ho', hp', hops', hidx', hd'⟩ := hdata
  have hl' : (flush_step cu tbs s buf (s.x_high_ - s.x_low_ + 1) l).transfer_buffer.length = tbs := by
    unfold flush_step
    simp only [hstl, hlen]
  constructor
  · intro hlt
    refine ⟨?_, ?_, hl', hidx', hd', data', ho', hp', hops'⟩
    · unfold flush_step
      simp only [hpix]
      rw [if_neg (by omega)]
    · unfold flush_step
      simp only [hpix, hpos]
      rw [if_neg (by omega)]
      omega
  · intro heq
    refine ⟨?_, ?_, hl', hidx', hd', data', ho', ?_, hops'⟩
    · unfold flush_step
      simp only [hpix]
      rw [if_pos heq]
    · unfold flush_step
      simp only [hpix, hpos]
      rw [if_pos heq]
      have : (s.y_low_ + (q + 1)) * s.width_ = (s.y_low_ + q) * s.width_ + s.width_ := by ring
      omega
    · rw [hp', heq, List.range_succ, List.flatMap_append]
      simp [row_bytes]

theorem row_end (q r n H W : Nat) (hr : r < W) (h : q * W + r + 0 = H * W) (_hn : n = 0) :
    q = H ∧ r = 0 := by
  have hW : 0 < W := by omega
  have h1 : (r + q * W) % W = r := by
    rw [Nat.add_mul_mod_self_right, Nat.mod_eq_of_lt hr]
  have h2 : (H * W) % W = 0 := Nat.mul_mod_left H W
  have hr0 : r = 0 := by
    have : r + q * W = H * W := by omega
    rw [this] at h1
    omega
  subst hr0
  have : q * W = H * W := by omega
  exact ⟨Nat.eq_of_mul_eq_mul_right hW this, rfl⟩

theorem flush_loop_inv (cu : ColorUtil) (tbs : Nat) (s : State) (buf : List Nat)
    (pre : List BusOp) (H : Nat) (hdiv : wire_size s ∣ tbs)
    (hxl : s.x_low_ ≤ s.x_high_) (hxh : s.x_high_ < s.width_) :
    ∀ (n : Nat) (l : Flush) (q r : Nat), r < s.x_high_ - s.x_low_ + 1 →
      FlushInv cu tbs s buf pre l q r →
      q * (s.x_high_ - s.x_low_ + 1) + r + n = H * (s.x_high_ - s.x_low_ + 1) →
      FlushInv cu tbs s buf pre
        (flush_loop cu tbs s buf (s.x_high_ - s.x_low_ + 1) n l) H 0 := by
  intro n
  induction n with
  | zero =>
    intro l q r hr hinv hcount
    obtain ⟨rfl, rfl⟩ := row_end q r 0 H _ hr hcount rfl
    exact hinv
  | succ n ih =>
    intro l q r hr hinv hcount
    obtain ⟨h1, h2⟩ := flush_step_inv cu tbs s buf pre l q r hdiv hxl hxh hinv
    simp only [flush_loop]
    by_cases hlt : r + 1 < s.x_high_ - s.x_low_ + 1
    · exact ih _ q (r + 1) hlt (h1 hlt) (by omega)
    · have heq : r + 1 = s.x_high_ - s.x_low_ + 1 := by omega
      refine ih _ (q + 1) 0 (by omega) (h2 heq) ?_
      have : (q + 1) * (s.x_high_ - s.x_low_ + 1) =
          q * (s.x_high_ - s.x_low_ + 1) + (s.x_high_ - s.x_low_ + 1) := by ring
      omega

theorem multiple_write_payload (cu : ColorUtil) (tbs : Nat) (s : State) (buf : List Nat)
    (hxl : s.x_low_ ≤ s.x_high_) (hxh : s.x_high_ < s.width_)
    (hyl : s.y_low_ ≤ s.y_high_) (hyh : s.y_high_ < s.height_)
    (hw : s.width_ < 65536) (hh : s.height_ < 65536)
    (ht : 0 < tbs) (hdiv : wire_size s ∣ tbs) :
    ∃ data, multiple_write cu tbs s buf s.w s.h =
        set_addr_window_ s s.x_low_ s.y_low_ s.x_high_ s.y_high_ ++ data ∧
      payload data = window_pixels cu s buf ∧
      ∀ op ∈ data, (∃ b, op = BusOp.write_array b) ∨ op = BusOp.feed_wdt := by
  have hwe := rect_w_eq s hxl (by omega)
  have hhe := rect_h_eq s hyl (by omega)
  have hprod := mul_lt_of_lt_65536 (show s.y_high_ - s.y_low_ + 1 < 65536 by omega)
    (show s.x_high_ - s.x_low_ + 1 < 65536 by omega)
  have hrem : sz (s.h * s.w) = (s.y_high_ - s.y_low_ + 1) * (s.x_high_ - s.x_low_ + 1) := by
    rw [hwe, hhe]
    unfold sz
    omega
  have h0 : FlushInv cu tbs s buf (set_addr_window_ s s.x_low_ s.y_low_ s.x_high_ s.y_high_)
      { transfer_buffer := List.replicate tbs 0, idx := 0, pixel := 0,
        pos := s.y_low_ * s.width_ + s.x_low_,
        out := set_addr_window_ s s.x_low_ s.y_low_ s.x_high_ s.y_high_ } 0 0 := by
    refine ⟨rfl, by simp, by simp, ht, Nat.dvd_zero _, [], by simp, ?_, ?_⟩
    · simp [payload, row_bytes]
    · intro op hop
      cases hop
  have hfin := flush_loop_inv cu tbs s buf _ (s.y_high_ - s.y_low_ + 1) hdiv hxl hxh
    ((s.y_high_ - s.y_low_ + 1) * (s.x_high_ - s.x_low_ + 1)) _ 0 0 (by omega) h0 (by omega)
  obtain ⟨-, -, -, -, -, data, hout, hpay, hops⟩ := hfin
  have hwin : ((List.range (s.y_high_ - s.y_low_ + 1)).flatMap fun q' =>
        row_bytes cu s buf q' (s.x_high_ - s.x_low_ + 1)) ++
      row_bytes cu s buf (s.y_high_ - s.y_low_ + 1) 0 = window_pixels cu s buf := by
    simp [window_pixels, row_bytes]
  rw [hwin] at hpay
  unfold multiple_write
  simp only [hrem]
  rw [← hwe] at hout hpay ⊢
  split_ifs with hi
  · refine ⟨data ++ [BusOp.write_array _], by rw [hout, List.append_assoc], ?_, ?_⟩
    · rw [payload_append]
      simpa [payload] using hpay
    · intro op hop
      rcases List.mem_append.mp hop with h | h
      · exact hops op h
      · exact Or.inl ⟨_, List.mem_singleton.mp h⟩
  · have hi0 := not_not.mp hi
    rw [hi0] at hpay
    exact ⟨data, hout, by simpa using hpay, hops⟩

theorem display_total (cu : ColorUtil) (tbs : Nat) (s : State) (hm : s.mhz ≠ 0) (ht : tbs ≠ 0) :
    ∃ r, display_ cu tbs s = some r ∧ r.1.prossing_update_ = s.prossing_update_ ∧
      r.1.need_update_ = s.need_update_ := by
  unfold display_
  cases hb : s.buffer_ with
  | none => exact ⟨_, rfl, rfl, rfl⟩
  | some buf =>
    simp only
    split_ifs <;> first | exact ⟨_, rfl, rfl, rfl⟩ | omega

theorem update_nested (cu : ColorUtil) (tbs : Nat)
    (do_update_ : Nat → (Sys → Option Sys) → Sys → Option Sys) (fuel : Nat) (y : Sys)
    (hp : y.st.prossing_update_ = true) :
    update cu tbs do_update_ (fuel + 1) y =
      some { y with st := { y.st with need_update_ := true },
                    calls := y.calls ++ [Call.coalesced] } := by
  simp only [update, hp, if_true]

theorem update_loop_scripted (calls_update : Nat → Bool) (reenter : Sys → Option Sys)
    (n : Nat) (hfirst : ∀ k, k < n → calls_update k = true) (hlast : calls_update n = false)
    (hre : ∀ t : Sys, t.st.prossing_update_ = true →
      reenter t = some { t with st := { t.st with need_update_ := true },
                                calls := t.calls ++ [Call.coalesced] }) :
    ∀ (m k fuel : Nat) (y : Sys), k + m = n → m + 1 ≤ fuel →
      y.st.prossing_update_ = true →
      update_loop (scripted_repaint calls_update) reenter fuel k y =
        some { st := { y.st with need_update_ := false }, bus := y.bus,
               calls := y.calls ++ (List.replicate m [Call.repaint, Call.coalesced]).flatten ++
                 [Call.repaint] } := by
  intro m
  induction m with
  | zero =>
    intro k fuel y hk hf hp
    obtain ⟨fuel, rfl⟩ : ∃ g, fuel = g + 1 := ⟨fuel - 1, by omega⟩
    have hkn : k = n := by omega
    subst hkn
    simp [update_loop, scripted_repaint, hlast]
  | succ m ih =>
    intro k fuel y hk hf hp
    obtain ⟨fuel, rfl⟩ : ∃ g, fuel = g + 1 := ⟨fuel - 1, by omega⟩
    have hck := hfirst k (by omega)
    simp only [update_loop, scripted_repaint, hck, if_true]
    rw [hre _ (by exact hp)]
    simp only [if_true]
    rw [ih (k + 1) fuel _ (by omega) (by omega) (by exact hp)]
    simp [List.replicate_succ]

theorem count_passes (n : Nat) :
    ((List.replicate n [Call.repaint, Call.coalesced]).flatten ++
        [Call.repaint, Call.display_]).count Call.repaint = n + 1 ∧
    ((List.replicate n [Call.repaint, Call.coalesced]).flatten ++
        [Call.repaint, Call.display_]).count Call.display_ = 1 ∧
    ((List.replicate n [Call.repaint, Call.coalesced]).flatten ++
        [Call.repaint, Call.display_]).count Call.coalesced = n := by
  induction n with
  | zero => decide
  | succ n ih =>
    obtain ⟨h1, h2, h3⟩ := ih
    simp only [List.replicate_succ, List.flatten_cons, List.append_assoc, List.count_append] at h1 h2 h3 ⊢
    refine ⟨?_, ?_, ?_⟩
    · rw [h1]; simp; omega
    · rw [h2]; simp
    · rw [h3]; simp; omega

theorem update_outer (cu : ColorUtil) (tbs : Nat)
    (do_update_ : Nat → (Sys → Option Sys) → Sys → Option Sys) (fuel : Nat) (y : Sys)
    (hp : y.st.prossing_update_ = false) :
    update cu tbs do_update_ (fuel + 1) y =
      match update_loop do_update_ (fun t => update cu tbs do_update_ fuel t) fuel 0
          { y with st := { y.st with prossing_update_ := true } } with
      | none => none
      | some y2 =>
        display_sys cu tbs { y2 with st := { y2.st with prossing_update_ := false } } := by
  simp only [update, hp, Bool.false_eq_true, if_false]

theorem and_mask_shift (v n k : Nat) :
    v &&& ((2 ^ n - 1) <<< k) = ((v >>> k) % 2 ^ n) <<< k := by
  apply Nat.eq_of_testBit_eq
  intro i
  simp only [Nat.testBit_and, Nat.testBit_shiftLeft, Nat.testBit_two_pow_sub_one,
    Nat.testBit_mod_two_pow, Nat.testBit_shiftRight]
  by_cases h : k ≤ i
  · simp [h, Bool.and_comm]
  · simp [h]

theorem expand18_b0 (v : Nat) (h : v < 65536) : (v &&& 0xF800) >>> 8 = v / 2048 * 8 := by
  have e : (0xF800 : Nat) = (2 ^ 5 - 1) <<< 11 := by decide
  rw [e, and_mask_shift]
  simp only [Nat.shiftRight_eq_div_pow, Nat.shiftLeft_eq]
  omega

theorem expand18_b1 (v : Nat) : (v &&& 0x7E0) >>> 3 = v / 32 % 64 * 4 := by
  have e : (0x7E0 : Nat) = (2 ^ 6 - 1) <<< 5 := by decide
  rw [e, and_mask_shift]
  simp only [Nat.shiftRight_eq_div_pow, Nat.shiftLeft_eq]
  omega

theorem expand18_b2 (v : Nat) : u8 (v <<< 3) = v % 32 * 8 := by
  simp only [u8, Nat.shiftLeft_eq]
  omega

theorem or_recombine (a b c : Nat) (hb : b < 64) (hc : c < 32) :
    (a <<< 11) ||| (b <<< 5) ||| c = a * 2048 + b * 32 + c := by
  rw [Nat.or_assoc]
  simp only [Nat.shiftLeft_eq]
  have h1 : b * 2 ^ 5 ||| c = 2 ^ 5 * b + c := by
    rw [Nat.mul_add_lt_is_or hc b, Nat.mul_comm]
  have h2 : a * 2 ^ 11 ||| (2 ^ 5 * b + c) = 2 ^ 11 * a + (2 ^ 5 * b + c) := by
    rw [Nat.mul_add_lt_is_or (by omega) a, Nat.mul_comm]
  rw [h1, h2]
  omega

theorem store_pixel_peek_16 (cu : ColorUtil) (s : State) (buf : List Nat) (p : Nat)
    (color : Color) (hm : s.buffer_color_mode_ = .BITS_16) (hl : p * 2 + 1 < buf.length)
    (j : Nat) :
    peek (store_pixel cu s buf p color).1 j =
      if j = p * 2 + 1 then u16 (cu.color_to_565 color) % 256
      else if j = p * 2 then u16 (cu.color_to_565 color) / 256
      else peek buf j := by
  have h256 : u16 (cu.color_to_565 color) / 256 < 256 := by
    unfold u16; omega
  have hlo : u16 (cu.color_to_565 color) % 256 < 256 := Nat.mod_lt _ (by decide)
  unfold store_pixel
  simp only [hm, shr8, and255, u8, Nat.mod_eq_of_lt h256]
  rw [compare_store_peek _ _ _ _ hlo (by rw [compare_store_length]; omega),
    compare_store_peek _ _ _ _ h256 (by omega)]

theorem draw_config (cu : ColorUtil) (s : State) (x y : Nat) (color : Color)
    (buf : List Nat) (hx : x < s.width_) (hy : y < s.height_) (hb : s.buffer_ = some buf) :
    (draw_absolute_pixel_internal cu s x y color).buffer_color_mode_ = s.buffer_color_mode_ ∧
    (draw_absolute_pixel_internal cu s x y color).is_18bitdisplay_ = s.is_18bitdisplay_ ∧
    (draw_absolute_pixel_internal cu s x y color).width_ = s.width_ := by
  rw [draw_in_bounds_eq cu s x y color buf hx hy hb]
  split_ifs <;> simp [mark_updated]

theorem route_direct_iff (s : State) (w h : Int) (order : ColorOrder) (bitness : ColorBitness)
    (big_endian : Bool) :
    draw_pixels_at_route s w h order bitness big_endian = .direct ↔
      (0 < w ∧ 0 < h ∧ s.buffer_color_mode_ = .BITS_16 ∧ bitness = .COLOR_BITNESS_565 ∧
        order = .COLOR_ORDER_RGB ∧ big_endian = true) := by
  unfold draw_pixels_at_route
  constructor
  · intro hr
    split_ifs at hr with h1 h2
    refine ⟨by omega, by omega, ?_, ?_, ?_, ?_⟩
    · by_contra hc; exact h2 (Or.inl hc)
    · by_contra hc; exact h2 (Or.inr (Or.inl hc))
    · by_contra hc; exact h2 (Or.inr (Or.inr (Or.inl hc)))
    · cases big_endian
      · exact absurd (Or.inr (Or.inr (Or.inr rfl))) h2
      · rfl
  · rintro ⟨hw, hh, hm, hb, ho, he⟩
    rw [if_neg (by omega), if_neg]
    rw [hm, hb, ho, he]
    simp

theorem draw_pixels_at_direct (parent : State → State × List BusOp) (s : State)
    (x_start y_start w h : Int) (ptr : List Nat) (order : ColorOrder) (bitness : ColorBitness)
    (big_endian : Bool) (x_offset y_offset x_pad : Int)
    (hr : draw_pixels_at_route s w h order bitness big_endian = .direct) :
    draw_pixels_at parent s x_start y_start w h ptr order bitness big_endian
        x_offset y_offset x_pad =
      (s, draw_pixels_direct s x_start y_start w h ptr x_offset y_offset x_pad) := by
  unfold draw_pixels_at
  rw [hr]

theorem u16i_u16i_add (a : Nat) (off : Int) :
    u16i (((u16i (a : Int) : Nat) : Int) + off) = u16i ((a : Int) + off) := by
  unfold u16i
  omega

theorem set_addr_window_u16i (s : State) (a b c d : Nat) :
    set_addr_window_ s (u16i (a : Int)) (u16i (b : Int)) (u16i (c : Int)) (u16i (d : Int)) =
      set_addr_window_ s a b c d := by
  rw [set_addr_window_eq, set_addr_window_eq]
  simp only [u16i_u16i_add]

theorem direct_rows_eq (ptr : List Nat) (len line_stride : Nat) :
    ∀ (rows src : Nat), direct_rows ptr len line_stride rows src =
      (List.range rows).map fun r =>
        BusOp.write_array ((ptr.drop ((src + r * line_stride) * 2)).take len) := by
  intro rows
  induction rows with
  | zero => intro src; rfl
  | succ n ih =>
    intro src
    rw [direct_rows, ih, List.range_succ_eq_map, List.map_cons, List.map_map]
    congr 1
    · simp
    · apply List.map_congr_left
      intro r _
      simp only [Function.comp]
      have : src + line_stride + r * line_stride = src + (r + 1) * line_stride := by ring
      rw [this]

theorem payload_rows_length (f : Nat → List Nat) (L : Nat) :
    ∀ n, (∀ r, r < n → (f r).length = L) →
      (payload ((List.range n).map fun r => BusOp.write_array (f r))).length = n * L := by
  intro n
  induction n with
  | zero => intro _; simp [payload]
  | succ n ih =>
    intro h
    rw [List.range_succ, List.map_append, payload_append, List.length_append,
      ih (fun r hr => h r (by omega))]
    simp only [List.map_cons, List.map_nil, payload, List.append_nil]
    rw [h n (by omega)]
    ring

theorem getElem?_at_pre (pre : List Nat) (a : Nat) (tl : List Nat) :
    (pre ++ a :: tl)[pre.length]? = some a := by
  rw [List.getElem?_append_right (Nat.le_refl _), Nat.sub_self]
  simp

theorem getElem?_at_pre_succ (pre : List Nat) (a b : Nat) (tl : List Nat) :
    (pre ++ a :: b :: tl)[pre.length + 1]? = some b := by
  rw [List.getElem?_append_right (by omega), show pre.length + 1 - pre.length = 1 by omega]
  simp

theorem drop_take_at_pre (pre : List Nat) (a b : Nat) (args tl : List Nat) :
    ((pre ++ a :: b :: (args ++ tl)).drop (pre.length + 2)).take args.length = args := by
  have : (pre ++ a :: b :: (args ++ tl)) = (pre ++ [a, b]) ++ (args ++ tl) := by simp
  rw [this, show pre.length + 2 = (pre ++ [a, b]).length by simp, List.drop_left,
    List.take_left]

theorem encode_length_ge (entries : List InitEntry) :
    entries.length ≤ (entries.flatMap InitEntry.encode).length := by
  induction entries with
  | nil => simp
  | cons e es ih =>
    simp only [List.flatMap_cons, List.length_append, List.length_cons, InitEntry.encode]
    omega

theorem init_loop_entries (entries : List InitEntry) :
    ∀ (pre rest : List Nat) (fuel : Nat), (∀ e ∈ entries, e.wf) → entries.length + 1 ≤ fuel →
      init_loop (pre ++ (entries.flatMap InitEntry.encode ++ 0 :: rest)) fuel pre.length =
        some (entries.flatMap InitEntry.ops,
          pre.length + (entries.flatMap InitEntry.encode).length + 1) := by
  induction entries with
  | nil =>
    intro pre rest fuel _ hf
    obtain ⟨f, rfl⟩ : ∃ f, fuel = f + 1 := ⟨fuel - 1, by simp at hf; omega⟩
    rw [init_loop]
    simp only [List.flatMap_nil, List.nil_append, getElem?_at_pre]
    simp
  | cons e es ih =>
    intro pre rest fuel hwf hf
    obtain ⟨f, rfl⟩ : ∃ f, fuel = f + 1 := ⟨fuel - 1, by simp at hf; omega⟩
    obtain ⟨hcmd, hargs⟩ := hwf e (List.mem_cons_self _ _)
    have hrec := ih (pre ++ e.encode) rest f (fun e' he' => hwf e' (List.mem_cons_of_mem _ he'))
      (by simp at hf ⊢; omega)
    have htab : pre ++ e.cmd :: e.x :: (e.args ++ (es.flatMap InitEntry.encode ++ 0 :: rest)) =
        (pre ++ e.encode) ++ (es.flatMap InitEntry.encode ++ 0 :: rest) := by
      simp [InitEntry.encode]
    have hshape : pre ++ ((e :: es).flatMap InitEntry.encode ++ 0 :: rest) =
        pre ++ e.cmd :: e.x :: (e.args ++ (es.flatMap InitEntry.encode ++ 0 :: rest)) := by
      simp [List.flatMap_cons, InitEntry.encode]
    have hlen : pre.length + 2 + (e.x &&& 0x7F) ≤
        (pre ++ e.cmd :: e.x :: (e.args ++ (es.flatMap InitEntry.encode ++ 0 :: rest))).length := by
      rw [← hargs]; simp; omega
    have haddr : pre.length + 2 + (e.x &&& 0x7F) = (pre ++ e.encode).length := by
      rw [← hargs]; simp [InitEntry.encode]; omega
    have hdrop := drop_take_at_pre pre e.cmd e.x e.args
      (es.flatMap InitEntry.encode ++ 0 :: rest)
    rw [hargs] at hdrop
    rw [hshape, init_loop]
    simp only [getElem?_at_pre, getElem?_at_pre_succ, hcmd, gt_iff_lt, if_true, hlen, hdrop]
    rw [haddr, htab, hrec]
    simp only [Option.some.injEq, Prod.mk.injEq]
    constructor
    · simp [InitEntry.ops, List.flatMap_cons]
    · simp [InitEntry.encode, List.flatMap_cons]
      omega

theorem fill_rect_dims (cu : ColorUtil) (s : State) (color : Color) :
    (fill cu s color).rect =
      (0, 0, u16i ((s.width_ : Int) - 1), u16i ((s.height_ : Int) - 1)) ∧
    (fill cu s color).width_ = s.width_ ∧ (fill cu s color).height_ = s.height_ := by
  obtain ⟨hw, hh, -, -, -, -, -, -, hb⟩ := allocate_fields s
  unfold fill
  simp only [hb, State.get_width_internal, State.get_height_internal, hw, hh]
  cases hm : (allocate_buffer_ s).buffer_color_mode_
  · exact ⟨rfl, rfl, rfl⟩
  · exact ⟨rfl, rfl, rfl⟩
  · simp only []
    split_ifs <;> exact ⟨rfl, rfl, rfl⟩

theorem display_result (cu : ColorUtil) (tbs : Nat) (s t : State) (ops : List BusOp)
    (h : display_ cu tbs s = some (t, ops)) : t = s ∨ t = invalidate_watermarks s := by
  unfold display_ at h
  cases hb : s.buffer_ with
  | none =>
    rw [hb] at h
    simp only [Option.some.injEq, Prod.mk.injEq] at h
    exact Or.inl h.1.symm
  | some buf =>
    rw [hb] at h
    simp only at h
    split_ifs at h <;> simp only [Option.some.injEq, Prod.mk.injEq] at h <;>
      first | exact Or.inl h.1.symm | exact Or.inr h.1.symm

theorem draw_rect_inv (cu : ColorUtil) (s : State) (x y : Int) (color : Color)
    (hw : s.width_ < 65536) (hh : s.height_ < 65536)
    (hinv : s.rect = (s.width_, s.height_, 0, 0) ∨
      (s.x_low_ ≤ s.x_high_ ∧ s.x_high_ < s.width_ ∧ s.y_low_ ≤ s.y_high_ ∧
        s.y_high_ < s.height_)) :
    (draw_absolute_pixel_internal cu s x y color).rect = (s.width_, s.height_, 0, 0) ∨
      ((draw_absolute_pixel_internal cu s x y color).x_low_ ≤
          (draw_absolute_pixel_internal cu s x y color).x_high_ ∧
        (draw_absolute_pixel_internal cu s x y color).x_high_ < s.width_ ∧
        (draw_absolute_pixel_internal cu s x y color).y_low_ ≤
          (draw_absolute_pixel_internal cu s x y color).y_high_ ∧
        (draw_absolute_pixel_internal cu s x y color).y_high_ < s.height_) := by
  by_cases hc : changes cu s x y color = true
  · have hb := changes_bounds cu s x y color hc
    have hr := draw_changed_rect cu s x y color hw hh hc
    simp only [State.rect, Prod.mk.injEq] at hr hinv
    obtain ⟨r1, r2, r3, r4⟩ := hr
    right
    rw [r1, r2, r3, r4]
    rcases hinv with ⟨c1, c2, c3, c4⟩ | ⟨i1, i2, i3, i4⟩
    · rw [c1, c2, c3, c4]
      omega
    · omega
  · have hc' : changes cu s x y color = false := by simpa using hc
    have hr := draw_unchanged_rect cu s x y color hc'
    simp only [State.rect, Prod.mk.injEq] at hr hinv ⊢
    obtain ⟨r1, r2, r3, r4⟩ := hr
    rw [r1, r2, r3, r4]
    exact hinv

theorem reachable_rect_inv (cu : ColorUtil) (tbs : Nat) (s : State)
    (hr : Reachable cu tbs s) :
    0 < s.width_ → s.width_ < 65536 → 0 < s.height_ → s.height_ < 65536 →
      (s.rect = (s.width_, s.height_, 0, 0) ∨
        (s.x_low_ ≤ s.x_high_ ∧ s.x_high_ < s.width_ ∧ s.y_low_ ≤ s.y_high_ ∧
          s.y_high_ < s.height_)) := by
  induction hr with
  | setup s0 =>
    intro _ hw _ hh
    left
    simp only [State.rect, invalidate_watermarks, u16] at hw hh ⊢
    rw [Nat.mod_eq_of_lt hw, Nat.mod_eq_of_lt hh]
  | draw s0 x y color _ ih =>
    obtain ⟨d1, d2⟩ := draw_dims cu s0 x y color
    rw [d1, d2]
    intro hw0 hw hh0 hh
    exact draw_rect_inv cu s0 x y color hw hh (ih hw0 hw hh0 hh)
  | fill s0 color _ _ =>
    obtain ⟨fr, d1, d2⟩ := fill_rect_dims cu s0 color
    rw [d1, d2]
    intro hw0 hw hh0 hh
    right
    simp only [State.rect, Prod.mk.injEq] at fr
    obtain ⟨r1, r2, r3, r4⟩ := fr
    rw [r1, r2, r3, r4]
    unfold u16i
    omega
  | draw_pixels s0 parent x_start y_start w h ptr order bitness big_endian x_offset y_offset
      x_pad _ hroute ih =>
    rw [draw_pixels_at_direct parent s0 x_start y_start w h ptr order bitness big_endian
      x_offset y_offset x_pad hroute]
    exact ih
  | display s0 t ops _ hd ih =>
    rcases display_result cu tbs s0 t ops hd with rfl | rfl
    · exact ih
    · intro _ hw _ hh
      left
      simp only [State.rect, invalidate_watermarks, u16] at hw hh ⊢
      rw [Nat.mod_eq_of_lt hw, Nat.mod_eq_of_lt hh]

theorem flush_step_stage (cu : ColorUtil) (tbs : Nat) (s : State) (buf : List Nat) (w : Nat)
    (pre : List BusOp) (l : Flush) (k : Nat) (hdiv : wire_size s ∣ tbs)
    (hinv : StageInv tbs s pre l k) :
    StageInv tbs s pre (flush_step cu tbs s buf w l) (k + 1) := by
  obtain ⟨hlen, hidx, hd, blocks, hout, hfull, hcount⟩ := hinv
  have hroom := staging_room _ _ _ hidx hd hdiv
  have hst2 := stage_pixel_idx s l.transfer_buffer l.idx (color_val_at cu s buf l.pos)
  have hstl := stage_pixel_length s l.transfer_buffer l.idx (color_val_at cu s buf l.pos)
  have hwp := wire_size_pos s
  have hk : wire_size s * (k + 1) = wire_size s * k + wire_size s := Nat.mul_succ _ _
  have e_tb : (flush_step cu tbs s buf w l).transfer_buffer =
      (stage_pixel s l.transfer_buffer l.idx (color_val_at cu s buf l.pos)).1 := rfl
  have e_idx : (flush_step cu tbs s buf w l).idx =
      if (stage_pixel s l.transfer_buffer l.idx (color_val_at cu s buf l.pos)).2 = tbs then 0
      else (stage_pixel s l.transfer_buffer l.idx (color_val_at cu s buf l.pos)).2 := rfl
  have e_out : (flush_step cu tbs s buf w l).out =
      if (stage_pixel s l.transfer_buffer l.idx (color_val_at cu s buf l.pos)).2 = tbs then
        l.out ++ [BusOp.write_array
          ((stage_pixel s l.transfer_buffer l.idx (color_val_at cu s buf l.pos)).1.take
            (stage_pixel s l.transfer_buffer l.idx (color_val_at cu s buf l.pos)).2),
          BusOp.feed_wdt]
      else l.out := rfl
  unfold StageInv
  rw [e_tb, e_idx, e_out, hst2, hstl]
  by_cases hf : l.idx + wire_size s = tbs
  · rw [if_pos hf, if_pos hf, hf]
    refine ⟨hlen, by omega, Nat.dvd_zero _,
      blocks ++ [(stage_pixel s l.transfer_buffer l.idx (color_val_at cu s buf l.pos)).1.take tbs],
      ?_, ?_, ?_⟩
    · rw [hout, List.flatMap_append, List.append_assoc]
      simp
    · intro b hb
      rcases List.mem_append.mp hb with h | h
      · exact hfull b h
      · rw [List.mem_singleton.mp h, List.length_take, hstl, hlen]
        omega
    · rw [List.length_append, List.length_singleton, Nat.mul_succ]
      omega
  · rw [if_neg hf, if_neg hf]
    exact ⟨hlen, by omega, Nat.dvd_add hd (Nat.dvd_refl _), blocks, hout, hfull, by omega⟩

theorem flush_loop_stage (cu : ColorUtil) (tbs : Nat) (s : State) (buf : List Nat) (w : Nat)
    (pre : List BusOp) (hdiv : wire_size s ∣ tbs) :
    ∀ (n : Nat) (l : Flush) (k : Nat), StageInv tbs s pre l k →
      StageInv tbs s pre (flush_loop cu tbs s buf w n l) (k + n) := by
  intro n
  induction n with
  | zero => intro l k h; exact h
  | succ n ih =>
    intro l k h
    have := ih _ (k + 1) (flush_step_stage cu tbs s buf w pre l k hdiv h)
    rw [show k + (n + 1) = k + 1 + n by omega]
    exact this

theorem flush_start_stage (tbs : Nat) (s : State) (ht : 0 < tbs) :
    StageInv tbs s (set_addr_window_ s s.x_low_ s.y_low_ s.x_high_ s.y_high_)
      (flush_start tbs s) 0 := by
  refine ⟨by simp [flush_start], ht, Nat.dvd_zero _, [], by simp [flush_start], ?_, ?_⟩
  · intro b hb; cases hb
  · simp [flush_start]

theorem wire_size_dvd_of_six (s : State) (tbs : Nat) (h6 : 6 ∣ tbs) : wire_size s ∣ tbs := by
  unfold wire_size
  split_ifs
  · exact Nat.dvd_trans (by decide : 3 ∣ 6) h6
  · exact Nat.dvd_trans (by decide : 2 ∣ 6) h6

theorem multiple_write_blocks (cu : ColorUtil) (tbs : Nat) (s : State) (buf : List Nat)
    (w h : Nat) (ht : 0 < tbs) (hdiv : wire_size s ∣ tbs) (hpos : 0 < h * w)
    (hsz : h * w < 4294967296) :
    ∃ (blocks : List (List Nat)) (last : List Nat),
      multiple_write cu tbs s buf w h =
        set_addr_window_ s s.x_low_ s.y_low_ s.x_high_ s.y_high_ ++
          blocks.flatMap (fun b => [BusOp.write_array b, BusOp.feed_wdt]) ++
          (if last = [] then [] else [BusOp.write_array last]) ∧
      (∀ b ∈ blocks, b.length = tbs) ∧ last.length < tbs ∧
      tbs * blocks.length + last.length = wire_size s * (h * w) ∧
      (blocks ≠ [] ∨ last ≠ []) := by
  have hfin := flush_loop_stage cu tbs s buf w _ hdiv (h * w) (flush_start tbs s) 0
    (flush_start_stage tbs s ht)
  rw [Nat.zero_add] at hfin
  obtain ⟨hlen, hidx, -, blocks, hout, hfull, hcount⟩ := hfin
  have hrem : sz (h * w) = h * w := Nat.mod_eq_of_lt hsz
  have hwp := wire_size_pos s
  have hne : 0 < wire_size s * (h * w) := Nat.mul_pos hwp hpos
  have hmw : multiple_write cu tbs s buf w h =
      if (flush_loop cu tbs s buf w (h * w) (flush_start tbs s)).idx ≠ 0 then
        (flush_loop cu tbs s buf w (h * w) (flush_start tbs s)).out ++
          [BusOp.write_array
            ((flush_loop cu tbs s buf w (h * w) (flush_start tbs s)).transfer_buffer.take
              (flush_loop cu tbs s buf w (h * w) (flush_start tbs s)).idx)]
      else (flush_loop cu tbs s buf w (h * w) (flush_start tbs s)).out := by
    unfold multiple_write
    simp only [hrem]
    rfl
  rw [hmw]
  by_cases hi : (flush_loop cu tbs s buf w (h * w) (flush_start tbs s)).idx = 0
  · rw [if_neg (by simpa using hi)]
    refine ⟨blocks, [], by simp [hout], hfull, by simpa using ht, ?_, ?_⟩
    · rw [hi] at hcount; simpa using hcount
    · left
      intro hb
      rw [hb, hi] at hcount
      simp only [List.length_nil, Nat.mul_zero, Nat.add_zero] at hcount
      omega
  · rw [if_pos hi]
    have hl : ((flush_loop cu tbs s buf w (h * w) (flush_start tbs s)).transfer_buffer.take
        (flush_loop cu tbs s buf w (h * w) (flush_start tbs s)).idx).length =
        (flush_loop cu tbs s buf w (h * w) (flush_start tbs s)).idx := by
      rw [List.length_take, hlen]; omega
    have hne' : (flush_loop cu tbs s buf w (h * w) (flush_start tbs s)).transfer_buffer.take
        (flush_loop cu tbs s buf w (h * w) (flush_start tbs s)).idx ≠ [] := by
      intro he
      rw [he] at hl
      exact hi hl.symm
    refine ⟨blocks, _, ?_, hfull, by rw [hl]; exact hidx, by rw [hl]; exact hcount,
      Or.inr hne'⟩
    rw [if_neg hne', hout]

theorem take_add_two (l : List Nat) (m : Nat) (h : m + 1 < l.length) :
    l.take (m + 2) = l.take m ++ [peek l m, peek l (m + 1)] := by
  have h1 : l.take (m + 1) = l.take m ++ [peek l m] := by
    rw [List.take_succ]
    simp [peek, List.getD_eq_getElem?_getD, List.getElem?_eq_getElem (show m < l.length by omega)]
  have h2 : l.take (m + 1 + 1) = l.take (m + 1) ++ [peek l (m + 1)] := by
    rw [List.take_succ]
    simp [peek, List.getD_eq_getElem?_getD, List.getElem?_eq_getElem h]
  rw [show m + 2 = m + 1 + 1 by omega, h2, h1]
  simp

theorem peek_drop (buf : List Nat) (d m : Nat) : peek (buf.drop d) m = peek buf (d + m) := by
  simp [peek, List.getD_eq_getElem?_getD, List.getElem?_drop]

theorem peek_lt_256 (buf : List Nat) (hbytes : ∀ b ∈ buf, b < 256) (i : Nat) :
    peek buf i < 256 := by
  unfold peek
  rw [List.getD_eq_getElem?_getD]
  by_cases h : i < buf.length
  · rw [List.getElem?_eq_getElem h]
    exact hbytes _ (List.getElem_mem h)
  · rw [List.getElem?_eq_none (by omega)]
    decide

theorem wire_bytes_stored (cu : ColorUtil) (s : State) (buf : List Nat) (p : Nat)
    (hm : s.buffer_color_mode_ = .BITS_16) (h18 : s.is_18bitdisplay_ = false)
    (hbytes : ∀ b ∈ buf, b < 256) :
    wire_bytes s (color_val_at cu s buf p) = [peek buf (p * 2), peek buf (p * 2 + 1)] := by
  have h0 := peek_lt_256 buf hbytes (p * 2)
  have h1 := peek_lt_256 buf hbytes (p * 2 + 1)
  unfold wire_bytes color_val_at
  rw [hm, h18]
  simp only [Bool.false_eq_true, if_false, Nat.shiftLeft_eq, shr8, u8, u16]
  congr 1
  · omega
  · congr 1
    omega

theorem row_bytes_slice (cu : ColorUtil) (s : State) (buf : List Nat) (q : Nat)
    (hm : s.buffer_color_mode_ = .BITS_16) (h18 : s.is_18bitdisplay_ = false)
    (hbytes : ∀ b ∈ buf, b < 256) (hx : s.x_low_ = 0) :
    ∀ n, ((s.y_low_ + q) * s.width_ + n) * 2 ≤ buf.length →
      row_bytes cu s buf q n = (buf.drop ((s.y_low_ + q) * s.width_ * 2)).take (n * 2) := by
  intro n
  induction n with
  | zero => intro _; simp [row_bytes]
  | succ n ih =>
    intro hl
    rw [row_bytes_succ, ih (by omega), wire_bytes_stored cu s buf _ hm h18 hbytes, hx,
      show (n + 1) * 2 = n * 2 + 2 by omega,
      take_add_two _ _ (by rw [List.length_drop]; omega), peek_drop, peek_drop]
    congr 2
    · congr 1; omega
    · congr 2; omega

theorem rows_slice (buf : List Nat) (d W : Nat) (f : Nat → List Nat)
    (hf : ∀ q, f q = (buf.drop (d + q * W)).take W) :
    ∀ H, (List.range H).flatMap f = (buf.drop d).take (H * W) := by
  intro H
  induction H with
  | zero => simp
  | succ H ih =>
    rw [List.range_succ, List.flatMap_append, ih, Nat.succ_mul, List.take_add, List.drop_drop]
    simp [hf]

theorem window_pixels_full_rows (cu : ColorUtil) (s : State) (buf : List Nat)
    (hm : s.buffer_color_mode_ = .BITS_16) (h18 : s.is_18bitdisplay_ = false)
    (hbytes : ∀ b ∈ buf, b < 256) (hl : buf.length = s.width_ * s.height_ * 2)
    (hw0 : 0 < s.width_) (hx : s.x_low_ = 0) (hxh : s.x_high_ = s.width_ - 1)
    (hyl : s.y_low_ ≤ s.y_high_) (hyh : s.y_high_ < s.height_) :
    window_pixels cu s buf =
      (buf.drop (s.y_low_ * s.width_ * 2)).take (s.width_ * (s.y_high_ - s.y_low_ + 1) * 2) := by
  unfold window_pixels
  have hwd : s.x_high_ - s.x_low_ + 1 = s.width_ := by omega
  rw [hwd]
  have hrow : ∀ q, q < s.y_high_ - s.y_low_ + 1 →
      row_bytes cu s buf q s.width_ =
        (buf.drop (s.y_low_ * s.width_ * 2 + q * (s.width_ * 2))).take (s.width_ * 2) := by
    intro q hq
    have hb : (s.y_low_ + q + 1) * s.width_ ≤ s.height_ * s.width_ :=
      Nat.mul_le_mul_right _ (by omega)
    have e1 : (s.y_low_ + q + 1) * s.width_ = (s.y_low_ + q) * s.width_ + s.width_ := by ring
    have e2 : s.height_ * s.width_ = s.width_ * s.height_ := Nat.mul_comm _ _
    rw [row_bytes_slice cu s buf q hm h18 hbytes hx s.width_ (by omega)]
    congr 2
    ring
  have hflat : (List.range (s.y_high_ - s.y_low_ + 1)).flatMap
        (fun q => row_bytes cu s buf q s.width_) =
      (List.range (s.y_high_ - s.y_low_ + 1)).flatMap
        (fun q => (buf.drop (s.y_low_ * s.width_ * 2 + q * (s.width_ * 2))).take (s.width_ * 2)) := by
    apply List.flatMap_congr
    intro q hq
    exact hrow q (List.mem_range.mp hq)
  rw [hflat, rows_slice buf (s.y_low_ * s.width_ * 2) (s.width_ * 2) _ (fun q => rfl)]
  congr 1
  ring

theorem single_write_eq (s : State) (buf : List Nat)
    (hw0 : 0 < s.width_) (hyl : s.y_low_ ≤ s.y_high_) (hyh : s.y_high_ < s.height_)
    (hw : s.width_ < 32768) (hh : s.height_ < 32768) :
    single_write s buf s.h =
      set_addr_window_ s 0 s.y_low_ (s.width_ - 1) s.y_high_ ++
        [BusOp.write_array ((buf.drop (s.y_low_ * s.width_ * 2)).take
          (s.width_ * (s.y_high_ - s.y_low_ + 1) * 2))] := by
  have hhe := rect_h_eq s hyl (by omega)
  have hwm : u16i (s.get_width_internal - 1) = s.width_ - 1 := by
    unfold u16i State.get_width_internal; omega
  have hprod : s.h * s.width_ * 2 < 4294967296 :=
    mul_lt_of_lt_32768 (by rw [hhe]; omega) hw
  have hlen : sz (sz (s.h * s.width_) * 2) = s.width_ * (s.y_high_ - s.y_low_ + 1) * 2 := by
    have : s.h * s.width_ = s.width_ * (s.y_high_ - s.y_low_ + 1) := by
      rw [hhe, Nat.mul_comm]
    unfold sz
    omega
  rw [single_write, hwm, hlen]

theorem full_rows_same_bytes (cu : ColorUtil) (tbs : Nat) (s : State) (buf : List Nat)
    (hm : s.buffer_color_mode_ = .BITS_16) (h18 : s.is_18bitdisplay_ = false)
    (hbytes : ∀ b ∈ buf, b < 256) (hl : buf.length = s.width_ * s.height_ * 2)
    (hw0 : 0 < s.width_) (hx : s.x_low_ = 0) (hxh : s.x_high_ = s.width_ - 1)
    (hyl : s.y_low_ ≤ s.y_high_) (hyh : s.y_high_ < s.height_)
    (hw : s.width_ < 32768) (hh : s.height_ < 32768) (ht : 0 < tbs) (h2 : 2 ∣ tbs) :
    ∃ data, multiple_write cu tbs s buf s.w s.h =
        set_addr_window_ s 0 s.y_low_ (s.width_ - 1) s.y_high_ ++ data ∧
      payload data = (buf.drop (s.y_low_ * s.width_ * 2)).take
        (s.width_ * (s.y_high_ - s.y_low_ + 1) * 2) := by
  have hdiv : wire_size s ∣ tbs := by
    unfold wire_size; rw [h18]; exact h2
  obtain ⟨data, hd, hp, -⟩ := multiple_write_payload cu tbs s buf (by omega) (by omega) hyl hyh
    (by omega) (by omega) ht hdiv
  refine ⟨data, ?_, ?_⟩
  · rw [hd, hx, hxh]
  · rw [hp, window_pixels_full_rows cu s buf hm h18 hbytes hl hw0 hx hxh hyl hyh]

theorem color_val_at_spec (cu : ColorUtil) (s : State) (buf : List Nat) (p : Nat) :
    color_val_at cu s buf p = spec_color565 cu s buf p := by
  unfold color_val_at spec_color565
  cases s.buffer_color_mode_ with
  | BITS_8 => rfl
  | BITS_8_INDEXED => rfl
  | BITS_16 =>
    simp only [u16, Nat.shiftLeft_eq, Nat.mul_comm p 2]
    congr 1
    omega

theorem spec_color565_lt (cu : ColorUtil) (s : State) (buf : List Nat) (p : Nat) :
    spec_color565 cu s buf p < 65536 := by
  unfold spec_color565
  cases s.buffer_color_mode_ <;> exact Nat.mod_lt _ (by decide)

theorem wire_bytes_spec (s : State) (v : Nat) (hv : v < 65536) :
    wire_bytes s v = spec_wire_encoding s.is_18bitdisplay_ v := by
  unfold wire_bytes spec_wire_encoding
  cases s.is_18bitdisplay_ with
  | true =>
    simp only [if_true, expand18_b0 v hv, expand18_b1, expand18_b2]
    simp only [u8]
    congr 1
    · omega
    · congr 1
      omega
  | false =>
    simp only [Bool.false_eq_true, if_false, shr8, u8]
    congr 1
    omega

theorem window_pixels_spec (cu : ColorUtil) (s : State) (buf : List Nat)
    (hxl : s.x_low_ ≤ s.x_high_) (hyl : s.y_low_ ≤ s.y_high_) :
    window_pixels cu s buf = spec_window_payload cu s buf := by
  unfold window_pixels spec_window_payload row_bytes
  rw [show s.y_high_ + 1 - s.y_low_ = s.y_high_ - s.y_low_ + 1 by omega,
    show s.x_high_ + 1 - s.x_low_ = s.x_high_ - s.x_low_ + 1 by omega]
  simp only [color_val_at_spec, wire_bytes_spec _ _ (spec_color565_lt _ _ _ _)]

theorem spec_wire_encoding_length (b : Bool) (v : Nat) :
    (spec_wire_encoding b v).length = if b then 3 else 2 := by
  unfold spec_wire_encoding
  cases b <;> rfl

theorem flatMap_const_length (f : Nat → List Nat) (L : Nat) (hf : ∀ i, (f i).length = L) :
    ∀ n, ((List.range n).flatMap f).length = n * L := by
  intro n
  induction n with
  | zero => simp
  | succ n ih =>
    rw [List.range_succ, List.flatMap_append, List.length_append, ih]
    simp only [List.flatMap_cons, List.flatMap_nil, List.append_nil, hf]
    ring

theorem spec_window_payload_length (cu : ColorUtil) (s : State) (buf : List Nat) :
    (spec_window_payload cu s buf).length =
      (s.y_high_ + 1 - s.y_low_) * ((s.x_high_ + 1 - s.x_low_) * wire_size s) := by
  unfold spec_window_payload
  apply flatMap_const_length
  intro r
  apply flatMap_const_length
  intro c
  rw [spec_wire_encoding_length]
  rfl

theorem single_slice_length (s : State) (buf : List Nat)
    (hl : buf.length = s.width_ * s.height_ * 2)
    (hyl : s.y_low_ ≤ s.y_high_) (hyh : s.y_high_ < s.height_) :
    ((buf.drop (s.y_low_ * s.width_ * 2)).take
        (s.width_ * (s.y_high_ - s.y_low_ + 1) * 2)).length =
      (s.y_high_ + 1 - s.y_low_) * (s.width_ * 2) := by
  have hin : s.y_low_ * s.width_ * 2 + s.width_ * (s.y_high_ - s.y_low_ + 1) * 2 ≤
      s.width_ * s.height_ * 2 := by
    have e : s.y_low_ * s.width_ * 2 + s.width_ * (s.y_high_ - s.y_low_ + 1) * 2 =
        s.width_ * (s.y_high_ + 1) * 2 := by
      have : s.y_low_ + (s.y_high_ - s.y_low_ + 1) = s.y_high_ + 1 := by omega
      rw [← this]; ring
    rw [e]
    exact Nat.mul_le_mul_right 2 (Nat.mul_le_mul_left _ (by omega))
  have e2 : (s.y_high_ + 1 - s.y_low_) * (s.width_ * 2) =
      s.width_ * (s.y_high_ - s.y_low_ + 1) * 2 := by
    rw [show s.y_high_ + 1 - s.y_low_ = s.y_high_ - s.y_low_ + 1 by omega]
    ring
  rw [List.length_take, List.length_drop, e2]
  omega

theorem display_flush (cu : ColorUtil) (tbs : Nat) (s : State) (buf : List Nat)
    (hb : s.buffer_ = some buf)
    (hl : buf.length = s.width_ * s.height_ * bytes_per_pixel s.buffer_color_mode_)
    (hxl : s.x_low_ ≤ s.x_high_) (hxh : s.x_high_ < s.width_)
    (hyl : s.y_low_ ≤ s.y_high_) (hyh : s.y_high_ < s.height_)
    (hw : s.width_ < 32768) (hh : s.height_ < 32768)
    (hm : s.mhz ≠ 0) (ht : 0 < tbs) (hdiv : wire_size s ∣ tbs) :
    ∃ data,
      display_ cu tbs s =
        some ({ s with x_low_ := s.width_, y_low_ := s.height_, x_high_ := 0, y_high_ := 0 },
          [BusOp.enable] ++
            set_addr_window_ s (if use_single_write tbs s s.w s.h s.mhz then 0 else s.x_low_)
              s.y_low_
              (if use_single_write tbs s s.w s.h s.mhz then s.width_ - 1 else s.x_high_)
              s.y_high_ ++
            data ++ [BusOp.disable]) ∧
      (∀ op ∈ data, (∃ b, op = BusOp.write_array b) ∨ op = BusOp.feed_wdt) ∧
      payload data =
        (if use_single_write tbs s s.w s.h s.mhz then
          (buf.drop (s.y_low_ * s.width_ * 2)).take (s.width_ * (s.y_high_ + 1 - s.y_low_) * 2)
        else spec_window_payload cu s buf) ∧
      (payload data).length =
        (s.y_high_ + 1 - s.y_low_) *
          ((if use_single_write tbs s s.w s.h s.mhz then s.width_
            else s.x_high_ + 1 - s.x_low_) * wire_size s) ∧
      0 < (payload data).length ∧
      display_ cu tbs
          { s with x_low_ := s.width_, y_low_ := s.height_, x_high_ := 0, y_high_ := 0 } =
        some ({ s with x_low_ := s.width_, y_low_ := s.height_, x_high_ := 0, y_high_ := 0 },
          []) := by
  have hd := display_eq cu tbs s buf hb hxl hyl hm (by omega)
  have hinv : invalidate_watermarks s =
      { s with x_low_ := s.width_, y_low_ := s.height_, x_high_ := 0, y_high_ := 0 } := by
    simp only [invalidate_watermarks, u16, Nat.mod_eq_of_lt (show s.width_ < 65536 by omega),
      Nat.mod_eq_of_lt (show s.height_ < 65536 by omega)]
  have h2 := invalidate_display cu tbs s (by omega) (show s.width_ < 65536 by omega)
  rw [hinv] at hd h2
  have hws : 0 < wire_size s := wire_size_pos s
  have hrows : s.y_high_ + 1 - s.y_low_ = s.y_high_ - s.y_low_ + 1 := by omega
  by_cases hs : use_single_write tbs s s.w s.h s.mhz = true
  · obtain ⟨hmode, h18⟩ := use_single_write_mode tbs s _ _ _ hs
    rw [hmode] at hl
    simp only [bytes_per_pixel] at hl
    have hw2 : wire_size s = 2 := by unfold wire_size; rw [h18]; rfl
    have hlen := single_slice_length s buf hl hyl hyh
    rw [if_pos hs, single_write_eq s buf (by omega) hyl hyh hw hh] at hd
    simp only [hs, if_true, hw2, hrows]
    refine ⟨[BusOp.write_array ((buf.drop (s.y_low_ * s.width_ * 2)).take
        (s.width_ * (s.y_high_ - s.y_low_ + 1) * 2))], ?_, ?_, ?_, ?_, ?_, h2⟩
    · rw [hd]; simp only [List.append_assoc]
    · intro op hop
      exact Or.inl ⟨_, List.mem_singleton.mp hop⟩
    · simp [payload]
    · simp only [payload, List.append_nil]
      rw [hlen, hrows]
    · simp only [payload, List.append_nil]
      rw [hlen, hrows]
      exact Nat.mul_pos (by omega) (by omega)
  · obtain ⟨data, hdata, hpay, hops⟩ :=
      multiple_write_payload cu tbs s buf hxl hxh hyl hyh (by omega) (by omega) ht hdiv
    rw [if_neg hs, hdata] at hd
    rw [window_pixels_spec cu s buf hxl hyl] at hpay
    simp only [hs, Bool.false_eq_true, if_false]
    refine ⟨data, ?_, hops, hpay, ?_, ?_, h2⟩
    · rw [hd]; simp only [List.append_assoc]
    · rw [hpay, spec_window_payload_length]
    · rw [hpay, spec_window_payload_length]
      exact Nat.mul_pos (by omega) (Nat.mul_pos (by omega) hws)

/-! Pixel writes and the dirty rectangle -/

theorem changed_writes_bounds (cu : ColorUtil) (ws : List (Int × Int × Color)) :
    ∀ s : State, ∀ p ∈ changed_writes cu s ws,
      0 ≤ p.1 ∧ p.1 < s.width_ ∧ 0 ≤ p.2 ∧ p.2 < s.height_ := by
  induction ws with
  | nil => intro s p hp; cases hp
  | cons q qs ih =>
    intro s p hp
    simp only [changed_writes, List.mem_append] at hp
    rcases hp with hp | hp
    · by_cases hc : changes cu s q.1 q.2.1 q.2.2 = true
      · rw [if_pos hc] at hp
        rw [List.mem_singleton] at hp
        subst hp
        exact changes_bounds cu s q.1 q.2.1 q.2.2 hc
      · rw [if_neg hc] at hp
        cases hp
    · have := ih _ p hp
      rw [(draw_dims cu s q.1 q.2.1 q.2.2).1, (draw_dims cu s q.1 q.2.1 q.2.2).2] at this
      exact this

theorem draw_all_rect (cu : ColorUtil) (ws : List (Int × Int × Color)) :
    ∀ s : State, s.width_ < 65536 → s.height_ < 65536 →
      (draw_all cu s ws).rect =
        (((changed_writes cu s ws).map fun p => p.1.toNat).foldl min s.x_low_,
         ((changed_writes cu s ws).map fun p => p.2.toNat).foldl min s.y_low_,
         ((changed_writes cu s ws).map fun p => p.1.toNat).foldl max s.x_high_,
         ((changed_writes cu s ws).map fun p => p.2.toNat).foldl max s.y_high_) := by
  induction ws with
  | nil => intro s _ _; rfl
  | cons q qs ih =>
    intro s hw hh
    have hd := draw_dims cu s q.1 q.2.1 q.2.2
    have := ih (draw_absolute_pixel_internal cu s q.1 q.2.1 q.2.2) (by omega) (by omega)
    simp only [draw_all, changed_writes]
    rw [this]
    by_cases hc : changes cu s q.1 q.2.1 q.2.2 = true
    · have hr := draw_changed_rect cu s q.1 q.2.1 q.2.2 hw hh hc
      simp only [State.rect, Prod.mk.injEq] at hr
      obtain ⟨r1, r2, r3, r4⟩ := hr
      simp only [hc, if_true, List.singleton_append, List.map_cons, List.foldl_cons, r1, r2, r3, r4]
    · have hc' : changes cu s q.1 q.2.1 q.2.2 = false := by simpa using hc
      have hr := draw_unchanged_rect cu s q.1 q.2.1 q.2.2 hc'
      simp only [State.rect, Prod.mk.injEq] at hr
      obtain ⟨r1, r2, r3, r4⟩ := hr
      simp [hc', r1, r2, r3, r4]

/-- C1: starting from the empty dirty rectangle `(width_, height_, 0, 0)`, after any
sequence of pixel writes: if no write changed a stored value the rectangle is still
`(width_, height_, 0, 0)`; otherwise `x_low_`/`y_low_` are the least and
`x_high_`/`y_high_` the greatest x/y among the writes that changed a stored value (each
bounds all of them and is attained by one of them). A write whose converted value
equals the stored value leaves the rectangle as it was, from any state. -/
theorem dirty_rect_is_bounding_box_of_changes (cu : ColorUtil) (s : State)
    (ws : List (Int × Int × Color)) (hw : s.width_ < 65536) (hh : s.height_ < 65536)
    (hc : s.rect = (s.width_, s.height_, 0, 0)) :
    ((changed_writes cu s ws = [] → (draw_all cu s ws).rect = (s.width_, s.height_, 0, 0)) ∧
     (changed_writes cu s ws ≠ [] →
        (∀ p ∈ changed_writes cu s ws,
          ((draw_all cu s ws).x_low_ : Int) ≤ p.1 ∧ p.1 ≤ (draw_all cu s ws).x_high_ ∧
          ((draw_all cu s ws).y_low_ : Int) ≤ p.2 ∧ p.2 ≤ (draw_all cu s ws).y_high_) ∧
        (∃ p ∈ changed_writes cu s ws, p.1 = (draw_all cu s ws).x_low_) ∧
        (∃ p ∈ changed_writes cu s ws, p.2 = (draw_all cu s ws).y_low_) ∧
        (∃ p ∈ changed_writes cu s ws, p.1 = (draw_all cu s ws).x_high_) ∧
        (∃ p ∈ changed_writes cu s ws, p.2 = (draw_all cu s ws).y_high_))) ∧
    (∀ (s' : State) (x y : Int) (color : Color), changes cu s' x y color = false →
        (draw_absolute_pixel_internal cu s' x y color).rect = s'.rect) := by
  have hr := draw_all_rect cu ws s hw hh
  have hbd := changed_writes_bounds cu ws s
  simp only [State.rect, Prod.mk.injEq] at hr hc
  obtain ⟨c1, c2, c3, c4⟩ := hc
  obtain ⟨r1, r2, r3, r4⟩ := hr
  rw [c1] at r1; rw [c2] at r2; rw [c3] at r3; rw [c4] at r4
  refine ⟨⟨?_, ?_⟩, fun s' x y color h => draw_unchanged_rect cu s' x y color h⟩
  · intro he
    simp only [State.rect, r1, r2, r3, r4, he, List.map_nil, List.foldl_nil]
  · intro hne
    obtain ⟨p0, hp0⟩ := List.exists_mem_of_ne_nil _ hne
    have b0 := hbd p0 hp0
    have memx : ∀ p ∈ changed_writes cu s ws,
        p.1.toNat ∈ (changed_writes cu s ws).map fun p => p.1.toNat :=
      fun p hp => List.mem_map_of_mem _ hp
    have memy : ∀ p ∈ changed_writes cu s ws,
        p.2.toNat ∈ (changed_writes cu s ws).map fun p => p.2.toNat :=
      fun p hp => List.mem_map_of_mem _ hp
    refine ⟨?_, ?_, ?_, ?_, ?_⟩
    · intro p hp
      have b := hbd p hp
      have l1 := foldl_min_le_mem _ s.width_ _ (memx p hp)
      have l2 := foldl_min_le_mem _ s.height_ _ (memy p hp)
      have l3 := mem_le_foldl_max _ 0 _ (memx p hp)
      have l4 := mem_le_foldl_max _ 0 _ (memy p hp)
      rw [r1, r2, r3, r4]
      omega
    · rcases foldl_min_attained ((changed_writes cu s ws).map fun p => p.1.toNat) s.width_
        with h | h
      · have l1 := foldl_min_le_mem _ s.width_ _ (memx p0 hp0)
        omega
      · obtain ⟨p, hp, hpe⟩ := List.mem_map.mp h
        have b := hbd p hp
        exact ⟨p, hp, by rw [r1]; omega⟩
    · rcases foldl_min_attained ((changed_writes cu s ws).map fun p => p.2.toNat) s.height_
        with h | h
      · have l1 := foldl_min_le_mem _ s.height_ _ (memy p0 hp0)
        omega
      · obtain ⟨p, hp, hpe⟩ := List.mem_map.mp h
        have b := hbd p hp
        exact ⟨p, hp, by rw [r2]; omega⟩
    · rcases foldl_max_attained ((changed_writes cu s ws).map fun p => p.1.toNat) 0
        with h | h
      · have l1 := mem_le_foldl_max _ 0 _ (memx p0 hp0)
        exact ⟨p0, hp0, by rw [r3]; omega⟩
      · obtain ⟨p, hp, hpe⟩ := List.mem_map.mp h
        have b := hbd p hp
        exact ⟨p, hp, by rw [r3]; omega⟩
    · rcases foldl_max_attained ((changed_writes cu s ws).map fun p => p.2.toNat) 0
        with h | h
      · have l1 := mem_le_foldl_max _ 0 _ (memy p0 hp0)
        exact ⟨p0, hp0, by rw [r4]; omega⟩
      · obtain ⟨p, hp, hpe⟩ := List.mem_map.mp h
        have b := hbd p hp
        exact ⟨p, hp, by rw [r4]; omega⟩

theorem dirty_rect_is_bounding_box_of_changes_witness :
    sampleState.width_ < 65536 ∧ sampleState.height_ < 65536 ∧
      sampleState.rect = (sampleState.width_, sampleState.height_, 0, 0) ∧
      (changed_writes sampleUtil sampleState
          [(1, 2, ⟨255, 0, 0, 0⟩), (3, 1, ⟨0, 255, 0, 0⟩), (2, 0, ⟨0, 0, 0, 0⟩)] ≠ [] →
        ∃ p ∈ changed_writes sampleUtil sampleState
            [(1, 2, ⟨255, 0, 0, 0⟩), (3, 1, ⟨0, 255, 0, 0⟩), (2, 0, ⟨0, 0, 0, 0⟩)],
          p.1 = (draw_all sampleUtil sampleState
            [(1, 2, ⟨255, 0, 0, 0⟩), (3, 1, ⟨0, 255, 0, 0⟩), (2, 0, ⟨0, 0, 0, 0⟩)]).x_low_) :=
  ⟨by decide, by decide, by decide, fun h =>
    ((dirty_rect_is_bounding_box_of_changes sampleUtil sampleState
      [(1, 2, ⟨255, 0, 0, 0⟩), (3, 1, ⟨0, 255, 0, 0⟩), (2, 0, ⟨0, 0, 0, 0⟩)]
      (by decide) (by decide) (by decide)).1.2 h).2.1⟩
/-- C4: an in-bounds pixel write leaves the converted value in the pixel's bytes and
changes no other byte. In 16-bit mode byte `2*(y*width+x)` is the high byte and byte
`2*(y*width+x)+1` the low byte of the 565 value; in the two 8-bit modes byte
`y*width+x` is the 8-bit converted value. The buffer keeps its length, and every other
index reads as before. -/
theorem draw_stores_converted_value (cu : ColorUtil) (s : State) (x y : Nat) (color : Color)
    (buf : List Nat) (hx : x < s.width_) (hy : y < s.height_) (hb : s.buffer_ = some buf)
    (hl : buf.length = s.width_ * s.height_ * bytes_per_pixel s.buffer_color_mode_) :
    ∃ buf', (draw_absolute_pixel_internal cu s x y color).buffer_ = some buf' ∧
      buf'.length = buf.length ∧
      (s.buffer_color_mode_ = .BITS_16 →
        peek buf' (2 * (y * s.width_ + x)) = u16 (cu.color_to_565 color) / 256 ∧
        peek buf' (2 * (y * s.width_ + x) + 1) = u16 (cu.color_to_565 color) % 256 ∧
        ∀ i, i ≠ 2 * (y * s.width_ + x) → i ≠ 2 * (y * s.width_ + x) + 1 →
          peek buf' i = peek buf i) ∧
      (s.buffer_color_mode_ = .BITS_8 →
        peek buf' (y * s.width_ + x) = u8 (cu.color_to_332 color) ∧
        ∀ i, i ≠ y * s.width_ + x → peek buf' i = peek buf i) ∧
      (s.buffer_color_mode_ = .BITS_8_INDEXED →
        peek buf' (y * s.width_ + x) = u8 (cu.color_to_index8_palette888 color s.palette_) ∧
        ∀ i, i ≠ y * s.width_ + x → peek buf' i = peek buf i) := by
  have hp := pixel_index_lt hx hy
  refine ⟨_, draw_buffer cu s x y color buf hx hy hb, store_pixel_length cu s buf _ color, ?_, ?_, ?_⟩
  · intro hm
    rw [hm] at hl
    simp only [bytes_per_pixel] at hl
    have h256 : u16 (cu.color_to_565 color) / 256 < 256 := by
      unfold u16; omega
    have hlo : u16 (cu.color_to_565 color) % 256 < 256 := Nat.mod_lt _ (by decide)
    have key : ∀ j, peek (store_pixel cu s buf (y * s.width_ + x) color).1 j =
        if j = (y * s.width_ + x) * 2 + 1 then u16 (cu.color_to_565 color) % 256
        else if j = (y * s.width_ + x) * 2 then u16 (cu.color_to_565 color) / 256
        else peek buf j := by
      intro j
      unfold store_pixel
      simp only [hm, shr8, and255, u8, Nat.mod_eq_of_lt h256]
      rw [compare_store_peek _ _ _ _ hlo (by rw [compare_store_length]; omega),
        compare_store_peek _ _ _ _ h256 (by omega)]
    refine ⟨?_, ?_, ?_⟩
    · rw [key, if_neg (by omega), if_pos (by omega)]
    · rw [key, if_pos (by omega)]
    · intro i h1 h2
      rw [key, if_neg (by omega), if_neg (by omega)]
  · intro hm
    rw [hm] at hl
    simp only [bytes_per_pixel] at hl
    have key : ∀ j, peek (store_pixel cu s buf (y * s.width_ + x) color).1 j =
        if j = y * s.width_ + x then u8 (cu.color_to_332 color) else peek buf j := by
      intro j
      unfold store_pixel
      simp only [hm]
      exact compare_store_peek _ _ _ _ (Nat.mod_lt _ (by decide)) (by omega) j
    refine ⟨?_, ?_⟩
    · rw [key, if_pos rfl]
    · intro i h1
      rw [key, if_neg h1]
  · intro hm
    rw [hm] at hl
    simp only [bytes_per_pixel] at hl
    have key : ∀ j, peek (store_pixel cu s buf (y * s.width_ + x) color).1 j =
        if j = y * s.width_ + x then u8 (cu.color_to_index8_palette888 color s.palette_)
        else peek buf j := by
      intro j
      unfold store_pixel
      simp only [hm]
      exact compare_store_peek _ _ _ _ (Nat.mod_lt _ (by decide)) (by omega) j
    refine ⟨?_, ?_⟩
    · rw [key, if_pos rfl]
    · intro i h1
      rw [key, if_neg h1]

theorem draw_stores_converted_value_witness :
    (1 < sampleState.width_ ∧ 2 < sampleState.height_ ∧
      sampleState.buffer_ = some (List.replicate 24 0) ∧
      (List.replicate 24 0).length =
        sampleState.width_ * sampleState.height_ *
          bytes_per_pixel sampleState.buffer_color_mode_) ∧
    ∃ buf', (draw_absolute_pixel_internal sampleUtil sampleState (1 : Nat) (2 : Nat)
        ⟨255, 0, 0, 0⟩).buffer_ = some buf' ∧ buf'.length = (List.replicate 24 0).length :=
  ⟨⟨by decide, by decide, rfl, by decide⟩,
    let ⟨b, h1, h2, _⟩ := draw_stores_converted_value sampleUtil sampleState 1 2 ⟨255, 0, 0, 0⟩
      (List.replicate 24 0) (by decide) (by decide) rfl (by decide)
    ⟨b, h1, h2⟩⟩
/-- C5: a pixel write outside the panel (x < 0, x ≥ width, y < 0 or y ≥ height) returns
the state it was given: frame buffer, dirty rectangle and every other field are as
before, and the function has no error result. -/
theorem draw_out_of_bounds_noop (cu : ColorUtil) (s : State) (x y : Int) (color : Color)
    (h : x < 0 ∨ x ≥ (s.width_ : Int) ∨ y < 0 ∨ y ≥ (s.height_ : Int)) :
    draw_absolute_pixel_internal cu s x y color = s :=
  draw_oob_eq cu s x y color h

theorem draw_out_of_bounds_noop_witness :
    ((-1 : Int) < 0 ∨ (-1 : Int) ≥ (sampleState.width_ : Int) ∨ (7 : Int) < 0 ∨
        (7 : Int) ≥ (sampleState.height_ : Int)) ∧
      draw_absolute_pixel_internal sampleUtil sampleState (-1) 7 ⟨255, 0, 0, 0⟩ = sampleState :=
  ⟨by decide, draw_out_of_bounds_noop sampleUtil sampleState (-1) 7 ⟨255, 0, 0, 0⟩ (by decide)⟩

/-! Fill -/

/-- C6: with `width_ > 0`, `height_ > 0` and the buffer allocated, `fill(color)` leaves the
dirty rectangle at exactly `(0, 0, width_-1, height_-1)` and every one of the
`width_*height_` stored pixels equal to the converted fill colour, in every colour mode:
one byte per pixel in the 8-bit modes, high byte then low byte of the 565 value in
16-bit mode (whichever of the `memset` path and the two-byte loop runs). -/
theorem fill_full_panel_converted (cu : ColorUtil) (s : State) (color : Color)
    (buf : List Nat) (hw0 : 0 < s.width_) (hh0 : 0 < s.height_) (hw : s.width_ < 65536)
    (hh : s.height_ < 65536) (hb : s.buffer_ = some buf)
    (hl : buf.length = s.width_ * s.height_ * bytes_per_pixel s.buffer_color_mode_) :
    (fill cu s color).rect = (0, 0, s.width_ - 1, s.height_ - 1) ∧
    ∃ buf', (fill cu s color).buffer_ = some buf' ∧ buf'.length = buf.length ∧
      ∀ p, p < s.width_ * s.height_ → stored_bytes s buf' p = converted_bytes cu s color := by
  have hxh : u16i ((s.width_ : Int) - 1) = s.width_ - 1 := by unfold u16i; omega
  have hyh : u16i ((s.height_ : Int) - 1) = s.height_ - 1 := by unfold u16i; omega
  unfold fill
  rw [allocate_some s buf hb]
  simp only [hb, State.get_width_internal, State.get_height_internal, hxh, hyh,
    State.get_buffer_length_]
  cases hm : s.buffer_color_mode_
  · -- BITS_8
    rw [hm] at hl
    simp only [bytes_per_pixel, Nat.mul_one] at hl
    refine ⟨rfl, _, rfl, memset_length _ _ _, ?_⟩
    intro p hp
    simp only [stored_bytes, converted_bytes, hm, memset_peek]
    rw [if_pos ⟨hp, by omega⟩]
    simp [u8]
  · -- BITS_8_INDEXED
    rw [hm] at hl
    simp only [bytes_per_pixel, Nat.mul_one] at hl
    refine ⟨rfl, _, rfl, memset_length _ _ _, ?_⟩
    intro p hp
    simp only [stored_bytes, converted_bytes, hm, memset_peek]
    rw [if_pos ⟨hp, by omega⟩]
    simp [u8]
  · -- BITS_16
    rw [hm] at hl
    simp only [bytes_per_pixel] at hl
    have h256 : u16 (cu.color_to_565 color) / 256 < 256 := by
      unfold u16; omega
    simp only [shr8, u8, Nat.mod_eq_of_lt h256]
    by_cases he : u16 (cu.color_to_565 color) / 256 = u16 (cu.color_to_565 color) % 256
    · rw [if_pos he]
      refine ⟨rfl, _, rfl, memset_length _ _ _, ?_⟩
      intro p hp
      simp only [stored_bytes, converted_bytes, hm, memset_peek]
      rw [if_pos ⟨by omega, by omega⟩, if_pos ⟨by omega, by omega⟩, he]
    · rw [if_neg he]
      have e : s.width_ * s.height_ * 2 = 0 + 2 * (s.width_ * s.height_) := by omega
      refine ⟨rfl, _, rfl, ?_, ?_⟩
      · rw [e]
        exact fill_loop_length _ _ _ _ _
      · intro p hp
        simp only [stored_bytes, converted_bytes, hm]
        rw [e, fill_loop_peek _ _ _ _ _ (by omega), fill_loop_peek _ _ _ _ _ (by omega),
          if_pos (by omega), if_pos (by omega), if_pos (by omega), if_neg (by omega)]

theorem fill_full_panel_converted_witness :
    (0 < sampleState.width_ ∧ 0 < sampleState.height_ ∧ sampleState.width_ < 65536 ∧
      sampleState.height_ < 65536 ∧ sampleState.buffer_ = some (List.replicate 24 0) ∧
      (List.replicate 24 0).length = sampleState.width_ * sampleState.height_ *
        bytes_per_pixel sampleState.buffer_color_mode_) ∧
    (fill sampleUtil sampleState ⟨255, 0, 0, 0⟩).rect =
      (0, 0, sampleState.width_ - 1, sampleState.height_ - 1) :=
  ⟨⟨by decide, by decide, by decide, by decide, rfl, by decide⟩,
    (fill_full_panel_converted sampleUtil sampleState ⟨255, 0, 0, 0⟩ (List.replicate 24 0)
      (by decide) (by decide) (by decide) (by decide) rfl (by decide)).1⟩

/-! Address window -/

/-- C9: `set_addr_window_(x1, y1, x2, y2)` issues exactly: data/command line low, the
column-address-set byte, line high, the four bytes hi/lo of `x1+offset_x_` and
`x2+offset_x_`, line low, the row-address-set byte, line high, the four bytes hi/lo of
`y1+offset_y_` and `y2+offset_y_`, line low, the memory-write byte, line high; the sums
are taken modulo 2^16. With offsets 2 and 3 the window (5,5,10,10) is sent as columns
(7,12) and rows (8,13). -/
theorem set_addr_window_sequence (s : State) (x1 y1 x2 y2 : Nat) :
    set_addr_window_ s x1 y1 x2 y2 =
      [ .dc false, .write_byte ILI9XXX_CASET,
        .dc true,
        .write_array
          [(((x1 : Int) + s.offset_x_) % 65536).toNat / 256,
           (((x1 : Int) + s.offset_x_) % 65536).toNat % 256,
           (((x2 : Int) + s.offset_x_) % 65536).toNat / 256,
           (((x2 : Int) + s.offset_x_) % 65536).toNat % 256],
        .dc false, .write_byte ILI9XXX_PASET,
        .dc true,
        .write_array
          [(((y1 : Int) + s.offset_y_) % 65536).toNat / 256,
           (((y1 : Int) + s.offset_y_) % 65536).toNat % 256,
           (((y2 : Int) + s.offset_y_) % 65536).toNat / 256,
           (((y2 : Int) + s.offset_y_) % 65536).toNat % 256],
        .dc false, .write_byte ILI9XXX_RAMWR,
        .dc true ] ∧
    set_addr_window_ { s with offset_x_ := 2, offset_y_ := 3 } 5 5 10 10 =
      [ .dc false, .write_byte ILI9XXX_CASET, .dc true, .write_array [0, 7, 0, 12],
        .dc false, .write_byte ILI9XXX_PASET, .dc true, .write_array [0, 8, 0, 13],
        .dc false, .write_byte ILI9XXX_RAMWR, .dc true ] := by
  refine ⟨set_addr_window_eq s x1 y1 x2 y2, ?_⟩
  rw [set_addr_window_eq]
  simp [u16i]

/-! Flush -/

/-- C2: when `display_` takes the multiple-write strategy (B) for a non-empty dirty
rectangle inside the panel (transfer buffer a whole number of wire pixels long), the bus
sees: enable, the address window `(x_low_, y_low_, x_high_, y_high_)`, then only
`write_array` blocks and watchdog feeds, disable. The blocks concatenated are the
specified pixel data `spec_window_payload`: for `y = y_low_..y_high_` and, within each
row, `x = x_low_..x_high_`, the wire encoding of the buffer pixel number `y*width_ + x`,
that is of the 565 value the stored pixel stands for in the buffer layout in use, as 2
bytes big-endian or as the 3 expanded bytes in 18-bit mode. Its length is one wire pixel
for each pixel of the rectangle: every pixel of the rectangle once, in row-major order,
and no other pixel. -/
theorem multiple_write_sends_rectangle (cu : ColorUtil) (tbs : Nat) (s : State)
    (buf : List Nat) (hb : s.buffer_ = some buf)
    (hxl : s.x_low_ ≤ s.x_high_) (hxh : s.x_high_ < s.width_)
    (hyl : s.y_low_ ≤ s.y_high_) (hyh : s.y_high_ < s.height_)
    (hw : s.width_ < 65536) (hh : s.height_ < 65536)
    (hm : s.mhz ≠ 0) (ht : 0 < tbs) (hdiv : wire_size s ∣ tbs)
    (hs : use_single_write tbs s s.w s.h s.mhz = false) :
    ∃ data,
      display_ cu tbs s =
        some (invalidate_watermarks s,
          [BusOp.enable] ++ set_addr_window_ s s.x_low_ s.y_low_ s.x_high_ s.y_high_ ++ data ++
            [BusOp.disable]) ∧
      payload data =
        ((List.range (s.y_high_ + 1 - s.y_low_)).flatMap fun r =>
          (List.range (s.x_high_ + 1 - s.x_low_)).flatMap fun c =>
            spec_wire_encoding s.is_18bitdisplay_
              (spec_color565 cu s buf ((s.y_low_ + r) * s.width_ + (s.x_low_ + c)))) ∧
      (payload data).length =
        (s.y_high_ + 1 - s.y_low_) * ((s.x_high_ + 1 - s.x_low_) * wire_size s) ∧
      ∀ op ∈ data, (∃ b, op = BusOp.write_array b) ∨ op = BusOp.feed_wdt := by
  obtain ⟨data, hdata, hpay, hops⟩ :=
    multiple_write_payload cu tbs s buf hxl hxh hyl hyh hw hh ht hdiv
  rw [window_pixels_spec cu s buf hxl hyl] at hpay
  refine ⟨data, ?_, hpay, ?_, hops⟩
  · rw [display_eq cu tbs s buf hb hxl hyl hm (by omega), hs, hdata]
    simp only [Bool.false_eq_true, if_false, List.append_assoc]
  · rw [hpay, spec_window_payload_length]

theorem multiple_write_sends_rectangle_witness :
    (sample332.buffer_ = some [0, 0, 0, 0, 0, 0xE0, 0x1F, 0, 0, 0, 0, 0] ∧
      sample332.x_low_ ≤ sample332.x_high_ ∧ sample332.x_high_ < sample332.width_ ∧
      sample332.y_low_ ≤ sample332.y_high_ ∧ sample332.y_high_ < sample332.height_ ∧
      sample332.width_ < 65536 ∧ sample332.height_ < 65536 ∧ sample332.mhz ≠ 0 ∧
      0 < 6 ∧ wire_size sample332 ∣ 6 ∧
      use_single_write 6 sample332 sample332.w sample332.h sample332.mhz = false) ∧
    ∃ data, display_ sampleUtil 6 sample332 =
        some (invalidate_watermarks sample332,
          [BusOp.enable] ++ set_addr_window_ sample332 1 1 2 1 ++ data ++ [BusOp.disable]) ∧
      payload data = [0xE0, 0x00, 0x07, 0x18] :=
  ⟨⟨rfl, by decide, by decide, by decide, by decide, by decide, by decide, by decide,
      by decide, by decide, by decide⟩,
    let ⟨d, h, hp, _⟩ := multiple_write_sends_rectangle sampleUtil 6 sample332
      [0, 0, 0, 0, 0, 0xE0, 0x1F, 0, 0, 0, 0, 0] rfl (by decide) (by decide) (by decide)
      (by decide) (by decide) (by decide) (by decide) (by decide) (by decide) (by decide)
    ⟨d, h, hp.trans (by decide)⟩⟩

/-- C3: what the code does. For a state with an allocated buffer (`width_*height_`
pixels), a non-empty dirty rectangle inside the panel and a bus rate of at least 1 MHz,
`display_` returns; the bus sees enable, the address window, only `write_array` blocks
and watchdog feeds, disable. Under the single write the window is
`(0, y_low_, width_-1, y_high_)` and the data the buffer rows `y_low_..y_high_`; under
the multiple write the window is `(x_low_, y_low_, x_high_, y_high_)` and the data the
specified pixel data of the rectangle; either way the data is one wire pixel for each
pixel of the window, so it is not empty. The dirty rectangle is left at
`(width_, height_, 0, 0)` with every other field as before, and a second `display_` right
after performs no bus operation and returns the same state: so at 40 MHz on the sample
panel. At 75 kHz, with an allocated buffer and a non-empty dirty rectangle, `display_`
passes both guards, computes `mhz = 0` and divides by it: nothing is sent and the dirty
rectangle is not reset. -/
theorem display_resets_from_1mhz_faults_below :
    (∀ (cu : ColorUtil) (tbs : Nat) (s : State) (buf : List Nat),
      s.buffer_ = some buf →
      buf.length = s.width_ * s.height_ * bytes_per_pixel s.buffer_color_mode_ →
      s.x_low_ ≤ s.x_high_ → s.x_high_ < s.width_ →
      s.y_low_ ≤ s.y_high_ → s.y_high_ < s.height_ →
      s.width_ < 32768 → s.height_ < 32768 →
      1000000 ≤ s.data_rate_ → s.data_rate_ < 4294967296 →
      0 < tbs → wire_size s ∣ tbs →
      ∃ data,
        display_ cu tbs s =
          some ({ s with x_low_ := s.width_, y_low_ := s.height_, x_high_ := 0, y_high_ := 0 },
            [BusOp.enable] ++
              set_addr_window_ s (if use_single_write tbs s s.w s.h s.mhz then 0 else s.x_low_)
                s.y_low_
                (if use_single_write tbs s s.w s.h s.mhz then s.width_ - 1 else s.x_high_)
                s.y_high_ ++
              data ++ [BusOp.disable]) ∧
        (∀ op ∈ data, (∃ b, op = BusOp.write_array b) ∨ op = BusOp.feed_wdt) ∧
        payload data =
          (if use_single_write tbs s s.w s.h s.mhz then
            (buf.drop (s.y_low_ * s.width_ * 2)).take
              (s.width_ * (s.y_high_ + 1 - s.y_low_) * 2)
          else spec_window_payload cu s buf) ∧
        (payload data).length =
          (s.y_high_ + 1 - s.y_low_) *
            ((if use_single_write tbs s s.w s.h s.mhz then s.width_
              else s.x_high_ + 1 - s.x_low_) * wire_size s) ∧
        0 < (payload data).length ∧
        display_ cu tbs
            { s with x_low_ := s.width_, y_low_ := s.height_, x_high_ := 0, y_high_ := 0 } =
          some ({ s with x_low_ := s.width_, y_low_ := s.height_, x_high_ := 0, y_high_ := 0 },
            [])) ∧
    (display_ sampleUtil 126 sampleDirty =
        some (sampleState,
          [BusOp.enable] ++ set_addr_window_ sampleDirty 1 1 3 2 ++
            [BusOp.write_array (List.replicate 12 0)] ++ [BusOp.disable]) ∧
      sampleState.rect = (sampleDirty.width_, sampleDirty.height_, 0, 0) ∧
      display_ sampleUtil 126 sampleState = some (sampleState, [])) ∧
    (sample75k.data_rate_ = 75000 ∧ sample75k.buffer_ = some (List.replicate 24 0) ∧
      sample75k.rect = (1, 1, 1, 1) ∧ sample75k.width_ = 4 ∧ sample75k.height_ = 3 ∧
      sample75k.mhz = 0 ∧ display_ sampleUtil 126 sample75k = none) := by
  refine ⟨?_, ⟨by decide, by decide, by decide⟩,
    ⟨by decide, by decide, by decide, by decide, by decide, by decide, by decide⟩⟩
  intro cu tbs s buf hb hl hxl hxh hyl hyh hw hh hr1 hr2 ht hdiv
  exact display_flush cu tbs s buf hb hl hxl hxh hyl hyh hw hh (mhz_ne_zero s hr1 hr2) ht hdiv

/-- C7: on a 320 pixel wide panel (320×240) at 40 MHz, in 16-bit mode without 18-bit
expansion and with a 126-byte transfer buffer: for the full-panel rectangle
(0,0,319,239) the estimates are `sw_time = 38120 < mw_time = 152620` and `display_` does
the single write (strategy A); for the one-pixel rectangle (100,100,100,100) the
estimates are `sw_time = 128`, `mw_time = 0` and `display_` does the multiple write
(strategy B). -/
theorem strategy_selection_320x240 (cu : ColorUtil) (s : State) (buf : List Nat)
    (hw : s.width_ = 320) (hr : s.data_rate_ = 40000000)
    (hm : s.buffer_color_mode_ = .BITS_16) (h18 : s.is_18bitdisplay_ = false)
    (hb : s.buffer_ = some buf) :
    (s.rect = (0, 0, 319, 239) →
      sw_time s s.h s.mhz = 38120 ∧ mw_time 126 s.w s.h s.mhz = 152620 ∧
      display_ cu 126 s =
        some (invalidate_watermarks s,
          [BusOp.enable] ++ single_write s buf s.h ++ [BusOp.disable])) ∧
    (s.rect = (100, 100, 100, 100) →
      sw_time s s.h s.mhz = 128 ∧ mw_time 126 s.w s.h s.mhz = 0 ∧
      display_ cu 126 s =
        some (invalidate_watermarks s,
          [BusOp.enable] ++ multiple_write cu 126 s buf s.w s.h ++ [BusOp.disable])) := by
  constructor
  · intro hrect
    simp only [State.rect, Prod.mk.injEq] at hrect
    obtain ⟨r1, r2, r3, r4⟩ := hrect
    have e1 : s.w = 320 := by simp [State.w, sz, r1, r3]
    have e2 : s.h = 240 := by simp [State.h, sz, r2, r4]
    have e3 : s.mhz = 40 := by simp [State.mhz, sz, hr]
    have e4 : sw_time s 240 40 = 38120 := by
      simp [sw_time, sz, hw, SPI_MAX_BLOCK_SIZE, SPI_SETUP_US]
    have e5 : mw_time 126 320 240 40 = 152620 := by
      simp [mw_time, sz, SPI_SETUP_US]
    rw [display_eq cu 126 s buf hb (by omega) (by omega) (by omega) (by omega)]
    rw [e1, e2, e3, e4, e5]
    refine ⟨rfl, rfl, ?_⟩
    have : use_single_write 126 s 320 240 40 = true := by
      simp [use_single_write, hm, h18, e4, e5]
    rw [if_pos this]
  · intro hrect
    simp only [State.rect, Prod.mk.injEq] at hrect
    obtain ⟨r1, r2, r3, r4⟩ := hrect
    have e1 : s.w = 1 := by simp [State.w, sz, r1, r3]
    have e2 : s.h = 1 := by simp [State.h, sz, r2, r4]
    have e3 : s.mhz = 40 := by simp [State.mhz, sz, hr]
    have e4 : sw_time s 1 40 = 128 := by
      simp [sw_time, sz, hw, SPI_MAX_BLOCK_SIZE, SPI_SETUP_US]
    have e5 : mw_time 126 1 1 40 = 0 := by
      simp [mw_time, sz, SPI_SETUP_US]
    rw [display_eq cu 126 s buf hb (by omega) (by omega) (by omega) (by omega)]
    rw [e1, e2, e3, e4, e5]
    refine ⟨rfl, rfl, ?_⟩
    have : use_single_write 126 s 1 1 40 = false := by
      simp [use_single_write, hm, h18, e4, e5]
    rw [this]
    simp

theorem strategy_selection_320x240_witness :
    (samplePanel.width_ = 320 ∧ samplePanel.data_rate_ = 40000000 ∧
      samplePanel.buffer_color_mode_ = .BITS_16 ∧ samplePanel.is_18bitdisplay_ = false ∧
      samplePanel.buffer_ = some (List.replicate 153600 0) ∧
      samplePanel.rect = (0, 0, 319, 239)) ∧
    sw_time samplePanel samplePanel.h samplePanel.mhz = 38120 ∧
    mw_time 126 samplePanel.w samplePanel.h samplePanel.mhz = 152620 :=
  ⟨⟨rfl, rfl, rfl, rfl, rfl, rfl⟩,
    let h := (strategy_selection_320x240 sampleUtil samplePanel (List.replicate 153600 0)
      rfl rfl rfl rfl rfl).1 rfl
    ⟨h.1, h.2.1⟩⟩
/-- C8: when `display_` takes the single-write strategy (A) for a non-empty dirty
rectangle inside the panel, the bus sees: enable, the address window
`(0, y_low_, width_-1, y_high_)`, one `write_array` of the frame-buffer slice that starts
at byte `y_low_*width_*2` and is `width_*h*2` bytes long (`h = y_high_-y_low_+1`),
disable. The slice has exactly that length and ends inside the `width_*height_*2`-byte
buffer. -/
theorem single_write_sends_full_rows (cu : ColorUtil) (tbs : Nat) (s : State)
    (buf : List Nat) (hb : s.buffer_ = some buf)
    (hl : buf.length = s.width_ * s.height_ * bytes_per_pixel s.buffer_color_mode_)
    (hxl : s.x_low_ ≤ s.x_high_) (hxh : s.x_high_ < s.width_)
    (hyl : s.y_low_ ≤ s.y_high_) (hyh : s.y_high_ < s.height_)
    (hw : s.width_ < 32768) (hh : s.height_ < 32768)
    (hm : s.mhz ≠ 0) (ht : tbs ≠ 0)
    (hs : use_single_write tbs s s.w s.h s.mhz = true) :
    display_ cu tbs s =
      some (invalidate_watermarks s,
        [BusOp.enable] ++ set_addr_window_ s 0 s.y_low_ (s.width_ - 1) s.y_high_ ++
          [BusOp.write_array ((buf.drop (s.y_low_ * s.width_ * 2)).take
            (s.width_ * (s.y_high_ - s.y_low_ + 1) * 2))] ++ [BusOp.disable]) ∧
    ((buf.drop (s.y_low_ * s.width_ * 2)).take
        (s.width_ * (s.y_high_ - s.y_low_ + 1) * 2)).length =
      s.width_ * (s.y_high_ - s.y_low_ + 1) * 2 ∧
    s.y_low_ * s.width_ * 2 + s.width_ * (s.y_high_ - s.y_low_ + 1) * 2 ≤
      s.width_ * s.height_ * 2 ∧
    buf.length = s.width_ * s.height_ * 2 := by
  obtain ⟨hmode, -⟩ := use_single_write_mode tbs s _ _ _ hs
  rw [hmode] at hl
  simp only [bytes_per_pixel] at hl
  have hhe := rect_h_eq s hyl (by omega)
  have hwm : u16i (s.get_width_internal - 1) = s.width_ - 1 := by
    unfold u16i State.get_width_internal; omega
  have hprod : s.h * s.width_ * 2 < 4294967296 :=
    mul_lt_of_lt_32768 (by rw [hhe]; omega) hw
  have hlen : sz (sz (s.h * s.width_) * 2) = s.width_ * (s.y_high_ - s.y_low_ + 1) * 2 := by
    have : s.h * s.width_ = s.width_ * (s.y_high_ - s.y_low_ + 1) := by
      rw [hhe, Nat.mul_comm]
    unfold sz
    omega
  have hin : s.y_low_ * s.width_ * 2 + s.width_ * (s.y_high_ - s.y_low_ + 1) * 2 ≤
      s.width_ * s.height_ * 2 := by
    have e : s.y_low_ * s.width_ * 2 + s.width_ * (s.y_high_ - s.y_low_ + 1) * 2 =
        s.width_ * (s.y_high_ + 1) * 2 := by
      have : s.y_low_ + (s.y_high_ - s.y_low_ + 1) = s.y_high_ + 1 := by omega
      rw [← this]; ring
    rw [e]
    exact Nat.mul_le_mul_right 2 (Nat.mul_le_mul_left _ (by omega))
  refine ⟨?_, ?_, hin, hl⟩
  · rw [display_eq cu tbs s buf hb hxl hyl hm ht, if_pos hs, single_write, hwm, hlen]
    simp only [List.append_assoc]
  · rw [List.length_take, List.length_drop]
    omega

theorem single_write_sends_full_rows_witness :
    (sampleDirty.buffer_ = some (List.replicate 24 0) ∧
      (List.replicate 24 0).length = sampleDirty.width_ * sampleDirty.height_ *
        bytes_per_pixel sampleDirty.buffer_color_mode_ ∧
      sampleDirty.x_low_ ≤ sampleDirty.x_high_ ∧ sampleDirty.x_high_ < sampleDirty.width_ ∧
      sampleDirty.y_low_ ≤ sampleDirty.y_high_ ∧ sampleDirty.y_high_ < sampleDirty.height_ ∧
      sampleDirty.width_ < 32768 ∧ sampleDirty.height_ < 32768 ∧ sampleDirty.mhz ≠ 0 ∧
      6 ≠ 0 ∧
      use_single_write 6 sampleDirty sampleDirty.w sampleDirty.h sampleDirty.mhz = true) ∧
    sampleDirty.y_low_ * sampleDirty.width_ * 2 +
        sampleDirty.width_ * (sampleDirty.y_high_ - sampleDirty.y_low_ + 1) * 2 ≤
      sampleDirty.width_ * sampleDirty.height_ * 2 :=
  ⟨⟨rfl, by decide, by decide, by decide, by decide, by decide, by decide, by decide,
      by decide, by decide, by decide⟩,
    (single_write_sends_full_rows sampleUtil 6 sampleDirty (List.replicate 24 0) rfl
      (by decide) (by decide) (by decide) (by decide) (by decide) (by decide) (by decide)
      (by decide) (by decide) (by decide)).2.2.1⟩
/-! Update -/

/-- C10: let the repaint routine call `update()` again during each of its first `n`
passes and not during pass `n+1`. Then one outer `update()` (not itself nested, given
fuel for `n+1` passes, bus rate and transfer buffer such that `display_` does not
divide by zero) returns, and its record is: `n` times (repaint, nested `update()`
coalesced), one more repaint, then `display_`. So the repaint ran `n+1` times,
`display_` ran once, after the last repaint, and its result is the result of the whole
call; on return `prossing_update_` and `need_update_` are both false. A nested `update()`
only sets `need_update_`: it leaves the bus record untouched and records neither a
repaint nor a `display_`. -/
theorem update_coalesces_reentrant_calls (cu : ColorUtil) (tbs : Nat)
    (calls_update : Nat → Bool) (n fuel : Nat) (y : Sys)
    (hp : y.st.prossing_update_ = false)
    (hfirst : ∀ k, k < n → calls_update k = true) (hlast : calls_update n = false)
    (hfuel : n + 2 ≤ fuel) (hm : y.st.mhz ≠ 0) (ht : tbs ≠ 0) :
    (∃ r, display_ cu tbs { y.st with prossing_update_ := false, need_update_ := false } =
          some r ∧
        update cu tbs (scripted_repaint calls_update) fuel y =
          some { st := r.1, bus := y.bus ++ r.2,
                 calls := y.calls ++
                   (List.replicate n [Call.repaint, Call.coalesced]).flatten ++
                   [Call.repaint, Call.display_] } ∧
        r.1.prossing_update_ = false ∧ r.1.need_update_ = false) ∧
    (((List.replicate n [Call.repaint, Call.coalesced]).flatten ++
        [Call.repaint, Call.display_]).count Call.repaint = n + 1 ∧
     ((List.replicate n [Call.repaint, Call.coalesced]).flatten ++
        [Call.repaint, Call.display_]).count Call.display_ = 1 ∧
     ((List.replicate n [Call.repaint, Call.coalesced]).flatten ++
        [Call.repaint, Call.display_]).count Call.coalesced = n) ∧
    (∀ (t : Sys) (g : Nat), t.st.prossing_update_ = true →
      update cu tbs (scripted_repaint calls_update) (g + 1) t =
        some { t with st := { t.st with need_update_ := true },
                      calls := t.calls ++ [Call.coalesced] }) := by
  refine ⟨?_, count_passes n, fun t g ht' => update_nested cu tbs _ g t ht'⟩
  obtain ⟨r, hr, hr1, hr2⟩ := display_total cu tbs
    { y.st with prossing_update_ := false, need_update_ := false } hm ht
  refine ⟨r, hr, ?_, hr1, hr2⟩
  obtain ⟨f, rfl⟩ : ∃ f, fuel = f + 2 := ⟨fuel - 2, by omega⟩
  have hloop := update_loop_scripted calls_update
    (fun t => update cu tbs (scripted_repaint calls_update) (f + 1) t) n hfirst hlast
    (fun t ht' => update_nested cu tbs _ f t ht') n 0 (f + 1)
    { y with st := { y.st with prossing_update_ := true } } (by omega) (by omega) rfl
  rw [show f + 2 = (f + 1) + 1 from rfl, update_outer cu tbs _ (f + 1) y hp, hloop]
  simp only [display_sys]
  simp only [] at hr
  rw [hr]
  simp

theorem update_coalesces_reentrant_calls_witness :
    ((⟨sampleState, [], []⟩ : Sys).st.prossing_update_ = false ∧ 1 + 2 ≤ 3 ∧
      (⟨sampleState, [], []⟩ : Sys).st.mhz ≠ 0 ∧ 126 ≠ 0) ∧
    (update sampleUtil 126 (scripted_repaint fun k => decide (k < 1)) 3
        ⟨sampleState, [], []⟩).map (fun y => (y.calls, y.st.prossing_update_, y.st.need_update_)) =
      some ([Call.repaint, Call.coalesced, Call.repaint, Call.display_], false, false) := by
  refine ⟨⟨rfl, by decide, by decide, by decide⟩, ?_⟩
  obtain ⟨⟨r, _, hu, h1, h2⟩, _⟩ := update_coalesces_reentrant_calls sampleUtil 126
    (fun k => decide (k < 1)) 1 3 ⟨sampleState, [], []⟩ rfl (fun k hk => decide_eq_true hk)
    (by decide) (by decide) (by decide) (by decide)
  rw [hu]
  simp [h1, h2]
/-! Direct block writes -/

/-- C11: what the code does. `draw_pixels_at` takes the direct path exactly when `w > 0`,
`h > 0`, the buffer mode is 16 bit, the source bitness is 565, the source order is RGB
and the source is big-endian; `is_18bitdisplay_` is not consulted. On a panel in 18-bit
mode with a 16-bit buffer a 1×1 block in that format therefore takes the direct path and
is put on the bus as two bytes of 565 data. -/
theorem draw_pixels_at_ignores_18bit :
    (∀ (s : State) (w h : Int) (order : ColorOrder) (bitness : ColorBitness)
        (big_endian : Bool),
      draw_pixels_at_route s w h order bitness big_endian = .direct ↔
        (0 < w ∧ 0 < h ∧ s.buffer_color_mode_ = .BITS_16 ∧ bitness = .COLOR_BITNESS_565 ∧
          order = .COLOR_ORDER_RGB ∧ big_endian = true)) ∧
    sample18.is_18bitdisplay_ = true ∧
    draw_pixels_at_route sample18 1 1 .COLOR_ORDER_RGB .COLOR_BITNESS_565 true = .direct ∧
    (draw_pixels_at (fun t => (t, [])) sample18 0 0 1 1 [0xF8, 0x00] .COLOR_ORDER_RGB
        .COLOR_BITNESS_565 true 0 0 0).2 =
      [BusOp.enable] ++ set_addr_window_ sample18 0 0 0 0 ++
        [BusOp.write_array [0xF8, 0x00], BusOp.disable] :=
  ⟨route_direct_iff, rfl, by decide, by decide⟩

/-- C12: whenever `draw_pixels_at` takes the direct path (`w > 0`, `h > 0`, 16-bit buffer
mode, source 565 / RGB / big-endian), whatever the position, the source data, the
offsets and the padding, the state after the call is the state before it: the frame
buffer and the dirty rectangle `(x_low_, y_low_, x_high_, y_high_)` are untouched. -/
theorem draw_pixels_at_direct_keeps_state (parent : State → State × List BusOp) (s : State)
    (x_start y_start w h : Int) (ptr : List Nat) (order : ColorOrder) (bitness : ColorBitness)
    (big_endian : Bool) (x_offset y_offset x_pad : Int)
    (hw : 0 < w) (hh : 0 < h) (hm : s.buffer_color_mode_ = .BITS_16)
    (hb : bitness = .COLOR_BITNESS_565) (ho : order = .COLOR_ORDER_RGB)
    (he : big_endian = true) :
    (draw_pixels_at parent s x_start y_start w h ptr order bitness big_endian
        x_offset y_offset x_pad).1 = s ∧
    (draw_pixels_at parent s x_start y_start w h ptr order bitness big_endian
        x_offset y_offset x_pad).1.buffer_ = s.buffer_ ∧
    (draw_pixels_at parent s x_start y_start w h ptr order bitness big_endian
        x_offset y_offset x_pad).1.rect = s.rect := by
  have hr := (route_direct_iff s w h order bitness big_endian).mpr ⟨hw, hh, hm, hb, ho, he⟩
  rw [draw_pixels_at_direct parent s x_start y_start w h ptr order bitness big_endian
    x_offset y_offset x_pad hr]
  exact ⟨rfl, rfl, rfl⟩

theorem draw_pixels_at_direct_keeps_state_witness :
    ((0 : Int) < 2 ∧ (0 : Int) < 2 ∧ sampleDirty.buffer_color_mode_ = .BITS_16 ∧
      ColorBitness.COLOR_BITNESS_565 = .COLOR_BITNESS_565 ∧
      ColorOrder.COLOR_ORDER_RGB = .COLOR_ORDER_RGB ∧ true = true) ∧
    (draw_pixels_at (fun t => (t, [])) sampleDirty 1 1 2 2 (List.range 40) .COLOR_ORDER_RGB
      .COLOR_BITNESS_565 true 1 1 1).1 = sampleDirty :=
  ⟨⟨by decide, by decide, rfl, rfl, rfl, rfl⟩,
    (draw_pixels_at_direct_keeps_state (fun t => (t, [])) sampleDirty 1 1 2 2 (List.range 40)
      .COLOR_ORDER_RGB .COLOR_BITNESS_565 true 1 1 1 (by decide) (by decide) rfl rfl rfl
      rfl).1⟩

/-! Wire encoding -/

/-- C13: in 18-bit mode a 16-bit 565 value `v` is staged as exactly three bytes, in this
order: `b0 = (v & 0xF800) >> 8` (bits 15..11 of `v` above three zero bits),
`b1 = (v & 0x07E0) >> 3` (bits 10..5 above two zero bits), `b2 = (v << 3) mod 256`
(bits 4..0 above three zero bits); the staging index moves on by three, and `v` is
recovered as `((b0 >> 3) << 11) | ((b1 >> 2) << 5) | (b2 >> 3)`. -/
theorem expand18_bytes (s : State) (v : Nat) (tb : List Nat) (idx : Nat)
    (h18 : s.is_18bitdisplay_ = true) (hv : v < 65536) (hroom : idx + 3 ≤ tb.length) :
    (stage_pixel s tb idx v).2 = idx + 3 ∧
    (stage_pixel s tb idx v).1.take (idx + 3) =
      tb.take idx ++ [(v &&& 0xF800) >>> 8, (v &&& 0x7E0) >>> 3, (v <<< 3) % 256] ∧
    wire_bytes s v = [(v &&& 0xF800) >>> 8, (v &&& 0x7E0) >>> 3, (v <<< 3) % 256] ∧
    ((v &&& 0xF800) >>> 8 = v / 2048 * 8 ∧ (v &&& 0x7E0) >>> 3 = v / 32 % 64 * 4 ∧
      (v <<< 3) % 256 = v % 32 * 8) ∧
    v = ((((v &&& 0xF800) >>> 8) >>> 3) <<< 11) ||| ((((v &&& 0x7E0) >>> 3) >>> 2) <<< 5) |||
      (((v <<< 3) % 256) >>> 3) := by
  have e0 := expand18_b0 v hv
  have e1 := expand18_b1 v
  have e2 : (v <<< 3) % 256 = v % 32 * 8 := expand18_b2 v
  have hw : wire_bytes s v = [(v &&& 0xF800) >>> 8, (v &&& 0x7E0) >>> 3, (v <<< 3) % 256] := by
    unfold wire_bytes
    rw [if_pos h18]
    have l0 : u8 ((v &&& 0xF800) >>> 8) = (v &&& 0xF800) >>> 8 := by
      rw [e0]; unfold u8; omega
    have l1 : u8 ((v &&& 0x7E0) >>> 3) = (v &&& 0x7E0) >>> 3 := by
      rw [e1]; unfold u8; omega
    rw [l0, l1]
    rfl
  have hsz : wire_size s = 3 := by unfold wire_size; rw [if_pos h18]
  refine ⟨?_, ?_, hw, ⟨e0, e1, e2⟩, ?_⟩
  · rw [stage_pixel_idx, hsz]
  · rw [← hw, ← stage_pixel_take s tb idx v (by rw [hsz]; exact hroom), hsz]
  · rw [e0, e1, e2]
    simp only [Nat.shiftRight_eq_div_pow]
    rw [or_recombine _ _ _ (by omega) (by omega)]
    omega

theorem expand18_bytes_witness :
    (sample18.is_18bitdisplay_ = true ∧ 0xF81F < 65536 ∧ 0 + 3 ≤ (List.replicate 6 0).length) ∧
    wire_bytes sample18 0xF81F = [0xF8, 0x00, 0xF8] :=
  ⟨⟨rfl, by decide, by decide⟩,
    (expand18_bytes sample18 0xF81F (List.replicate 6 0) 0 rfl (by decide) (by decide)).2.2.1⟩

/-- C14: round trip in 16-bit mode. After an in-bounds pixel write of a colour whose 565
value is `v`, byte `2p` of the buffer is `v >> 8` and byte `2p+1` is `v & 0xFF`
(`p = y*width_ + x`); `display_` reads the pixel back as
`(buffer_[2p] << 8) + buffer_[2p+1] = v`, and the two bytes `put16_be` then stages for
the wire are the two stored bytes, in the same order. -/
theorem rgb565_round_trip (cu : ColorUtil) (s : State) (x y : Nat) (color : Color)
    (buf : List Nat) (tb : List Nat) (idx : Nat)
    (hx : x < s.width_) (hy : y < s.height_) (hb : s.buffer_ = some buf)
    (hl : buf.length = s.width_ * s.height_ * 2)
    (hm : s.buffer_color_mode_ = .BITS_16)
    (hroom : idx + 2 ≤ tb.length) :
    ∃ buf', (draw_absolute_pixel_internal cu s x y color).buffer_ = some buf' ∧
      peek buf' (2 * (y * s.width_ + x)) = u16 (cu.color_to_565 color) >>> 8 ∧
      peek buf' (2 * (y * s.width_ + x) + 1) = u16 (cu.color_to_565 color) &&& 0xFF ∧
      color_val_at cu (draw_absolute_pixel_internal cu s x y color) buf' (y * s.width_ + x) =
        u16 (cu.color_to_565 color) ∧
      (put16_be tb idx (color_val_at cu (draw_absolute_pixel_internal cu s x y color) buf'
          (y * s.width_ + x))).take (idx + 2) =
        tb.take idx ++ [peek buf' (2 * (y * s.width_ + x)),
          peek buf' (2 * (y * s.width_ + x) + 1)] := by
  have hp := pixel_index_lt hx hy
  obtain ⟨hmode, h18', -⟩ := draw_config cu s x y color buf hx hy hb
  have key := store_pixel_peek_16 cu s buf (y * s.width_ + x) color hm (by omega)
  have k0 : peek (store_pixel cu s buf (y * s.width_ + x) color).1 (2 * (y * s.width_ + x)) =
      u16 (cu.color_to_565 color) / 256 := by
    rw [key, if_neg (by omega), if_pos (by omega)]
  have k1 : peek (store_pixel cu s buf (y * s.width_ + x) color).1
      (2 * (y * s.width_ + x) + 1) = u16 (cu.color_to_565 color) % 256 := by
    rw [key, if_pos (by omega)]
  have hcv : color_val_at cu (draw_absolute_pixel_internal cu s x y color)
      (store_pixel cu s buf (y * s.width_ + x) color).1 (y * s.width_ + x) =
        u16 (cu.color_to_565 color) := by
    unfold color_val_at
    rw [hmode, hm]
    simp only
    rw [show (y * s.width_ + x) * 2 = 2 * (y * s.width_ + x) by omega, k0, k1]
    simp only [Nat.shiftLeft_eq, u16]
    omega
  refine ⟨_, draw_buffer cu s x y color buf hx hy hb, ?_, ?_, hcv, ?_⟩
  · rw [k0, shr8]
  · rw [k1, and255]
  · rw [hcv, k0, k1]
    have h256 : u16 (cu.color_to_565 color) / 256 < 256 := by
      unfold u16; omega
    unfold put16_be
    rw [show idx + 2 = (idx + 1) + 1 by omega, take_set_succ _ _ _ (by simp; omega),
      take_set_succ _ _ _ (by omega)]
    simp [shr8, u8, Nat.mod_eq_of_lt h256]

theorem rgb565_round_trip_witness :
    ((1 : Nat) < sampleState.width_ ∧ (2 : Nat) < sampleState.height_ ∧
      sampleState.buffer_ = some (List.replicate 24 0) ∧
      (List.replicate 24 0).length = sampleState.width_ * sampleState.height_ * 2 ∧
      sampleState.buffer_color_mode_ = .BITS_16 ∧
      0 + 2 ≤ (List.replicate 6 0).length) ∧
    ∃ buf', (draw_absolute_pixel_internal sampleUtil sampleState (1 : Nat) (2 : Nat)
        ⟨255, 0, 0, 0⟩).buffer_ = some buf' ∧
      color_val_at sampleUtil (draw_absolute_pixel_internal sampleUtil sampleState (1 : Nat)
        (2 : Nat) ⟨255, 0, 0, 0⟩) buf' (2 * sampleState.width_ + 1) =
        u16 (sampleUtil.color_to_565 ⟨255, 0, 0, 0⟩) :=
  ⟨⟨by decide, by decide, rfl, by decide, rfl, by decide⟩,
    let ⟨b, h1, _, _, h4, _⟩ := rgb565_round_trip sampleUtil sampleState 1 2 ⟨255, 0, 0, 0⟩
      (List.replicate 24 0) (List.replicate 6 0) 0 (by decide) (by decide) rfl (by decide)
      rfl (by decide)
    ⟨b, h1, h4⟩⟩

/-! Reachable states -/

/-- C15: for `width_ > 0` and `height_ > 0` (16-bit values), in every state reachable
from `setup` by pixel writes, fills, direct block writes and flushes, the dirty rectangle
is either the empty one, `x_low_ = width_`, `y_low_ = height_`, `x_high_ = 0`,
`y_high_ = 0` (so `x_high_ < x_low_`), or a rectangle with
`0 ≤ x_low_ ≤ x_high_ < width_` and `0 ≤ y_low_ ≤ y_high_ < height_`. -/
theorem reachable_rect_empty_or_valid (cu : ColorUtil) (tbs : Nat) (s : State)
    (hr : Reachable cu tbs s) (hw0 : 0 < s.width_) (hw : s.width_ < 65536)
    (hh0 : 0 < s.height_) (hh : s.height_ < 65536) :
    (s.x_low_ = s.width_ ∧ s.y_low_ = s.height_ ∧ s.x_high_ = 0 ∧ s.y_high_ = 0 ∧
        s.x_high_ < s.x_low_) ∨
      (0 ≤ s.x_low_ ∧ s.x_low_ ≤ s.x_high_ ∧ s.x_high_ < s.width_ ∧
        0 ≤ s.y_low_ ∧ s.y_low_ ≤ s.y_high_ ∧ s.y_high_ < s.height_) := by
  rcases reachable_rect_inv cu tbs s hr hw0 hw hh0 hh with hc | ⟨h1, h2, h3, h4⟩
  · left
    simp only [State.rect, Prod.mk.injEq] at hc
    obtain ⟨c1, c2, c3, c4⟩ := hc
    exact ⟨c1, c2, c3, c4, by omega⟩
  · right
    exact ⟨Nat.zero_le _, h1, h2, Nat.zero_le _, h3, h4⟩

theorem reachable_rect_empty_or_valid_witness :
    (Reachable sampleUtil 126
        (draw_absolute_pixel_internal sampleUtil (invalidate_watermarks sampleState) 1 2
          ⟨255, 0, 0, 0⟩) ∧
      0 < (draw_absolute_pixel_internal sampleUtil (invalidate_watermarks sampleState) 1 2
          ⟨255, 0, 0, 0⟩).width_ ∧
      (draw_absolute_pixel_internal sampleUtil (invalidate_watermarks sampleState) 1 2
          ⟨255, 0, 0, 0⟩).width_ < 65536 ∧
      0 < (draw_absolute_pixel_internal sampleUtil (invalidate_watermarks sampleState) 1 2
          ⟨255, 0, 0, 0⟩).height_ ∧
      (draw_absolute_pixel_internal sampleUtil (invalidate_watermarks sampleState) 1 2
          ⟨255, 0, 0, 0⟩).height_ < 65536) ∧
    (draw_absolute_pixel_internal sampleUtil (invalidate_watermarks sampleState) 1 2
        ⟨255, 0, 0, 0⟩).x_high_ <
      (draw_absolute_pixel_internal sampleUtil (invalidate_watermarks sampleState) 1 2
        ⟨255, 0, 0, 0⟩).width_ :=
  ⟨⟨Reachable.draw _ 1 2 ⟨255, 0, 0, 0⟩ (Reachable.setup sampleState), by decide, by decide,
      by decide, by decide⟩,
    (reachable_rect_empty_or_valid sampleUtil 126 _
      (Reachable.draw _ 1 2 ⟨255, 0, 0, 0⟩ (Reachable.setup sampleState)) (by decide)
      (by decide) (by decide) (by decide)).elim (fun h => by
        have h1 := h.1
        have h3 := h.2.2.1
        have h5 := h.2.2.2.2
        omega) (fun h => h.2.2.1)⟩

/-- C16: on the direct path of `draw_pixels_at` (`w > 0`, `h > 0`, source long enough for
the block) the bus sees: one enable, the address window
`(x_start, y_start, x_start+w-1, y_start+h-1)`, then exactly `h` transfers, transfer `r`
being the `w*2` source bytes of the `w` consecutive 16-bit pixels from source pixel index
`(y_offset + r) * (w + x_pad) + x_offset`, then one disable. Every transfer is `w*2`
bytes long and the pixel data add up to `2*w*h` bytes. -/
theorem draw_pixels_at_direct_transfers (parent : State → State × List BusOp) (s : State)
    (x_start y_start w h x_offset y_offset x_pad : Nat) (ptr : List Nat)
    (order : ColorOrder) (bitness : ColorBitness) (big_endian : Bool)
    (hw : 0 < w) (hh : 0 < h) (hm : s.buffer_color_mode_ = .BITS_16)
    (hb : bitness = .COLOR_BITNESS_565) (ho : order = .COLOR_ORDER_RGB)
    (he : big_endian = true)
    (hsrc : ((y_offset + (h - 1)) * (w + x_pad) + x_offset + w) * 2 ≤ ptr.length) :
    (draw_pixels_at parent s x_start y_start w h ptr order bitness big_endian
        x_offset y_offset x_pad).2 =
      [BusOp.enable] ++
        set_addr_window_ s x_start y_start (x_start + w - 1) (y_start + h - 1) ++
        ((List.range h).map fun r =>
          BusOp.write_array
            ((ptr.drop (((y_offset + r) * (w + x_pad) + x_offset) * 2)).take (w * 2))) ++
        [BusOp.disable] ∧
    (∀ r, r < h →
      ((ptr.drop (((y_offset + r) * (w + x_pad) + x_offset) * 2)).take (w * 2)).length =
        w * 2) ∧
    (payload ((List.range h).map fun r =>
        BusOp.write_array
          ((ptr.drop (((y_offset + r) * (w + x_pad) + x_offset) * 2)).take (w * 2)))).length =
      2 * w * h := by
  have hr := (route_direct_iff s w h order bitness big_endian).mpr
    ⟨by omega, by omega, hm, hb, ho, he⟩
  have hlen : ∀ r, r < h →
      ((ptr.drop (((y_offset + r) * (w + x_pad) + x_offset) * 2)).take (w * 2)).length =
        w * 2 := by
    intro r hr'
    have h1 : (y_offset + r) * (w + x_pad) ≤ (y_offset + (h - 1)) * (w + x_pad) :=
      Nat.mul_le_mul_right _ (by omega)
    rw [List.length_take, List.length_drop]
    omega
  refine ⟨?_, hlen, ?_⟩
  · rw [draw_pixels_at_direct parent s _ _ _ _ ptr order bitness big_endian _ _ _ hr]
    unfold draw_pixels_direct
    have e1 : ((w : Int) + (x_pad : Int)).toNat = w + x_pad := by omega
    have e2 : ((y_offset : Int) * ((w + x_pad : Nat) : Int) + (x_offset : Int)).toNat =
        y_offset * (w + x_pad) + x_offset := toNat_pos x_offset y_offset (w + x_pad)
    have e3 : ((w : Int) * 2).toNat = w * 2 := by omega
    have e4 : ((x_start : Int) + (w : Int) - 1) = ((x_start + w - 1 : Nat) : Int) := by omega
    have e5 : ((y_start : Int) + (h : Int) - 1) = ((y_start + h - 1 : Nat) : Int) := by omega
    simp only [e1, e2, e3, e4, e5, Int.toNat_natCast, set_addr_window_u16i, direct_rows_eq]
    congr 3
    funext r
    have : y_offset * (w + x_pad) + x_offset + r * (w + x_pad) =
        (y_offset + r) * (w + x_pad) + x_offset := by ring
    rw [this]
  · rw [payload_rows_length _ (w * 2) h hlen]
    ring

theorem draw_pixels_at_direct_transfers_witness :
    (0 < 2 ∧ 0 < 2 ∧ sampleState.buffer_color_mode_ = .BITS_16 ∧
      ColorBitness.COLOR_BITNESS_565 = .COLOR_BITNESS_565 ∧
      ColorOrder.COLOR_ORDER_RGB = .COLOR_ORDER_RGB ∧ true = true ∧
      ((1 + (2 - 1)) * (2 + 1) + 1 + 2) * 2 ≤ (List.range 40).length) ∧
    (draw_pixels_at (fun t => (t, [])) sampleState (1 : Nat) (1 : Nat) (2 : Nat) (2 : Nat)
        (List.range 40) .COLOR_ORDER_RGB .COLOR_BITNESS_565 true (1 : Nat) (1 : Nat)
        (1 : Nat)).2 =
      [BusOp.enable] ++ set_addr_window_ sampleState 1 1 (1 + 2 - 1) (1 + 2 - 1) ++
        ((List.range 2).map fun r =>
          BusOp.write_array (((List.range 40).drop (((1 + r) * (2 + 1) + 1) * 2)).take (2 * 2))) ++
        [BusOp.disable] :=
  ⟨⟨by decide, by decide, rfl, rfl, rfl, rfl, by decide⟩,
    (draw_pixels_at_direct_transfers (fun t => (t, [])) sampleState 1 1 2 2 1 1 1
      (List.range 40) .COLOR_ORDER_RGB .COLOR_BITNESS_565 true (by decide) (by decide) rfl rfl
      rfl rfl (by decide)).1⟩

/-! Initialisation table -/

/-- C17: for an init table made of well-formed entries `(cmd ≠ 0, x, a_1..a_n)`,
`n = x & 0x7F`, followed by a zero command byte (and by anything after it), `init_lcd_`
returns; it issues, in table order, one `send_command(cmd, a_1..a_n)` per entry,
followed by a 150 ms delay exactly when bit 7 of `x` is set; the read position ends just
behind the zero byte, so what follows the zero byte is not read and has no influence. -/
theorem init_lcd_runs_the_table (entries : List InitEntry) (rest : List Nat)
    (hwf : ∀ e ∈ entries, 0 < e.cmd ∧ e.args.length = e.x &&& 0x7F) :
    init_lcd_ (entries.flatMap InitEntry.encode ++ 0 :: rest) =
      some (entries.flatMap (fun e =>
          send_command e.cmd e.args ++ (if e.x &&& 0x80 ≠ 0 then [BusOp.delay 150] else [])),
        (entries.flatMap InitEntry.encode).length + 1) := by
  have hge := encode_length_ge entries
  have h := init_loop_entries entries [] rest
    (entries.flatMap InitEntry.encode ++ 0 :: rest).length hwf (by
      simp only [List.length_append, List.length_cons]
      omega)
  simp only [List.nil_append, List.length_nil, Nat.zero_add] at h
  unfold init_lcd_
  rw [h]
  rfl

theorem init_lcd_runs_the_table_witness :
    (∀ e ∈ [(⟨0xEF, 3, [0x03, 0x80, 0x02]⟩ : InitEntry), ⟨0x11, 0x80, []⟩],
      0 < e.cmd ∧ e.args.length = e.x &&& 0x7F) ∧
    init_lcd_ [0xEF, 3, 0x03, 0x80, 0x02, 0x11, 0x80, 0x00, 99] =
      some (send_command 0xEF [0x03, 0x80, 0x02] ++ (send_command 0x11 [] ++ [BusOp.delay 150]),
        8) :=
  ⟨by decide,
    init_lcd_runs_the_table [⟨0xEF, 3, [0x03, 0x80, 0x02]⟩, ⟨0x11, 0x80, []⟩] [99] (by decide)⟩

/-! Staging buffer and strategy equivalence -/

/-- C18: let the transfer buffer capacity `tbs` be a positive multiple of 6 and the dirty
rectangle have `w*h` pixels, `0 < w*h < 2^32`. In the multiple-write strategy (B), in
16-bit and in 18-bit output alike: before every pass of the loop the staging buffer has
`tbs` bytes and `idx` plus the bytes of one pixel is at most `tbs`, so every store of the
pass lands inside `transfer_buffer`, and `idx` stays below `tbs` after every pass. The
bus sees, after the window commands, full blocks of exactly `tbs` bytes, each followed by
one watchdog feed, and then at most one last block of 1 to `tbs - 1` bytes without a
feed; there is at least one block, and all blocks together hold `2*w*h` bytes (`3*w*h`
in 18-bit mode). -/
theorem staging_buffer_stays_in_bounds (cu : ColorUtil) (tbs : Nat) (s : State)
    (buf : List Nat) (w h : Nat) (ht : 0 < tbs) (h6 : 6 ∣ tbs) (hpos : 0 < w * h)
    (hsz : w * h < 4294967296) :
    (∀ j, j < w * h →
      (flush_loop cu tbs s buf w j (flush_start tbs s)).transfer_buffer.length = tbs ∧
      (flush_loop cu tbs s buf w j (flush_start tbs s)).idx +
        (if s.is_18bitdisplay_ then 3 else 2) ≤ tbs) ∧
    (∀ j, (flush_loop cu tbs s buf w j (flush_start tbs s)).idx < tbs) ∧
    ∃ (blocks : List (List Nat)) (last : List Nat),
      multiple_write cu tbs s buf w h =
        set_addr_window_ s s.x_low_ s.y_low_ s.x_high_ s.y_high_ ++
          blocks.flatMap (fun b => [BusOp.write_array b, BusOp.feed_wdt]) ++
          (if last = [] then [] else [BusOp.write_array last]) ∧
      (∀ b ∈ blocks, b.length = tbs) ∧ last.length < tbs ∧
      (blocks ≠ [] ∨ last ≠ []) ∧
      tbs * blocks.length + last.length = (if s.is_18bitdisplay_ then 3 else 2) * (w * h) := by
  have hdiv := wire_size_dvd_of_six s tbs h6
  have hst : ∀ j, StageInv tbs s (set_addr_window_ s s.x_low_ s.y_low_ s.x_high_ s.y_high_)
      (flush_loop cu tbs s buf w j (flush_start tbs s)) (0 + j) := fun j =>
    flush_loop_stage cu tbs s buf w _ hdiv j (flush_start tbs s) 0 (flush_start_stage tbs s ht)
  refine ⟨?_, ?_, ?_⟩
  · intro j _
    obtain ⟨hlen, hidx, hd, -⟩ := hst j
    exact ⟨hlen, staging_room _ _ _ hidx hd hdiv⟩
  · intro j
    exact (hst j).2.1
  · obtain ⟨blocks, last, h1, h2, h3, h4, h5⟩ := multiple_write_blocks cu tbs s buf w h ht hdiv
      (by rw [Nat.mul_comm]; exact hpos) (by rw [Nat.mul_comm]; exact hsz)
    refine ⟨blocks, last, h1, h2, h3, h5, ?_⟩
    rw [h4, Nat.mul_comm h w]
    rfl

theorem staging_buffer_stays_in_bounds_witness :
    (0 < 6 ∧ 6 ∣ 6 ∧ 0 < 3 * 2 ∧ 3 * 2 < 4294967296) ∧
    ∀ j, (flush_loop sampleUtil 6 sampleDirty (List.replicate 24 0) 3 j
      (flush_start 6 sampleDirty)).idx < 6 :=
  ⟨⟨by decide, by decide, by decide, by decide⟩,
    (staging_buffer_stays_in_bounds sampleUtil 6 sampleDirty (List.replicate 24 0) 3 2
      (by decide) (by decide) (by decide) (by decide)).2.1⟩

/-- C19: in 16-bit mode without 18-bit expansion, for any content of a
`width_*height_*2`-byte buffer: when the dirty rectangle spans full rows (`x_low_ = 0`,
`x_high_ = width_-1`) the single write (A) and the multiple write (B) program the same
address window `(0, y_low_, width_-1, y_high_)`, and the blocks B sends concatenate to
the one slice A sends. For any dirty rectangle inside the panel, A sends that window and
slice too, which is what B sends for the same rows once the rectangle is widened to
`x_low_ = 0`, `x_high_ = width_-1`. -/
theorem strategies_send_same_bytes (cu : ColorUtil) (tbs : Nat) (s : State) (buf : List Nat)
    (hm : s.buffer_color_mode_ = .BITS_16) (h18 : s.is_18bitdisplay_ = false)
    (hbytes : ∀ b ∈ buf, b < 256) (hl : buf.length = s.width_ * s.height_ * 2)
    (hxl : s.x_low_ ≤ s.x_high_) (hxh : s.x_high_ < s.width_)
    (hyl : s.y_low_ ≤ s.y_high_) (hyh : s.y_high_ < s.height_)
    (hw : s.width_ < 32768) (hh : s.height_ < 32768) (ht : 0 < tbs) (h2 : 2 ∣ tbs) :
    single_write s buf s.h =
      set_addr_window_ s 0 s.y_low_ (s.width_ - 1) s.y_high_ ++
        [BusOp.write_array ((buf.drop (s.y_low_ * s.width_ * 2)).take
          (s.width_ * (s.y_high_ - s.y_low_ + 1) * 2))] ∧
    (s.x_low_ = 0 → s.x_high_ = s.width_ - 1 →
      ∃ data, multiple_write cu tbs s buf s.w s.h =
          set_addr_window_ s 0 s.y_low_ (s.width_ - 1) s.y_high_ ++ data ∧
        payload data = (buf.drop (s.y_low_ * s.width_ * 2)).take
          (s.width_ * (s.y_high_ - s.y_low_ + 1) * 2)) ∧
    (∃ data,
      multiple_write cu tbs { s with x_low_ := 0, x_high_ := s.width_ - 1 } buf
          (State.w { s with x_low_ := 0, x_high_ := s.width_ - 1 })
          (State.h { s with x_low_ := 0, x_high_ := s.width_ - 1 }) =
        set_addr_window_ s 0 s.y_low_ (s.width_ - 1) s.y_high_ ++ data ∧
      payload data = (buf.drop (s.y_low_ * s.width_ * 2)).take
        (s.width_ * (s.y_high_ - s.y_low_ + 1) * 2)) := by
  refine ⟨single_write_eq s buf (by omega) hyl hyh hw hh, ?_, ?_⟩
  · intro hx hxe
    exact full_rows_same_bytes cu tbs s buf hm h18 hbytes hl (by omega) hx hxe hyl hyh hw hh ht h2
  · obtain ⟨data, hd, hp⟩ := full_rows_same_bytes cu tbs
      { s with x_low_ := 0, x_high_ := s.width_ - 1 } buf hm h18 hbytes hl
      (show 0 < s.width_ by omega) rfl rfl hyl hyh hw hh ht h2
    refine ⟨data, ?_, hp⟩
    rw [hd, set_addr_window_eq, set_addr_window_eq]

theorem strategies_send_same_bytes_witness :
    (sampleDirty.buffer_color_mode_ = .BITS_16 ∧ sampleDirty.is_18bitdisplay_ = false ∧
      (∀ b ∈ List.replicate 24 0, b < 256) ∧
      (List.replicate 24 0).length = sampleDirty.width_ * sampleDirty.height_ * 2 ∧
      sampleDirty.x_low_ ≤ sampleDirty.x_high_ ∧ sampleDirty.x_high_ < sampleDirty.width_ ∧
      sampleDirty.y_low_ ≤ sampleDirty.y_high_ ∧ sampleDirty.y_high_ < sampleDirty.height_ ∧
      sampleDirty.width_ < 32768 ∧ sampleDirty.height_ < 32768 ∧ 0 < 6 ∧ 2 ∣ 6) ∧
    single_write sampleDirty (List.replicate 24 0) sampleDirty.h =
      set_addr_window_ sampleDirty 0 sampleDirty.y_low_ (sampleDirty.width_ - 1)
          sampleDirty.y_high_ ++
        [BusOp.write_array (((List.replicate 24 0).drop
            (sampleDirty.y_low_ * sampleDirty.width_ * 2)).take
          (sampleDirty.width_ * (sampleDirty.y_high_ - sampleDirty.y_low_ + 1) * 2))] :=
  ⟨⟨rfl, rfl, by decide, by decide, by decide, by decide, by decide, by decide, by decide,
      by decide, by decide, by decide⟩,
    (strategies_send_same_bytes sampleUtil 6 sampleDirty (List.replicate 24 0) rfl rfl
      (by decide) (by decide) (by decide) (by decide) (by decide) (by decide) (by decide)
      (by decide) (by decide) (by decide)).1⟩

/-! Transfer time estimate -/

/-- C20: what the code does. `mhz = data_rate_ / 1000000` is zero for every bus rate
below 1 MHz (and non-zero from 1 MHz up, for 32-bit rates). At 200 kHz, with an allocated
buffer and a non-empty dirty rectangle, `display_` passes both guards and reaches the
division by `mhz = 0`. -/
theorem display_divides_by_zero_below_1mhz :
    (∀ s : State, s.data_rate_ < 4294967296 → (s.mhz = 0 ↔ s.data_rate_ < 1000000)) ∧
    0 < sampleSlow.data_rate_ ∧ sampleSlow.buffer_ ≠ none ∧
    sampleSlow.x_low_ ≤ sampleSlow.x_high_ ∧ sampleSlow.y_low_ ≤ sampleSlow.y_high_ ∧
    sampleSlow.mhz = 0 ∧ display_ sampleUtil 126 sampleSlow = none := by
  refine ⟨?_, by decide, by decide, by decide, by decide, by decide, by decide⟩
  intro s hs
  unfold State.mhz sz
  omega

end ILI9XXX
